import Mathlib

/-!
Verification development for the regex → minimal DFA → right-linear grammar
pipeline implemented in `src/main.cpp` (`RG_praser`).

The C++ source is shallowly embedded: states are list indices (`Nat`),
the C++ sentinel `-1` for "no transition / no trap" is `Option.none`,
`std::vector` / `std::set` become `List` / `Finset Nat`, and the worklist
loops become fuel-indexed recursions whose sufficiency is proved.
-/

namespace RG

/-- Alphabet symbols of the automata: the silent marker (`EPS = '\0'` in the
source) or a real binary symbol (`'0'` ↦ `sym false`, `'1'` ↦ `sym true`). -/
inductive Sym : Type
  | eps : Sym
  | sym (b : Bool) : Sym
deriving DecidableEq, Repr

/-- One NFA state (`NFA::State` in the source): the accept flag and the
transition list.  The C++ `map<char, vector<int>> trans` is embedded as an
edge list; the `id` field of the source always equals the state's position
in the state vector and is therefore represented by the position itself. -/
structure NSt : Type where
  accept : Bool := false
  edges : List (Sym × Nat) := []
deriving DecidableEq, Repr

/-- Nondeterministic automaton (`struct NFA`): a state vector and a start
index. -/
structure NFA : Type where
  states : List NSt
  start : Nat
deriving DecidableEq, Repr

/-- The transition list stored at state `x` (empty when `x` is out of
range, mirroring that the source never reads an invalid index). -/
def edgesAt (sts : List NSt) (x : Nat) : List (Sym × Nat) :=
  match sts[x]? with
  | some st => st.edges
  | none => []

/-- The accept flag stored at state `x`. -/
def acceptAt (sts : List NSt) (x : Nat) : Bool :=
  match sts[x]? with
  | some st => st.accept
  | none => false

/-- `edge sts p c q` holds when the automaton has a transition `p --c--> q`
(the source's `nfa.states[p].trans[c]` contains `q`). -/
def edge (sts : List NSt) (p : Nat) (c : Sym) (q : Nat) : Prop :=
  (c, q) ∈ edgesAt sts p

instance (sts : List NSt) (p : Nat) (c : Sym) (q : Nat) :
    Decidable (edge sts p c q) := by
  unfold edge; infer_instance

/-- `Thompson::add_transition`: append `q` to the transition list of `p`
for symbol `c` (`trans[c].push_back(to)`). -/
def addTrans (sts : List NSt) (p : Nat) (c : Sym) (q : Nat) : List NSt :=
  match sts[p]? with
  | some st => sts.set p { st with edges := st.edges ++ [(c, q)] }
  | none => sts

instance : Inhabited NSt := ⟨⟨false, []⟩⟩

/-- `NFA::new_state`: append a fresh non-accepting state. -/
def newState (sts : List NSt) : List NSt :=
  sts ++ [⟨false, []⟩]

@[simp] theorem length_addTrans (sts : List NSt) (p : Nat) (c : Sym) (q : Nat) :
    (addTrans sts p c q).length = sts.length := by
  unfold addTrans
  cases h : sts[p]? with
  | none => simp
  | some st => simp

@[simp] theorem length_newState (sts : List NSt) :
    (newState sts).length = sts.length + 1 := by
  simp [newState]

theorem edgesAt_addTrans (sts : List NSt) (p : Nat) (c : Sym) (q : Nat) (x : Nat) :
    edgesAt (addTrans sts p c q) x =
      if x = p ∧ p < sts.length then edgesAt sts p ++ [(c, q)] else edgesAt sts x := by
  unfold addTrans edgesAt
  cases h : sts[p]? with
  | none =>
    have hp : ¬ p < sts.length := by
      intro hlt
      rw [List.getElem?_eq_getElem hlt] at h
      exact Option.noConfusion h
    simp only [h]
    have : ¬ (x = p ∧ p < sts.length) := fun ⟨_, h2⟩ => hp h2
    simp [this]
  | some st =>
    have hp : p < sts.length := by
      by_contra hlt
      rw [List.getElem?_eq_none (Nat.le_of_not_lt hlt)] at h
      exact Option.noConfusion h
    by_cases hx : x = p
    · subst hx
      simp [List.getElem?_set_self hp, hp, h]
    · have : ¬ (x = p ∧ p < sts.length) := fun ⟨h1, _⟩ => hx h1
      simp [this, List.getElem?_set_ne (fun h' => hx h'.symm)]

theorem acceptAt_addTrans (sts : List NSt) (p : Nat) (c : Sym) (q : Nat) (x : Nat) :
    acceptAt (addTrans sts p c q) x = acceptAt sts x := by
  unfold addTrans acceptAt
  cases h : sts[p]? with
  | none => simp
  | some st =>
    have hp : p < sts.length := by
      by_contra hlt
      rw [List.getElem?_eq_none (Nat.le_of_not_lt hlt)] at h
      exact Option.noConfusion h
    by_cases hx : x = p
    · subst hx
      simp [List.getElem?_set_self hp, h]
    · rw [List.getElem?_set_ne (fun h' => hx h'.symm)]

theorem edgesAt_newState (sts : List NSt) (x : Nat) :
    edgesAt (newState sts) x = edgesAt sts x := by
  unfold edgesAt newState
  by_cases hx : x < sts.length
  · rw [List.getElem?_append_left hx]
  · rw [List.getElem?_eq_none (Nat.le_of_not_lt hx)]
    by_cases hx' : x = sts.length
    · subst hx'
      rw [List.getElem?_concat_length]
    · rw [List.getElem?_eq_none (by simp; omega)]

theorem acceptAt_newState (sts : List NSt) (x : Nat) :
    acceptAt (newState sts) x = acceptAt sts x := by
  unfold acceptAt newState
  by_cases hx : x < sts.length
  · rw [List.getElem?_append_left hx]
  · rw [List.getElem?_eq_none (Nat.le_of_not_lt hx)]
    by_cases hx' : x = sts.length
    · subst hx'
      rw [List.getElem?_concat_length]
    · rw [List.getElem?_eq_none (by simp; omega)]

theorem edgesAt_oob (sts : List NSt) (x : Nat) (hx : sts.length ≤ x) :
    edgesAt sts x = [] := by
  unfold edgesAt
  rw [List.getElem?_eq_none hx]

/-- Regular-expression syntax tree (`struct RegexNode`), restricted to the
well-formed shapes (every `CHAR` node carries `'0'` or `'1'`, every inner
node has the children its kind requires). -/
inductive Regex : Type
  | chr (b : Bool) : Regex
  | concat (l r : Regex) : Regex
  | union (l r : Regex) : Regex
  | star (e : Regex) : Regex
deriving DecidableEq, Repr

/-- Standard language-theoretic semantics of a regular expression over the
binary alphabet. -/
inductive RMatch : Regex → List Bool → Prop
  | chr (b : Bool) : RMatch (.chr b) [b]
  | concat {l r : Regex} {w1 w2 : List Bool} :
      RMatch l w1 → RMatch r w2 → RMatch (.concat l r) (w1 ++ w2)
  | unionL {l r : Regex} {w : List Bool} : RMatch l w → RMatch (.union l r) w
  | unionR {l r : Regex} {w : List Bool} : RMatch r w → RMatch (.union l r) w
  | starNil {e : Regex} : RMatch (.star e) []
  | starCons {e : Regex} {w1 w2 : List Bool} :
      RMatch e w1 → RMatch (.star e) w2 → RMatch (.star e) (w1 ++ w2)

/-- Thompson fragment (`struct NFAFragment`): entry and exit state of a
sub-automaton. -/
structure NFAFragment : Type where
  start : Nat
  accept : Nat
deriving DecidableEq, Repr

/-- `Thompson::buildFragment`, with the growing state vector passed
explicitly.  State allocation order matches the source exactly. -/
def buildFragment : Regex → List NSt → List NSt × NFAFragment
  | .chr b, sts =>
      let s := sts.length
      let sts := newState sts
      let a := sts.length
      let sts := newState sts
      (addTrans sts s (.sym b) a, ⟨s, a⟩)
  | .concat l r, sts =>
      let (sts1, f1) := buildFragment l sts
      let (sts2, f2) := buildFragment r sts1
      (addTrans sts2 f1.accept .eps f2.start, ⟨f1.start, f2.accept⟩)
  | .union l r, sts =>
      let s := sts.length
      let sts := newState sts
      let a := sts.length
      let sts := newState sts
      let (sts1, f1) := buildFragment l sts
      let (sts2, f2) := buildFragment r sts1
      let sts3 := addTrans sts2 s .eps f1.start
      let sts4 := addTrans sts3 s .eps f2.start
      let sts5 := addTrans sts4 f1.accept .eps a
      let sts6 := addTrans sts5 f2.accept .eps a
      (sts6, ⟨s, a⟩)
  | .star e, sts =>
      let s := sts.length
      let sts := newState sts
      let a := sts.length
      let sts := newState sts
      let (sts1, f) := buildFragment e sts
      let sts2 := addTrans sts1 s .eps f.start
      let sts3 := addTrans sts2 f.accept .eps a
      let sts4 := addTrans sts3 s .eps a
      let sts5 := addTrans sts4 f.accept .eps f.start
      (sts5, ⟨s, a⟩)

/-- Mark state `i` as accepting (`nfa.states[frag.accept].accept = true`). -/
def setAccept (sts : List NSt) (i : Nat) : List NSt :=
  match sts[i]? with
  | some st => sts.set i { st with accept := true }
  | none => sts

/-- `Thompson::build`: build the fragment for the whole expression, mark its
exit accepting, take its entry as the start state. -/
def thompson (r : Regex) : NFA :=
  let (sts, f) := buildFragment r []
  { states := setAccept sts f.accept, start := f.start }

/-- `PathN sts k p w q`: a `k`-step walk from `p` to `q` reading the word
`w`, where silent (`eps`) steps consume nothing. -/
inductive PathN (sts : List NSt) : Nat → Nat → List Bool → Nat → Prop
  | refl (q : Nat) : PathN sts 0 q [] q
  | symStep {k p q t : Nat} {b : Bool} {w : List Bool} :
      edge sts p (.sym b) q → PathN sts k q w t → PathN sts (k + 1) p (b :: w) t
  | epsStep {k p q t : Nat} {w : List Bool} :
      edge sts p .eps q → PathN sts k q w t → PathN sts (k + 1) p w t

/-- A walk of any length. -/
def Path (sts : List NSt) (p : Nat) (w : List Bool) (q : Nat) : Prop :=
  ∃ k, PathN sts k p w q

theorem pathN_append {sts : List NSt} {k1 k2 p q t : Nat} {w1 w2 : List Bool}
    (h1 : PathN sts k1 p w1 q) (h2 : PathN sts k2 q w2 t) :
    PathN sts (k1 + k2) p (w1 ++ w2) t := by
  induction h1 with
  | refl => simpa using h2
  | symStep e _ ih =>
    have := PathN.symStep e (ih h2)
    simpa [Nat.add_right_comm] using this
  | epsStep e _ ih =>
    have := PathN.epsStep e (ih h2)
    simpa [Nat.add_right_comm] using this

theorem path_append {sts : List NSt} {p q t : Nat} {w1 w2 : List Bool}
    (h1 : Path sts p w1 q) (h2 : Path sts q w2 t) :
    Path sts p (w1 ++ w2) t := by
  obtain ⟨k1, h1⟩ := h1
  obtain ⟨k2, h2⟩ := h2
  exact ⟨k1 + k2, pathN_append h1 h2⟩

/-- `EdgeLe sts sts'` : every transition of `sts` is also present in `sts'`. -/
def EdgeLe (sts sts' : List NSt) : Prop :=
  ∀ p c q, edge sts p c q → edge sts' p c q

theorem edgeLe_refl (sts : List NSt) : EdgeLe sts sts := fun _ _ _ h => h

theorem edgeLe_trans {s1 s2 s3 : List NSt} (h1 : EdgeLe s1 s2) (h2 : EdgeLe s2 s3) :
    EdgeLe s1 s3 := fun p c q h => h2 p c q (h1 p c q h)

theorem edgeLe_addTrans (sts : List NSt) (p : Nat) (c : Sym) (q : Nat) :
    EdgeLe sts (addTrans sts p c q) := by
  intro x c' y h
  unfold edge at *
  rw [edgesAt_addTrans]
  by_cases hx : x = p ∧ p < sts.length
  · simp only [hx, if_pos]
    rw [hx.1] at h
    exact List.mem_append_left _ h
  · simp only [hx, if_neg, not_false_iff]
    exact h

theorem edgeLe_newState (sts : List NSt) : EdgeLe sts (newState sts) := by
  intro x c y h
  unfold edge at *
  rwa [edgesAt_newState]

theorem pathN_mono {sts sts' : List NSt} (hle : EdgeLe sts sts')
    {k p t : Nat} {w : List Bool} (h : PathN sts k p w t) : PathN sts' k p w t := by
  induction h with
  | refl => exact .refl _
  | symStep e _ ih => exact .symStep (hle _ _ _ e) ih
  | epsStep e _ ih => exact .epsStep (hle _ _ _ e) ih

theorem path_mono {sts sts' : List NSt} (hle : EdgeLe sts sts')
    {p t : Nat} {w : List Bool} (h : Path sts p w t) : Path sts' p w t := by
  obtain ⟨k, h⟩ := h
  exact ⟨k, pathN_mono hle h⟩

/-- A walk starting in a region `R` that is closed under transitions and on
which the two automata have identical transition lists is a walk of the
smaller automaton. -/
theorem pathTransfer {A m : List NSt} {R : Nat → Prop}
    (agree : ∀ x, R x → edgesAt A x = edgesAt m x)
    (closed : ∀ x, R x → ∀ c y, edge A x c y → R y) :
    ∀ {k q t : Nat} {w : List Bool}, PathN A k q w t → R q → PathN m k q w t := by
  intro k q t w h
  induction h with
  | refl => exact fun _ => .refl _
  | symStep e _ ih =>
    intro hq
    refine .symStep ?_ (ih (closed _ hq _ _ e))
    unfold edge at *
    rwa [agree _ hq] at e
  | epsStep e _ ih =>
    intro hq
    refine .epsStep ?_ (ih (closed _ hq _ _ e))
    unfold edge at *
    rwa [agree _ hq] at e

/-- A walk from a state with an empty transition list cannot move. -/
theorem pathN_noOut {sts : List NSt} {k q t : Nat} {w : List Bool}
    (hq : edgesAt sts q = []) (h : PathN sts k q w t) : w = [] ∧ t = q ∧ k = 0 := by
  cases h with
  | refl => exact ⟨rfl, rfl, rfl⟩
  | symStep e _ => unfold edge at e; rw [hq] at e; cases e
  | epsStep e _ => unfold edge at e; rw [hq] at e; cases e

/-- First-step case analysis for a bounded walk, stated without dependent
indices so it applies at concrete endpoints. -/
theorem pathN_cases {sts : List NSt} {k p t : Nat} {w : List Bool} (h : PathN sts k p w t) :
    (k = 0 ∧ p = t ∧ w = []) ∨
    (∃ k' q, k = k' + 1 ∧
      ((∃ b w', w = b :: w' ∧ edge sts p (.sym b) q ∧ PathN sts k' q w' t) ∨
        (edge sts p .eps q ∧ PathN sts k' q w t))) := by
  cases h with
  | refl => exact .inl ⟨rfl, rfl, rfl⟩
  | symStep e rest => exact .inr ⟨_, _, rfl, .inl ⟨_, _, rfl, e, rest⟩⟩
  | epsStep e rest => exact .inr ⟨_, _, rfl, .inr ⟨e, rest⟩⟩

/-- Decompose a walk that leaves a transition-closed region `R` whose only
exit is `e`: it first walks inside `R` (hence in the sub-automaton `m`, with
which `A` agrees on `R` away from `e`) to `e`, then continues from `e`. -/
theorem exitDecomp {A m : List NSt} {R : Nat → Prop} {e : Nat}
    (agree : ∀ x, R x → x ≠ e → edgesAt A x = edgesAt m x)
    (closedR : ∀ x, R x → x ≠ e → ∀ c y, edge A x c y → R y) :
    ∀ {k q t : Nat} {w : List Bool}, PathN A k q w t → R q → ¬ R t →
      ∃ w1 w2 k2, w = w1 ++ w2 ∧ Path m q w1 e ∧ PathN A k2 e w2 t ∧ k2 ≤ k := by
  intro k q t w h
  induction h with
  | refl =>
    intro hq hnt
    exact absurd hq hnt
  | @symStep k' p q' t' b w' ed rest ih =>
    intro hq hnt
    by_cases hpe : p = e
    · subst hpe
      exact ⟨[], b :: w', k' + 1, rfl, ⟨0, .refl _⟩, .symStep ed rest, le_refl _⟩
    · have hq' : R q' := closedR _ hq hpe _ _ ed
      obtain ⟨w1, w2, k2, hw, hp1, hp2, hk⟩ := ih hq' hnt
      have ed' : edge m p (.sym b) q' := by
        unfold edge at *
        rwa [agree _ hq hpe] at ed
      obtain ⟨k1, hp1⟩ := hp1
      exact ⟨b :: w1, w2, k2, by rw [hw]; rfl, ⟨k1 + 1, .symStep ed' hp1⟩, hp2,
        Nat.le_succ_of_le hk⟩
  | @epsStep k' p q' t' w' ed rest ih =>
    intro hq hnt
    by_cases hpe : p = e
    · subst hpe
      exact ⟨[], w', k' + 1, rfl, ⟨0, .refl _⟩, .epsStep ed rest, le_refl _⟩
    · have hq' : R q' := closedR _ hq hpe _ _ ed
      obtain ⟨w1, w2, k2, hw, hp1, hp2, hk⟩ := ih hq' hnt
      have ed' : edge m p .eps q' := by
        unfold edge at *
        rwa [agree _ hq hpe] at ed
      obtain ⟨k1, hp1⟩ := hp1
      exact ⟨w1, w2, k2, hw, ⟨k1 + 1, .epsStep ed' hp1⟩, hp2, Nat.le_succ_of_le hk⟩

theorem edgesAt_addTrans_ne {sts : List NSt} {p : Nat} {c : Sym} {q x : Nat}
    (h : x ≠ p) : edgesAt (addTrans sts p c q) x = edgesAt sts x := by
  rw [edgesAt_addTrans]
  simp [h]

theorem edgesAt_addTrans_self {sts : List NSt} {p : Nat} {c : Sym} {q : Nat}
    (h : p < sts.length) : edgesAt (addTrans sts p c q) p = edgesAt sts p ++ [(c, q)] := by
  rw [edgesAt_addTrans]
  simp [h]

theorem path_refl {sts : List NSt} (q : Nat) : Path sts q [] q := ⟨0, .refl _⟩

theorem path_eps_cons {sts : List NSt} {p q t : Nat} {w : List Bool}
    (h : edge sts p .eps q) (h2 : Path sts q w t) : Path sts p w t := by
  obtain ⟨k, h2⟩ := h2
  exact ⟨k + 1, .epsStep h h2⟩

theorem path_sym_cons {sts : List NSt} {p q t : Nat} {b : Bool} {w : List Bool}
    (h : edge sts p (.sym b) q) (h2 : Path sts q w t) : Path sts p (b :: w) t := by
  obtain ⟨k, h2⟩ := h2
  exact ⟨k + 1, .symStep h h2⟩

/-- Invariant of `Thompson::buildFragment`: starting from state vector
`sts0`, the call returns state vector `sts1` and fragment `f` such that the
new states form the suffix, old states are untouched, the new region is
closed under transitions, the fragment exit has no outgoing transitions,
and the walks from entry to exit are exactly the words of `r`. -/
structure FragOK (sts0 sts1 : List NSt) (f : NFAFragment) (r : Regex) : Prop where
  lt : sts0.length + 2 ≤ sts1.length
  sLo : sts0.length ≤ f.start
  sHi : f.start < sts1.length
  aLo : sts0.length ≤ f.accept
  aHi : f.accept < sts1.length
  sa : f.start ≠ f.accept
  pres : ∀ x, x < sts0.length → edgesAt sts1 x = edgesAt sts0 x
  closed : ∀ p c q, sts0.length ≤ p → edge sts1 p c q → sts0.length ≤ q ∧ q < sts1.length
  aOut : edgesAt sts1 f.accept = []
  complete : ∀ w, RMatch r w → Path sts1 f.start w f.accept
  sound : ∀ w, Path sts1 f.start w f.accept → RMatch r w

theorem FragOK.edgeLe {sts0 sts1 : List NSt} {f : NFAFragment} {r : Regex}
    (h : FragOK sts0 sts1 f r) : EdgeLe sts0 sts1 := by
  intro p c q he
  unfold edge at *
  by_cases hp : p < sts0.length
  · rwa [h.pres p hp]
  · rw [edgesAt_oob sts0 p (Nat.le_of_not_lt hp)] at he
    cases he

/-- The fragment builder for a single symbol. -/
theorem fragOK_chr (sts0 : List NSt) (b : Bool) :
    FragOK sts0 (addTrans (newState (newState sts0)) sts0.length (.sym b) (sts0.length + 1))
      ⟨sts0.length, sts0.length + 1⟩ (.chr b) := by
  have hlen2 : (newState (newState sts0)).length = sts0.length + 2 := by simp
  have hS : edgesAt (addTrans (newState (newState sts0)) sts0.length (.sym b)
      (sts0.length + 1)) sts0.length = [(.sym b, sts0.length + 1)] := by
    rw [edgesAt_addTrans_self (by rw [hlen2]; omega)]
    rw [edgesAt_newState, edgesAt_newState, edgesAt_oob sts0 sts0.length (le_refl _)]
    simp
  have hOther : ∀ x, x ≠ sts0.length →
      edgesAt (addTrans (newState (newState sts0)) sts0.length (.sym b) (sts0.length + 1)) x =
        edgesAt (newState (newState sts0)) x := fun x hx => edgesAt_addTrans_ne hx
  have hA : edgesAt (addTrans (newState (newState sts0)) sts0.length (.sym b)
      (sts0.length + 1)) (sts0.length + 1) = [] := by
    rw [hOther _ (by omega), edgesAt_newState, edgesAt_newState,
      edgesAt_oob sts0 _ (by omega)]
  refine ⟨by rw [length_addTrans, hlen2], le_refl _,
    by dsimp only; rw [length_addTrans, hlen2]; omega,
    by dsimp only; omega, by dsimp only; rw [length_addTrans, hlen2]; omega,
    by dsimp only; omega, ?_, ?_, hA, ?_, ?_⟩
  · intro x hx
    rw [hOther _ (by omega), edgesAt_newState, edgesAt_newState]
  · intro p c q hp he
    unfold edge at he
    by_cases hps : p = sts0.length
    · subst hps
      rw [hS] at he
      simp at he
      obtain ⟨-, rfl⟩ := he
      rw [length_addTrans, hlen2]
      omega
    · rw [hOther _ hps, edgesAt_newState, edgesAt_newState,
        edgesAt_oob sts0 _ (Nat.le_of_not_lt (by omega))] at he
      cases he
  · intro w hw
    cases hw
    dsimp only
    refine path_sym_cons ?_ (path_refl _)
    unfold edge
    rw [hS]
    simp
  · rintro w ⟨k, hp⟩
    rcases pathN_cases hp with ⟨-, heq, -⟩ | ⟨k', q, -, hcase⟩
    · dsimp only at heq
      omega
    · dsimp only at hcase
      rcases hcase with ⟨b', w', rfl, hed, rest⟩ | ⟨hed, rest⟩
      · unfold edge at hed
        rw [hS] at hed
        simp at hed
        obtain ⟨rfl, rfl⟩ := hed
        obtain ⟨hw, -, -⟩ := pathN_noOut hA rest
        subst hw
        exact .chr _
      · unfold edge at hed
        rw [hS] at hed
        simp at hed

/-- The fragment builder for concatenation. -/
theorem fragOK_concat {sts0 sts1 sts2 : List NSt} {f1 f2 : NFAFragment} {l r : Regex}
    (h1 : FragOK sts0 sts1 f1 l) (h2 : FragOK sts1 sts2 f2 r) :
    FragOK sts0 (addTrans sts2 f1.accept .eps f2.start) ⟨f1.start, f2.accept⟩
      (.concat l r) := by
  have hn12 : sts0.length + 2 ≤ sts1.length := h1.lt
  have hn22 : sts1.length + 2 ≤ sts2.length := h2.lt
  have hOther : ∀ x, x ≠ f1.accept →
      edgesAt (addTrans sts2 f1.accept .eps f2.start) x = edgesAt sts2 x :=
    fun x hx => edgesAt_addTrans_ne hx
  have hAcc1sts2 : edgesAt sts2 f1.accept = [] := by
    rw [h2.pres _ h1.aHi, h1.aOut]
  have hAcc1 : edgesAt (addTrans sts2 f1.accept .eps f2.start) f1.accept =
      [(.eps, f2.start)] := by
    rw [edgesAt_addTrans_self (by have := h1.aHi; omega), hAcc1sts2]
    simp
  have hAcc2 : edgesAt (addTrans sts2 f1.accept .eps f2.start) f2.accept = [] := by
    rw [hOther _ (by have := h2.aLo; have := h1.aHi; omega), h2.aOut]
  refine ⟨?_, ?_, ?_, ?_, ?_, ?_, ?_, ?_, hAcc2, ?_, ?_⟩
  · rw [length_addTrans]; omega
  · exact h1.sLo
  · dsimp only
    rw [length_addTrans]
    have := h1.sHi
    omega
  · dsimp only
    have := h2.aLo
    omega
  · dsimp only
    rw [length_addTrans]
    exact h2.aHi
  · dsimp only
    have := h1.sHi
    have := h2.aLo
    omega
  · intro x hx
    rw [hOther _ (by have := h1.aLo; omega), h2.pres _ (by omega), h1.pres _ hx]
  · intro p c q hp he
    unfold edge at he
    rw [length_addTrans]
    by_cases hpa : p = f1.accept
    · subst hpa
      rw [hAcc1] at he
      simp at he
      obtain ⟨-, rfl⟩ := he
      have := h2.sLo
      have := h2.sHi
      omega
    · rw [hOther _ hpa] at he
      by_cases hp1 : p < sts1.length
      · have he' : edge sts1 p c q := by
          unfold edge
          rwa [← h2.pres _ hp1]
        have := h1.closed p c q hp he'
        omega
      · have := h2.closed p c q (Nat.le_of_not_lt hp1) he
        omega
  · intro w hw
    dsimp only
    cases hw with
    | concat hw1 hw2 =>
      have p1 : Path (addTrans sts2 f1.accept .eps f2.start) f1.start _ f1.accept :=
        path_mono (edgeLe_trans h2.edgeLe (edgeLe_addTrans _ _ _ _)) (h1.complete _ hw1)
      have p2 : Path (addTrans sts2 f1.accept .eps f2.start) f2.start _ f2.accept :=
        path_mono (edgeLe_addTrans _ _ _ _) (h2.complete _ hw2)
      refine path_append p1 (path_eps_cons ?_ p2)
      unfold edge
      rw [hAcc1]
      simp
  · rintro w ⟨k, hp⟩
    have hp' : PathN (addTrans sts2 f1.accept .eps f2.start) k f1.start w f2.accept := hp
    have hdec := exitDecomp (A := addTrans sts2 f1.accept .eps f2.start) (m := sts1)
      (R := fun x => sts0.length ≤ x ∧ x < sts1.length) (e := f1.accept)
      (fun x hx hxe => by
        rw [hOther _ hxe, h2.pres _ hx.2])
      (fun x hx hxe c y hy => by
        have hy' : edge sts1 x c y := by
          unfold edge at *
          rwa [hOther _ hxe, h2.pres _ hx.2] at hy
        exact h1.closed x c y hx.1 hy')
      hp' ⟨h1.sLo, h1.sHi⟩
      (by
        intro hcontra
        have := h2.aLo
        omega)
    obtain ⟨w1, w2, k2, rfl, hp1, hp2, -⟩ := hdec
    have hw1 : RMatch l w1 := h1.sound _ hp1
    rcases pathN_cases hp2 with ⟨-, heq, -⟩ | ⟨k2', q, -, hcase⟩
    · have := h2.aLo
      have := h1.aHi
      omega
    · rcases hcase with ⟨b', w', hw2eq, hed, rest⟩ | ⟨hed, rest⟩
      · unfold edge at hed
        rw [hAcc1] at hed
        simp at hed
      · unfold edge at hed
        rw [hAcc1] at hed
        simp at hed
        subst hed
        have htr : PathN sts2 k2' f2.start w2 f2.accept := by
          refine pathTransfer (R := fun x => sts1.length ≤ x ∧ x < sts2.length)
            (fun x hx => hOther _ (by have := h1.aHi; omega))
            (fun x hx c y hy => by
              have hy' : edge sts2 x c y := by
                unfold edge at *
                rwa [hOther _ (by have := h1.aHi; omega)] at hy
              exact h2.closed x c y hx.1 hy')
            rest ⟨h2.sLo, h2.sHi⟩
        have hw2 : RMatch r w2 := h2.sound _ ⟨_, htr⟩
        exact .concat hw1 hw2

/-- The fragment builder for union. -/
theorem fragOK_union {sts0 sts1 sts2 : List NSt} {f1 f2 : NFAFragment} {l r : Regex}
    (h1 : FragOK (newState (newState sts0)) sts1 f1 l)
    (h2 : FragOK sts1 sts2 f2 r) :
    FragOK sts0
      (addTrans (addTrans (addTrans (addTrans sts2 sts0.length .eps f1.start)
        sts0.length .eps f2.start) f1.accept .eps (sts0.length + 1))
        f2.accept .eps (sts0.length + 1))
      ⟨sts0.length, sts0.length + 1⟩ (.union l r) := by
  have hb2 : (newState (newState sts0)).length = sts0.length + 2 := by simp
  have hn1 : sts0.length + 4 ≤ sts1.length := by have := h1.lt; omega
  have hn2 : sts1.length + 2 ≤ sts2.length := h2.lt
  have hsLo1 : sts0.length + 2 ≤ f1.start := by have := h1.sLo; omega
  have hsHi1 : f1.start < sts1.length := h1.sHi
  have haLo1 : sts0.length + 2 ≤ f1.accept := by have := h1.aLo; omega
  have haHi1 : f1.accept < sts1.length := h1.aHi
  have hsLo2 : sts1.length ≤ f2.start := h2.sLo
  have hsHi2 : f2.start < sts2.length := h2.sHi
  have haLo2 : sts1.length ≤ f2.accept := h2.aLo
  have haHi2 : f2.accept < sts2.length := h2.aHi
  have hSsts : edgesAt sts2 sts0.length = [] := by
    rw [h2.pres _ (by omega), h1.pres _ (by omega), edgesAt_newState, edgesAt_newState,
      edgesAt_oob sts0 _ (le_refl _)]
  have hAsts : edgesAt sts2 (sts0.length + 1) = [] := by
    rw [h2.pres _ (by omega), h1.pres _ (by omega), edgesAt_newState, edgesAt_newState,
      edgesAt_oob sts0 _ (by omega)]
  have hS4 : edgesAt (addTrans (addTrans (addTrans (addTrans sts2 sts0.length .eps f1.start)
      sts0.length .eps f2.start) f1.accept .eps (sts0.length + 1))
      f2.accept .eps (sts0.length + 1)) sts0.length = [(.eps, f1.start), (.eps, f2.start)] := by
    rw [edgesAt_addTrans_ne (by omega), edgesAt_addTrans_ne (by omega),
      edgesAt_addTrans_self (by simp; omega), edgesAt_addTrans_self (by omega), hSsts]
    simp
  have hA4 : edgesAt (addTrans (addTrans (addTrans (addTrans sts2 sts0.length .eps f1.start)
      sts0.length .eps f2.start) f1.accept .eps (sts0.length + 1))
      f2.accept .eps (sts0.length + 1)) (sts0.length + 1) = [] := by
    rw [edgesAt_addTrans_ne (by omega), edgesAt_addTrans_ne (by omega),
      edgesAt_addTrans_ne (by omega), edgesAt_addTrans_ne (by omega), hAsts]
  have hAcc1sts : edgesAt sts2 f1.accept = [] := by
    rw [h2.pres _ haHi1, h1.aOut]
  have hAcc1 : edgesAt (addTrans (addTrans (addTrans (addTrans sts2 sts0.length .eps f1.start)
      sts0.length .eps f2.start) f1.accept .eps (sts0.length + 1))
      f2.accept .eps (sts0.length + 1)) f1.accept = [(.eps, sts0.length + 1)] := by
    rw [edgesAt_addTrans_ne (by omega), edgesAt_addTrans_self (by simp; omega),
      edgesAt_addTrans_ne (by omega), edgesAt_addTrans_ne (by omega), hAcc1sts]
    simp
  have hAcc2 : edgesAt (addTrans (addTrans (addTrans (addTrans sts2 sts0.length .eps f1.start)
      sts0.length .eps f2.start) f1.accept .eps (sts0.length + 1))
      f2.accept .eps (sts0.length + 1)) f2.accept = [(.eps, sts0.length + 1)] := by
    rw [edgesAt_addTrans_self (by simp; omega), edgesAt_addTrans_ne (by omega),
      edgesAt_addTrans_ne (by omega), edgesAt_addTrans_ne (by omega), h2.aOut]
    simp
  have hOther : ∀ x, x ≠ sts0.length → x ≠ f1.accept → x ≠ f2.accept →
      edgesAt (addTrans (addTrans (addTrans (addTrans sts2 sts0.length .eps f1.start)
        sts0.length .eps f2.start) f1.accept .eps (sts0.length + 1))
        f2.accept .eps (sts0.length + 1)) x = edgesAt sts2 x := by
    intro x hx1 hx2 hx3
    rw [edgesAt_addTrans_ne hx3, edgesAt_addTrans_ne hx2, edgesAt_addTrans_ne hx1,
      edgesAt_addTrans_ne hx1]
  refine ⟨by simp; omega, le_refl _, by simp; omega, by dsimp only; omega,
    by simp; omega, by dsimp only; omega, ?_, ?_, hA4, ?_, ?_⟩
  · intro x hx
    rw [hOther _ (by omega) (by omega) (by omega), h2.pres _ (by omega),
      h1.pres _ (by omega), edgesAt_newState, edgesAt_newState]
  · intro p c q hp he
    unfold edge at he
    simp only [length_addTrans]
    by_cases hps : p = sts0.length
    · subst hps
      rw [hS4] at he
      simp at he
      rcases he with ⟨-, rfl⟩ | ⟨-, rfl⟩ <;> omega
    · by_cases hpa1 : p = f1.accept
      · subst hpa1
        rw [hAcc1] at he
        simp at he
        obtain ⟨-, rfl⟩ := he
        omega
      · by_cases hpa2 : p = f2.accept
        · subst hpa2
          rw [hAcc2] at he
          simp at he
          obtain ⟨-, rfl⟩ := he
          omega
        · rw [hOther _ hps hpa1 hpa2] at he
          by_cases hpl : p < sts0.length + 2
          · have hpa : p = sts0.length + 1 := by omega
            subst hpa
            rw [hAsts] at he
            cases he
          · by_cases hp1 : p < sts1.length
            · have he' : edge sts1 p c q := by
                unfold edge
                rwa [← h2.pres _ hp1]
              have := h1.closed p c q (by rw [hb2]; omega) he'
              omega
            · have := h2.closed p c q (Nat.le_of_not_lt hp1) he
              omega
  · intro w hw
    dsimp only
    have hstep1 : edge (addTrans (addTrans (addTrans (addTrans sts2 sts0.length .eps f1.start)
        sts0.length .eps f2.start) f1.accept .eps (sts0.length + 1))
        f2.accept .eps (sts0.length + 1)) sts0.length .eps f1.start := by
      unfold edge
      rw [hS4]
      simp
    have hstep2 : edge (addTrans (addTrans (addTrans (addTrans sts2 sts0.length .eps f1.start)
        sts0.length .eps f2.start) f1.accept .eps (sts0.length + 1))
        f2.accept .eps (sts0.length + 1)) sts0.length .eps f2.start := by
      unfold edge
      rw [hS4]
      simp
    have hle1 : EdgeLe sts1 (addTrans (addTrans (addTrans (addTrans sts2 sts0.length .eps
        f1.start) sts0.length .eps f2.start) f1.accept .eps (sts0.length + 1))
        f2.accept .eps (sts0.length + 1)) :=
      edgeLe_trans h2.edgeLe (edgeLe_trans (edgeLe_addTrans _ _ _ _)
        (edgeLe_trans (edgeLe_addTrans _ _ _ _) (edgeLe_trans (edgeLe_addTrans _ _ _ _)
          (edgeLe_addTrans _ _ _ _))))
    have hle2 : EdgeLe sts2 (addTrans (addTrans (addTrans (addTrans sts2 sts0.length .eps
        f1.start) sts0.length .eps f2.start) f1.accept .eps (sts0.length + 1))
        f2.accept .eps (sts0.length + 1)) :=
      edgeLe_trans (edgeLe_addTrans _ _ _ _)
        (edgeLe_trans (edgeLe_addTrans _ _ _ _) (edgeLe_trans (edgeLe_addTrans _ _ _ _)
          (edgeLe_addTrans _ _ _ _)))
    cases hw with
    | unionL hw1 =>
      have p1 := path_mono hle1 (h1.complete _ hw1)
      have pend : Path _ f1.accept [] (sts0.length + 1) :=
        path_eps_cons (by unfold edge; rw [hAcc1]; simp) (path_refl _)
      have := path_eps_cons hstep1 (path_append p1 pend)
      simpa using this
    | unionR hw1 =>
      have p1 := path_mono hle2 (h2.complete _ hw1)
      have pend : Path _ f2.accept [] (sts0.length + 1) :=
        path_eps_cons (by unfold edge; rw [hAcc2]; simp) (path_refl _)
      have := path_eps_cons hstep2 (path_append p1 pend)
      simpa using this
  · rintro w ⟨k, hp⟩
    have hp' : PathN (addTrans (addTrans (addTrans (addTrans sts2 sts0.length .eps f1.start)
        sts0.length .eps f2.start) f1.accept .eps (sts0.length + 1))
        f2.accept .eps (sts0.length + 1)) k sts0.length w (sts0.length + 1) := hp
    rcases pathN_cases hp' with ⟨-, heq, -⟩ | ⟨k', q, -, hcase⟩
    · omega
    · rcases hcase with ⟨b', w', rfl, hed, rest⟩ | ⟨hed, rest⟩
      · unfold edge at hed
        rw [hS4] at hed
        simp at hed
      · unfold edge at hed
        rw [hS4] at hed
        simp at hed
        rcases hed with rfl | rfl
        · have hdec := exitDecomp
            (A := addTrans (addTrans (addTrans (addTrans sts2 sts0.length .eps f1.start)
              sts0.length .eps f2.start) f1.accept .eps (sts0.length + 1))
              f2.accept .eps (sts0.length + 1)) (m := sts1)
            (R := fun x => sts0.length + 2 ≤ x ∧ x < sts1.length) (e := f1.accept)
            (fun x hx hxe => by
              rw [hOther _ (by omega) hxe (by omega), h2.pres _ hx.2])
            (fun x hx hxe c y hy => by
              have hy' : edge sts1 x c y := by
                unfold edge at *
                rwa [hOther _ (by omega) hxe (by omega), h2.pres _ hx.2] at hy
              have := h1.closed x c y (by rw [hb2]; omega) hy'
              rw [hb2] at this
              exact this)
            rest ⟨hsLo1, hsHi1⟩ (by intro hcontra; omega)
          obtain ⟨w1, w2, k2, rfl, hp1, hp2, -⟩ := hdec
          have hw1 : RMatch l w1 := h1.sound _ hp1
          rcases pathN_cases hp2 with ⟨-, heq, -⟩ | ⟨k2', q', -, hcase2⟩
          · omega
          · rcases hcase2 with ⟨b', w', hw2eq, hed2, rest2⟩ | ⟨hed2, rest2⟩
            · unfold edge at hed2
              rw [hAcc1] at hed2
              simp at hed2
            · unfold edge at hed2
              rw [hAcc1] at hed2
              simp at hed2
              subst hed2
              obtain ⟨rfl, -, -⟩ := pathN_noOut hA4 rest2
              simpa using RMatch.unionL hw1
        · have hdec := exitDecomp
            (A := addTrans (addTrans (addTrans (addTrans sts2 sts0.length .eps f1.start)
              sts0.length .eps f2.start) f1.accept .eps (sts0.length + 1))
              f2.accept .eps (sts0.length + 1)) (m := sts2)
            (R := fun x => sts1.length ≤ x ∧ x < sts2.length) (e := f2.accept)
            (fun x hx hxe => by
              rw [hOther _ (by omega) (by omega) hxe])
            (fun x hx hxe c y hy => by
              have hy' : edge sts2 x c y := by
                unfold edge at *
                rwa [hOther _ (by omega) (by omega) hxe] at hy
              exact h2.closed x c y hx.1 hy')
            rest ⟨hsLo2, hsHi2⟩ (by intro hcontra; omega)
          obtain ⟨w1, w2, k2, rfl, hp1, hp2, -⟩ := hdec
          have hw1 : RMatch r w1 := h2.sound _ hp1
          rcases pathN_cases hp2 with ⟨-, heq, -⟩ | ⟨k2', q', -, hcase2⟩
          · omega
          · rcases hcase2 with ⟨b', w', hw2eq, hed2, rest2⟩ | ⟨hed2, rest2⟩
            · unfold edge at hed2
              rw [hAcc2] at hed2
              simp at hed2
            · unfold edge at hed2
              rw [hAcc2] at hed2
              simp at hed2
              subst hed2
              obtain ⟨rfl, -, -⟩ := pathN_noOut hA4 rest2
              simpa using RMatch.unionR hw1

/-- The fragment builder for Kleene star. -/
theorem fragOK_star {sts0 sts1 : List NSt} {f : NFAFragment} {e : Regex} {A4 : List NSt}
    (h : FragOK (newState (newState sts0)) sts1 f e)
    (hA4eq : A4 = addTrans (addTrans (addTrans (addTrans sts1 sts0.length .eps f.start)
      f.accept .eps (sts0.length + 1)) sts0.length .eps (sts0.length + 1))
      f.accept .eps f.start) :
    FragOK sts0 A4 ⟨sts0.length, sts0.length + 1⟩ (.star e) := by
  have hb2 : (newState (newState sts0)).length = sts0.length + 2 := by simp
  have hn1 : sts0.length + 4 ≤ sts1.length := by have := h.lt; omega
  have hsLo : sts0.length + 2 ≤ f.start := by have := h.sLo; omega
  have hsHi : f.start < sts1.length := h.sHi
  have haLo : sts0.length + 2 ≤ f.accept := by have := h.aLo; omega
  have haHi : f.accept < sts1.length := h.aHi
  have hlen4 : A4.length = sts1.length := by rw [hA4eq]; simp
  have hSsts : edgesAt sts1 sts0.length = [] := by
    rw [h.pres _ (by omega), edgesAt_newState, edgesAt_newState,
      edgesAt_oob sts0 _ (le_refl _)]
  have hAsts : edgesAt sts1 (sts0.length + 1) = [] := by
    rw [h.pres _ (by omega), edgesAt_newState, edgesAt_newState,
      edgesAt_oob sts0 _ (by omega)]
  have hS4 : edgesAt A4 sts0.length = [(.eps, f.start), (.eps, sts0.length + 1)] := by
    rw [hA4eq, edgesAt_addTrans_ne (by omega),
      edgesAt_addTrans_self (by simp only [length_addTrans]; omega),
      edgesAt_addTrans_ne (by omega),
      edgesAt_addTrans_self (by omega), hSsts]
    simp
  have hA4 : edgesAt A4 (sts0.length + 1) = [] := by
    rw [hA4eq, edgesAt_addTrans_ne (by omega), edgesAt_addTrans_ne (by omega),
      edgesAt_addTrans_ne (by omega), edgesAt_addTrans_ne (by omega), hAsts]
  have hAcc4 : edgesAt A4 f.accept = [(.eps, sts0.length + 1), (.eps, f.start)] := by
    rw [hA4eq, edgesAt_addTrans_self (by simp only [length_addTrans]; omega),
      edgesAt_addTrans_ne (by omega),
      edgesAt_addTrans_self (by simp only [length_addTrans]; omega),
      edgesAt_addTrans_ne (by omega), h.aOut]
    simp
  have hOther : ∀ x, x ≠ sts0.length → x ≠ f.accept → edgesAt A4 x = edgesAt sts1 x := by
    intro x hx1 hx2
    rw [hA4eq, edgesAt_addTrans_ne hx2, edgesAt_addTrans_ne hx1, edgesAt_addTrans_ne hx2,
      edgesAt_addTrans_ne hx1]
  have hle : EdgeLe sts1 A4 := by
    rw [hA4eq]
    exact edgeLe_trans (edgeLe_addTrans _ _ _ _) (edgeLe_trans (edgeLe_addTrans _ _ _ _)
      (edgeLe_trans (edgeLe_addTrans _ _ _ _) (edgeLe_addTrans _ _ _ _)))
  have auxSound : ∀ k w, PathN A4 k f.start w (sts0.length + 1) → RMatch (.star e) w := by
    intro k
    induction k using Nat.strong_induction_on with
    | _ k ih =>
      intro w hp
      have hdec := exitDecomp (A := A4) (m := sts1)
        (R := fun x => sts0.length + 2 ≤ x ∧ x < sts1.length) (e := f.accept)
        (fun x hx hxe => by rw [hOther _ (by omega) hxe])
        (fun x hx hxe c y hy => by
          have hy' : edge sts1 x c y := by
            unfold edge at *
            rwa [hOther _ (by omega) hxe] at hy
          have := h.closed x c y (by rw [hb2]; omega) hy'
          rw [hb2] at this
          exact this)
        hp ⟨hsLo, hsHi⟩ (by intro hcontra; omega)
      obtain ⟨w1, w2, k2, rfl, hp1, hp2, hk2⟩ := hdec
      have hw1 : RMatch e w1 := h.sound _ hp1
      rcases pathN_cases hp2 with ⟨-, heq, -⟩ | ⟨k2', q', hk2eq, hcase2⟩
      · omega
      · rcases hcase2 with ⟨b', w', hw2eq, hed2, rest2⟩ | ⟨hed2, rest2⟩
        · unfold edge at hed2
          rw [hAcc4] at hed2
          simp at hed2
        · unfold edge at hed2
          rw [hAcc4] at hed2
          simp at hed2
          rcases hed2 with rfl | rfl
          · obtain ⟨rfl, -, -⟩ := pathN_noOut hA4 rest2
            simpa using RMatch.starCons hw1 RMatch.starNil
          · have hw2 : RMatch (.star e) w2 := ih k2' (by omega) _ rest2
            exact RMatch.starCons hw1 hw2
  have auxComplete : ∀ w, RMatch (.star e) w → Path A4 f.accept w (sts0.length + 1) := by
    intro w hw
    generalize hre : Regex.star e = re at hw
    induction hw with
    | chr b => exact absurd hre (by simp)
    | concat hw1 hw2 ih1 ih2 => exact absurd hre (by simp)
    | unionL hw1 ih1 => exact absurd hre (by simp)
    | unionR hw1 ih1 => exact absurd hre (by simp)
    | starNil =>
      injection hre with hre'
      subst hre'
      refine path_eps_cons ?_ (path_refl _)
      unfold edge
      rw [hAcc4]
      simp
    | starCons hw1 hw2 ih1 ih2 =>
      injection hre with hre'
      subst hre'
      have p1 : Path A4 f.start _ f.accept := path_mono hle (h.complete _ hw1)
      refine path_eps_cons ?_ (path_append p1 (ih2 rfl))
      unfold edge
      rw [hAcc4]
      simp
  refine ⟨by rw [hlen4]; omega, le_refl _, by dsimp only; rw [hlen4]; omega,
    by dsimp only; omega, by dsimp only; rw [hlen4]; omega, by dsimp only; omega,
    ?_, ?_, hA4, ?_, ?_⟩
  · intro x hx
    rw [hOther _ (by omega) (by omega), h.pres _ (by omega), edgesAt_newState,
      edgesAt_newState]
  · intro p c q hp he
    unfold edge at he
    rw [hlen4]
    by_cases hps : p = sts0.length
    · subst hps
      rw [hS4] at he
      simp at he
      rcases he with ⟨-, rfl⟩ | ⟨-, rfl⟩ <;> omega
    · by_cases hpa : p = f.accept
      · subst hpa
        rw [hAcc4] at he
        simp at he
        rcases he with ⟨-, rfl⟩ | ⟨-, rfl⟩ <;> omega
      · rw [hOther _ hps hpa] at he
        by_cases hpl : p < sts0.length + 2
        · have hpa1 : p = sts0.length + 1 := by omega
          subst hpa1
          rw [hAsts] at he
          cases he
        · have := h.closed p c q (by rw [hb2]; omega) he
          omega
  · intro w hw
    dsimp only
    cases hw with
    | starNil =>
      refine path_eps_cons ?_ (path_refl _)
      unfold edge
      rw [hS4]
      simp
    | starCons hw1 hw2 =>
      have p1 : Path A4 f.start _ f.accept := path_mono hle (h.complete _ hw1)
      refine path_eps_cons (q := f.start) ?_ (path_append p1 (auxComplete _ hw2))
      unfold edge
      rw [hS4]
      simp
  · rintro w ⟨k, hp⟩
    have hp' : PathN A4 k sts0.length w (sts0.length + 1) := hp
    rcases pathN_cases hp' with ⟨-, heq, -⟩ | ⟨k', q, -, hcase⟩
    · omega
    · rcases hcase with ⟨b', w', rfl, hed, rest⟩ | ⟨hed, rest⟩
      · unfold edge at hed
        rw [hS4] at hed
        simp at hed
      · unfold edge at hed
        rw [hS4] at hed
        simp at hed
        rcases hed with rfl | rfl
        · exact auxSound _ _ rest
        · obtain ⟨rfl, -, -⟩ := pathN_noOut hA4 rest
          exact RMatch.starNil

/-- `buildFragment` never touches accept flags. -/
theorem acceptAt_buildFragment (r : Regex) : ∀ (sts : List NSt) (x : Nat),
    acceptAt (buildFragment r sts).1 x = acceptAt sts x := by
  induction r with
  | chr b =>
    intro sts x
    simp only [buildFragment]
    rw [acceptAt_addTrans, acceptAt_newState, acceptAt_newState]
  | concat l r ihl ihr =>
    intro sts x
    rcases hbl : buildFragment l sts with ⟨sts1, f1⟩
    rcases hbr : buildFragment r sts1 with ⟨sts2, f2⟩
    have h1 := ihl sts x
    have h2 := ihr sts1 x
    rw [hbl] at h1
    rw [hbr] at h2
    simp only [buildFragment, hbl, hbr]
    rw [acceptAt_addTrans]
    dsimp only at h1 h2 ⊢
    rw [h2, h1]
  | union l r ihl ihr =>
    intro sts x
    rcases hbl : buildFragment l (newState (newState sts)) with ⟨sts1, f1⟩
    rcases hbr : buildFragment r sts1 with ⟨sts2, f2⟩
    have h1 := ihl (newState (newState sts)) x
    have h2 := ihr sts1 x
    rw [hbl] at h1
    rw [hbr] at h2
    simp only [buildFragment, hbl, hbr]
    dsimp only at h1 h2 ⊢
    rw [acceptAt_addTrans, acceptAt_addTrans, acceptAt_addTrans, acceptAt_addTrans,
      h2, h1, acceptAt_newState, acceptAt_newState]
  | star e ih =>
    intro sts x
    rcases hbe : buildFragment e (newState (newState sts)) with ⟨sts1, f⟩
    have h1 := ih (newState (newState sts)) x
    rw [hbe] at h1
    simp only [buildFragment, hbe]
    dsimp only at h1 ⊢
    rw [acceptAt_addTrans, acceptAt_addTrans, acceptAt_addTrans, acceptAt_addTrans,
      h1, acceptAt_newState, acceptAt_newState]

/-- The fragment invariant holds for every call of `buildFragment`. -/
theorem buildFragment_ok : ∀ (r : Regex) (sts0 : List NSt),
    FragOK sts0 (buildFragment r sts0).1 (buildFragment r sts0).2 r := by
  intro r
  induction r with
  | chr b =>
    intro sts0
    simp only [buildFragment, length_newState]
    exact fragOK_chr sts0 b
  | concat l r ihl ihr =>
    intro sts0
    rcases hbl : buildFragment l sts0 with ⟨sts1, f1⟩
    rcases hbr : buildFragment r sts1 with ⟨sts2, f2⟩
    have h1 := ihl sts0
    have h2 := ihr sts1
    rw [hbl] at h1
    rw [hbr] at h2
    dsimp only at h1 h2
    simp only [buildFragment, hbl, hbr]
    exact fragOK_concat h1 h2
  | union l r ihl ihr =>
    intro sts0
    rcases hbl : buildFragment l (newState (newState sts0)) with ⟨sts1, f1⟩
    rcases hbr : buildFragment r sts1 with ⟨sts2, f2⟩
    have h1 := ihl (newState (newState sts0))
    have h2 := ihr sts1
    rw [hbl] at h1
    rw [hbr] at h2
    dsimp only at h1 h2
    simp only [buildFragment, hbl, hbr, length_newState]
    exact fragOK_union h1 h2
  | star e ih =>
    intro sts0
    rcases hbe : buildFragment e (newState (newState sts0)) with ⟨sts1, f⟩
    have h1 := ih (newState (newState sts0))
    rw [hbe] at h1
    dsimp only at h1
    simp only [buildFragment, hbe, length_newState]
    exact fragOK_star h1 rfl

theorem edgesAt_setAccept (sts : List NSt) (i : Nat) (x : Nat) :
    edgesAt (setAccept sts i) x = edgesAt sts x := by
  unfold setAccept edgesAt
  cases h : sts[i]? with
  | none => rfl
  | some st =>
    have hp : i < sts.length := by
      by_contra hlt
      rw [List.getElem?_eq_none (Nat.le_of_not_lt hlt)] at h
      exact Option.noConfusion h
    by_cases hx : x = i
    · subst hx
      simp [List.getElem?_set_self hp, h]
    · rw [List.getElem?_set_ne (fun h' => hx h'.symm)]

theorem acceptAt_setAccept (sts : List NSt) (i : Nat) (x : Nat) :
    acceptAt (setAccept sts i) x =
      if x = i ∧ i < sts.length then true else acceptAt sts x := by
  unfold setAccept acceptAt
  cases h : sts[i]? with
  | none =>
    have hp : ¬ i < sts.length := by
      intro hlt
      rw [List.getElem?_eq_getElem hlt] at h
      exact Option.noConfusion h
    have : ¬ (x = i ∧ i < sts.length) := fun ⟨_, h2⟩ => hp h2
    simp [this]
  | some st =>
    have hp : i < sts.length := by
      by_contra hlt
      rw [List.getElem?_eq_none (Nat.le_of_not_lt hlt)] at h
      exact Option.noConfusion h
    by_cases hx : x = i
    · subst hx
      simp [List.getElem?_set_self hp, hp, h]
    · have : ¬ (x = i ∧ i < sts.length) := fun ⟨h1, _⟩ => hx h1
      simp [this, List.getElem?_set_ne (fun h' => hx h'.symm)]

theorem pathN_congr {A B : List NSt} (hAB : ∀ x, edgesAt A x = edgesAt B x)
    {k p t : Nat} {w : List Bool} (h : PathN A k p w t) : PathN B k p w t :=
  pathTransfer (R := fun _ => True) (fun x _ => hAB x) (fun _ _ _ _ _ => trivial) h trivial

/-- Acceptance by an automaton with silent moves: some walk from the start
consuming `w` ends in an accepting state. -/
def NAccept (n : NFA) (w : List Bool) : Prop :=
  ∃ t, Path n.states n.start w t ∧ acceptAt n.states t = true

/-- Correctness of the Thompson construction: the ε-NFA built from `r`
accepts exactly the words matching `r`. -/
theorem thompson_correct (r : Regex) (w : List Bool) :
    NAccept (thompson r) w ↔ RMatch r w := by
  rcases hb : buildFragment r [] with ⟨sts, f⟩
  have hok := buildFragment_ok r []
  rw [hb] at hok
  dsimp only at hok
  have hallFalse : ∀ x, acceptAt sts x = false := by
    intro x
    have := acceptAt_buildFragment r [] x
    rw [hb] at this
    dsimp only at this
    rw [this]
    unfold acceptAt
    simp
  have hth : thompson r = ⟨setAccept sts f.accept, f.start⟩ := by
    unfold thompson
    rw [hb]
  have hedges : ∀ x, edgesAt (setAccept sts f.accept) x = edgesAt sts x :=
    edgesAt_setAccept sts f.accept
  have hacc : ∀ x, acceptAt (setAccept sts f.accept) x = true ↔ x = f.accept := by
    intro x
    rw [acceptAt_setAccept]
    by_cases hx : x = f.accept
    · simp [hx, hok.aHi]
    · simp [hx, hallFalse x]
  rw [hth]
  constructor
  · rintro ⟨t, ⟨k, hp⟩, ht⟩
    dsimp only at hp ht
    rw [hacc t] at ht
    subst ht
    exact hok.sound w ⟨k, pathN_congr hedges hp⟩
  · intro hw
    obtain ⟨k, hp⟩ := hok.complete w hw
    refine ⟨f.accept, ⟨k, ?_⟩, (hacc _).mpr rfl⟩
    exact pathN_congr (fun x => (hedges x).symm) hp

/-- Executable well-formedness of a state vector: all transition targets
are existing states. -/
def ValidN (sts : List NSt) : Bool :=
  sts.all (fun st => st.edges.all (fun e => e.2 < sts.length))

theorem validN_target {sts : List NSt} (hv : ValidN sts = true)
    {p : Nat} {c : Sym} {q : Nat} (he : edge sts p c q) : q < sts.length := by
  unfold ValidN at hv
  rw [List.all_eq_true] at hv
  unfold edge edgesAt at he
  cases h : sts[p]? with
  | none => rw [h] at he; cases he
  | some st =>
    rw [h] at he
    have hst : st ∈ sts := by
      rcases List.getElem?_eq_some_iff.mp h with ⟨hp, hEq⟩
      exact hEq ▸ List.getElem_mem hp
    have := hv st hst
    rw [List.all_eq_true] at this
    exact of_decide_eq_true (this _ he)

/-- Targets of the silent transitions of state `p`. -/
def epsSucc (sts : List NSt) (p : Nat) : List Nat :=
  (edgesAt sts p).filterMap (fun e => if e.1 = Sym.eps then some e.2 else none)

theorem mem_epsSucc {sts : List NSt} {p q : Nat} :
    q ∈ epsSucc sts p ↔ edge sts p .eps q := by
  unfold epsSucc edge
  rw [List.mem_filterMap]
  constructor
  · rintro ⟨⟨c, q'⟩, hmem, hq⟩
    by_cases hc : c = Sym.eps
    · subst hc
      simp at hq
      subst hq
      exact hmem
    · simp [hc] at hq
  · intro hmem
    exact ⟨(.eps, q), hmem, by simp⟩

/-- Insert an element at the end unless already present (the `set`-like
"if unseen, add" of the closure traversal). -/
def insNew (acc : List Nat) (q : Nat) : List Nat :=
  if q ∈ acc then acc else acc ++ [q]

def insAll (acc : List Nat) (l : List Nat) : List Nat :=
  l.foldl insNew acc

/-- One saturation round of the silent-closure computation
(`EpsilonRemover::compute_epsilon_closure`): add the silent successors of
every currently known member. -/
def satStep (sts : List NSt) (cur : List Nat) : List Nat :=
  cur.foldl (fun acc p => insAll acc (epsSucc sts p)) cur

theorem mem_insNew {acc : List Nat} {q x : Nat} :
    x ∈ insNew acc q ↔ x ∈ acc ∨ x = q := by
  unfold insNew
  by_cases h : q ∈ acc
  · simp only [h, if_pos]
    constructor
    · exact .inl
    · rintro (hx | rfl)
      · exact hx
      · exact h
  · simp [h]

theorem insNew_extend (acc : List Nat) (q : Nat) :
    ∃ ext, insNew acc q = acc ++ ext := by
  unfold insNew
  by_cases h : q ∈ acc
  · exact ⟨[], by simp [h]⟩
  · exact ⟨[q], by simp [h]⟩

theorem nodup_insNew {acc : List Nat} (h : acc.Nodup) (q : Nat) :
    (insNew acc q).Nodup := by
  unfold insNew
  by_cases hq : q ∈ acc
  · simpa [hq]
  · simp only [hq, if_neg, not_false_iff]
    refine h.append (List.nodup_singleton q) ?_
    intro x hx hqmem
    simp at hqmem
    subst hqmem
    exact hq hx

theorem mem_insAll {acc l : List Nat} {x : Nat} :
    x ∈ insAll acc l ↔ x ∈ acc ∨ x ∈ l := by
  induction l generalizing acc with
  | nil => simp [insAll]
  | cons a l ih =>
    unfold insAll at *
    simp only [List.foldl_cons]
    rw [ih]
    rw [mem_insNew]
    constructor
    · rintro ((hx | rfl) | hx)
      · exact .inl hx
      · exact .inr (by simp)
      · exact .inr (by simp [hx])
    · rintro (hx | hx)
      · exact .inl (.inl hx)
      · rcases List.mem_cons.mp hx with rfl | hx'
        · exact .inl (.inr rfl)
        · exact .inr hx'

theorem insAll_extend (acc l : List Nat) : ∃ ext, insAll acc l = acc ++ ext := by
  induction l generalizing acc with
  | nil => exact ⟨[], by simp [insAll]⟩
  | cons a l ih =>
    unfold insAll at *
    simp only [List.foldl_cons]
    obtain ⟨e1, he1⟩ := insNew_extend acc a
    obtain ⟨e2, he2⟩ := ih (insNew acc a)
    exact ⟨e1 ++ e2, by rw [he2, he1, List.append_assoc]⟩

theorem nodup_insAll {acc : List Nat} (h : acc.Nodup) (l : List Nat) :
    (insAll acc l).Nodup := by
  induction l generalizing acc with
  | nil => simpa [insAll]
  | cons a l ih =>
    unfold insAll at *
    simp only [List.foldl_cons]
    exact ih (nodup_insNew h a)

theorem mem_satStep_aux {sts : List NSt} {x : Nat} :
    ∀ (l acc : List Nat),
      (x ∈ l.foldl (fun acc p => insAll acc (epsSucc sts p)) acc ↔
        x ∈ acc ∨ ∃ p ∈ l, x ∈ epsSucc sts p) := by
  intro l
  induction l with
  | nil => simp
  | cons a l ih =>
    intro acc
    simp only [List.foldl_cons]
    rw [ih, mem_insAll]
    constructor
    · rintro ((hx | hx) | ⟨p, hp, hx⟩)
      · exact .inl hx
      · exact .inr ⟨a, by simp, hx⟩
      · exact .inr ⟨p, by simp [hp], hx⟩
    · rintro (hx | ⟨p, hp, hx⟩)
      · exact .inl (.inl hx)
      · rcases List.mem_cons.mp hp with rfl | hp'
        · exact .inl (.inr hx)
        · exact .inr ⟨p, hp', hx⟩

theorem mem_satStep {sts : List NSt} {cur : List Nat} {x : Nat} :
    x ∈ satStep sts cur ↔ x ∈ cur ∨ ∃ p ∈ cur, x ∈ epsSucc sts p := by
  unfold satStep
  exact mem_satStep_aux cur cur

theorem satStep_extend (sts : List NSt) (cur : List Nat) :
    ∃ ext, satStep sts cur = cur ++ ext := by
  unfold satStep
  generalize cur = l
  suffices h : ∀ (l acc : List Nat), ∃ ext,
      l.foldl (fun acc p => insAll acc (epsSucc sts p)) acc = acc ++ ext by
    exact h _ _
  intro l
  induction l with
  | nil => exact fun acc => ⟨[], by simp⟩
  | cons a l ih =>
    intro acc
    simp only [List.foldl_cons]
    obtain ⟨e1, he1⟩ := insAll_extend acc (epsSucc sts a)
    obtain ⟨e2, he2⟩ := ih (insAll acc (epsSucc sts a))
    exact ⟨e1 ++ e2, by rw [he2, he1, List.append_assoc]⟩

theorem nodup_satStep {sts : List NSt} {cur : List Nat} (h : cur.Nodup) :
    (satStep sts cur).Nodup := by
  unfold satStep
  generalize hl : cur = l
  rw [← hl]
  clear hl
  suffices hgen : ∀ (l acc : List Nat), acc.Nodup →
      (l.foldl (fun acc p => insAll acc (epsSucc sts p)) acc).Nodup by
    exact hgen cur cur h
  intro l
  induction l with
  | nil => exact fun acc h => h
  | cons a l ih =>
    intro acc hacc
    simp only [List.foldl_cons]
    exact ih _ (nodup_insAll hacc _)

/-- Silent one-step relation and its reflexive-transitive closure
(the mathematical "epsilon closure" of the specification). -/
def EpsReach (sts : List NSt) (p q : Nat) : Prop :=
  Relation.ReflTransGen (fun a b => edge sts a .eps b) p q

/-- The computed silent-closure of state `s`
(`EpsilonRemover::compute_epsilon_closure`, as bounded saturation of the
reachable-set traversal). -/
def epsClosure (sts : List NSt) (s : Nat) : List Nat :=
  (satStep sts)^[sts.length] [s]

theorem iterate_satStep_extend (sts : List NSt) (s k : Nat) :
    ∃ ext, (satStep sts)^[k + 1] [s] = (satStep sts)^[k] [s] ++ ext := by
  rw [Function.iterate_succ_apply']
  exact satStep_extend sts _

theorem mem_iterate_satStep_mono {sts : List NSt} {s x : Nat} {k : Nat}
    (h : x ∈ (satStep sts)^[k] [s]) : ∀ m, k ≤ m → x ∈ (satStep sts)^[m] [s] := by
  intro m hm
  induction m with
  | zero =>
    have : k = 0 := Nat.le_zero.mp hm
    subst this
    exact h
  | succ m ih =>
    by_cases hk : k = m + 1
    · subst hk
      exact h
    · have hkm : k ≤ m := by omega
      obtain ⟨ext, hext⟩ := iterate_satStep_extend sts s m
      rw [hext]
      exact List.mem_append_left _ (ih hkm)

theorem iterate_satStep_sub_reach {sts : List NSt} {s : Nat} :
    ∀ k x, x ∈ (satStep sts)^[k] [s] → EpsReach sts s x := by
  intro k
  induction k with
  | zero =>
    intro x hx
    simp at hx
    subst hx
    exact Relation.ReflTransGen.refl
  | succ k ih =>
    intro x hx
    rw [Function.iterate_succ_apply'] at hx
    rcases mem_satStep.mp hx with hx' | ⟨p, hp, hx'⟩
    · exact ih x hx'
    · exact Relation.ReflTransGen.tail (ih p hp) (mem_epsSucc.mp hx')

theorem nodup_iterate_satStep (sts : List NSt) (s : Nat) :
    ∀ k, ((satStep sts)^[k] [s]).Nodup := by
  intro k
  induction k with
  | zero => simp
  | succ k ih =>
    rw [Function.iterate_succ_apply']
    exact nodup_satStep ih

theorem bounded_iterate_satStep {sts : List NSt} (hv : ValidN sts = true)
    {s : Nat} (hs : s < sts.length) :
    ∀ k x, x ∈ (satStep sts)^[k] [s] → x < sts.length := by
  intro k
  induction k with
  | zero =>
    intro x hx
    simp at hx
    subst hx
    exact hs
  | succ k ih =>
    intro x hx
    rw [Function.iterate_succ_apply'] at hx
    rcases mem_satStep.mp hx with hx' | ⟨p, hp, hx'⟩
    · exact ih x hx'
    · exact validN_target hv (mem_epsSucc.mp hx')

theorem length_iterate_satStep_le {sts : List NSt} (hv : ValidN sts = true)
    {s : Nat} (hs : s < sts.length) (k : Nat) :
    ((satStep sts)^[k] [s]).length ≤ sts.length := by
  have hnd := nodup_iterate_satStep sts s k
  have hbd := bounded_iterate_satStep hv hs k
  calc ((satStep sts)^[k] [s]).length = ((satStep sts)^[k] [s]).toFinset.card :=
        (List.toFinset_card_of_nodup hnd).symm
    _ ≤ (Finset.range sts.length).card := by
        apply Finset.card_le_card
        intro x hx
        rw [List.mem_toFinset] at hx
        rw [Finset.mem_range]
        exact hbd x hx
    _ = sts.length := Finset.card_range _

theorem satStep_fix_iterate {sts : List NSt} {cur : List Nat}
    (h : satStep sts cur = cur) : ∀ m, (satStep sts)^[m] cur = cur := by
  intro m
  induction m with
  | zero => rfl
  | succ m ih => rw [Function.iterate_succ_apply', ih, h]

theorem satStep_fix_or_grow (sts : List NSt) (s : Nat) :
    ∀ k, satStep sts ((satStep sts)^[k] [s]) = (satStep sts)^[k] [s] ∨
      k + 1 ≤ ((satStep sts)^[k] [s]).length := by
  intro k
  induction k with
  | zero => exact .inr (by simp)
  | succ k ih =>
    by_cases heq : satStep sts ((satStep sts)^[k] [s]) = (satStep sts)^[k] [s]
    · left
      rw [Function.iterate_succ_apply', heq, heq]
    · rcases ih with hfix | hlen
      · exact absurd hfix heq
      · right
        obtain ⟨ext, hext⟩ := iterate_satStep_extend sts s k
        have hne : ext ≠ [] := by
          intro hnil
          rw [hnil, List.append_nil] at hext
          rw [Function.iterate_succ_apply'] at hext
          exact heq hext
        rw [hext, List.length_append]
        have : 1 ≤ ext.length := by
          cases ext with
          | nil => exact absurd rfl hne
          | cons a l => simp
        omega

theorem epsClosure_fixed {sts : List NSt} (hv : ValidN sts = true)
    {s : Nat} (hs : s < sts.length) :
    satStep sts (epsClosure sts s) = epsClosure sts s := by
  unfold epsClosure
  rcases satStep_fix_or_grow sts s sts.length with hfix | hlen
  · exact hfix
  · have := length_iterate_satStep_le hv hs sts.length
    omega

/-- The computed silent-closure is exactly silent reachability
(reflexive-transitive closure of the silent transition relation). -/
theorem mem_epsClosure {sts : List NSt} (hv : ValidN sts = true)
    {s : Nat} (hs : s < sts.length) {q : Nat} :
    q ∈ epsClosure sts s ↔ EpsReach sts s q := by
  constructor
  · exact iterate_satStep_sub_reach _ _
  · intro hreach
    induction hreach with
    | refl =>
      have h0 : s ∈ (satStep sts)^[0] [s] := by simp
      exact mem_iterate_satStep_mono h0 _ (Nat.zero_le _)
    | tail hmid hedge ih =>
      have : _ ∈ satStep sts (epsClosure sts s) :=
        mem_satStep.mpr (.inr ⟨_, ih, mem_epsSucc.mpr hedge⟩)
      rwa [epsClosure_fixed hv hs] at this

theorem epsClosure_self {sts : List NSt} (hv : ValidN sts = true)
    {s : Nat} (hs : s < sts.length) : s ∈ epsClosure sts s :=
  (mem_epsClosure hv hs).mpr Relation.ReflTransGen.refl

theorem epsClosure_bounded {sts : List NSt} (hv : ValidN sts = true)
    {s : Nat} (hs : s < sts.length) {q : Nat} (hq : q ∈ epsClosure sts s) :
    q < sts.length := bounded_iterate_satStep hv hs _ q hq

/-- Targets of the real-symbol transitions of state `p` for symbol `b`. -/
def symSucc (sts : List NSt) (p : Nat) (b : Bool) : List Nat :=
  (edgesAt sts p).filterMap (fun e => if e.1 = Sym.sym b then some e.2 else none)

theorem mem_symSucc {sts : List NSt} {p q : Nat} {b : Bool} :
    q ∈ symSucc sts p b ↔ edge sts p (.sym b) q := by
  unfold symSucc edge
  rw [List.mem_filterMap]
  constructor
  · rintro ⟨⟨c, q'⟩, hmem, hq⟩
    by_cases hc : c = Sym.sym b
    · subst hc
      simp at hq
      subst hq
      exact hmem
    · simp [hc] at hq
  · intro hmem
    exact ⟨(.sym b, q), hmem, by simp⟩

/-- Successor list of state `i` for symbol `b` in the silent-free automaton
(`combined[c]` in `EpsilonRemover::remove`): the union over the closure
members of the closures of their direct `b`-successors.  `std::set`
deduplication is embedded as `List.dedup`; all later stages use this list
only through membership. -/
def removeEpsTrans (sts : List NSt) (i : Nat) (b : Bool) : List Nat :=
  ((epsClosure sts i).flatMap (fun cst =>
    (symSucc sts cst b).flatMap (fun nxt => epsClosure sts nxt))).dedup

/-- `EpsilonRemover::remove`: same state count and start; a state accepts
iff some member of its silent-closure accepts; real-symbol successors are
closed under silent moves on both sides; no silent transitions remain. -/
def removeEps (n : NFA) : NFA :=
  { states := (List.range n.states.length).map (fun i =>
      { accept := (epsClosure n.states i).any (fun cst => acceptAt n.states cst),
        edges :=
          ((removeEpsTrans n.states i false).map (fun q => (Sym.sym false, q))) ++
          ((removeEpsTrans n.states i true).map (fun q => (Sym.sym true, q))) }),
    start := n.start }

theorem length_removeEps (n : NFA) : (removeEps n).states.length = n.states.length := by
  simp [removeEps]

theorem acceptAt_removeEps (n : NFA) {i : Nat} (hi : i < n.states.length) :
    acceptAt (removeEps n).states i =
      (epsClosure n.states i).any (fun cst => acceptAt n.states cst) := by
  unfold acceptAt
  simp only [removeEps, List.getElem?_map, List.getElem?_range hi, Option.map_some']
  rfl

theorem edgesAt_removeEps (n : NFA) {i : Nat} (hi : i < n.states.length) :
    edgesAt (removeEps n).states i =
      ((removeEpsTrans n.states i false).map (fun q => (Sym.sym false, q))) ++
      ((removeEpsTrans n.states i true).map (fun q => (Sym.sym true, q))) := by
  unfold edgesAt
  simp [removeEps, List.getElem?_range hi]

/-- The silent-transition eliminator's output has no silent transitions. -/
theorem noEps_removeEps (n : NFA) : ∀ i q, ¬ edge (removeEps n).states i .eps q := by
  intro i q he
  unfold edge at he
  by_cases hi : i < n.states.length
  · rw [edgesAt_removeEps n hi] at he
    simp at he
  · rw [edgesAt_oob _ _ (by rw [length_removeEps]; omega)] at he
    cases he

theorem edge_removeEps_sym (n : NFA) {i : Nat} (hi : i < n.states.length)
    (b : Bool) (q : Nat) :
    edge (removeEps n).states i (.sym b) q ↔ q ∈ removeEpsTrans n.states i b := by
  unfold edge
  rw [edgesAt_removeEps n hi]
  cases b <;> simp

theorem mem_removeEpsTrans {sts : List NSt} (hv : ValidN sts = true)
    {i : Nat} (hi : i < sts.length) {b : Bool} {q : Nat} :
    q ∈ removeEpsTrans sts i b ↔
      ∃ p p', EpsReach sts i p ∧ edge sts p (.sym b) p' ∧ EpsReach sts p' q := by
  unfold removeEpsTrans
  rw [List.mem_dedup]
  simp only [List.mem_flatMap]
  constructor
  · rintro ⟨cst, hcst, nxt, hnxt, hq⟩
    have hcr := (mem_epsClosure hv hi).mp hcst
    have hnr : edge sts cst (.sym b) nxt := mem_symSucc.mp hnxt
    have hnxtlen : nxt < sts.length := validN_target hv hnr
    exact ⟨cst, nxt, hcr, hnr, (mem_epsClosure hv hnxtlen).mp hq⟩
  · rintro ⟨p, p', hip, hpp', hp'q⟩
    refine ⟨p, (mem_epsClosure hv hi).mpr hip, p', mem_symSucc.mpr hpp', ?_⟩
    have hp'len : p' < sts.length := validN_target hv hpp'
    exact (mem_epsClosure hv hp'len).mpr hp'q

/-- Acceptance from state `i` (the automaton's language, seen per state). -/
def AccFrom (sts : List NSt) (i : Nat) (w : List Bool) : Prop :=
  ∃ t, Path sts i w t ∧ acceptAt sts t = true

/-- A silent-only walk is exactly silent reachability. -/
theorem path_nil_iff_epsReach {sts : List NSt} {i t : Nat} :
    Path sts i [] t ↔ EpsReach sts i t := by
  constructor
  · rintro ⟨k, hp⟩
    induction k generalizing i with
    | zero =>
      rcases pathN_cases hp with ⟨-, rfl, -⟩ | ⟨k', q, hk, -⟩
      · exact Relation.ReflTransGen.refl
      · omega
    | succ k ih =>
      rcases pathN_cases hp with ⟨-, rfl, -⟩ | ⟨k', q, hk, hcase⟩
      · exact Relation.ReflTransGen.refl
      · rcases hcase with ⟨b, w', hw, -, -⟩ | ⟨hed, rest⟩
        · exact absurd hw (by simp)
        · have hk' : k' = k := by omega
          subst hk'
          exact Relation.ReflTransGen.head hed (ih rest)
  · intro hr
    induction hr with
    | refl => exact path_refl _
    | tail hmid hedge ih => exact path_append ih (path_eps_cons hedge (path_refl _))

/-- Decomposition of a nonempty-word walk at its first real step. -/
theorem path_cons_iff {sts : List NSt} {i t : Nat} {b : Bool} {w : List Bool} :
    Path sts i (b :: w) t ↔
      ∃ p p', EpsReach sts i p ∧ edge sts p (.sym b) p' ∧ Path sts p' w t := by
  constructor
  · rintro ⟨k, hp⟩
    induction k generalizing i with
    | zero =>
      rcases pathN_cases hp with ⟨-, -, habs⟩ | ⟨k', q, hk, -⟩
      · exact absurd habs (by simp)
      · omega
    | succ k ih =>
      rcases pathN_cases hp with ⟨-, -, habs⟩ | ⟨k', q, hk, hcase⟩
      · exact absurd habs (by simp)
      · have hk' : k' = k := by omega
        subst hk'
        rcases hcase with ⟨b', w', hw, hed, rest⟩ | ⟨hed, rest⟩
        · obtain ⟨rfl, rfl⟩ : b' = b ∧ w' = w := by
            constructor <;> [exact (List.cons.injEq _ _ _ _ ▸ hw).1.symm;
              exact (List.cons.injEq _ _ _ _ ▸ hw).2.symm]
          exact ⟨i, q, Relation.ReflTransGen.refl, hed, ⟨_, rest⟩⟩
        · obtain ⟨p, p', hreach, hed', hrest⟩ := ih rest
          exact ⟨p, p', Relation.ReflTransGen.head hed hreach, hed', hrest⟩
  · rintro ⟨p, p', hreach, hed, hrest⟩
    exact path_append (path_nil_iff_epsReach.mpr hreach) (path_sym_cons hed hrest)

/-- In a silent-free automaton, walks always start with a real step. -/
theorem path_noEps_nil {sts : List NSt} (hne : ∀ i q, ¬ edge sts i .eps q)
    {i t : Nat} (h : Path sts i [] t) : t = i := by
  obtain ⟨k, hp⟩ := h
  rcases pathN_cases hp with ⟨-, heq, -⟩ | ⟨k', q, -, hcase⟩
  · exact heq.symm
  · rcases hcase with ⟨b, w', hw, -, -⟩ | ⟨hed, -⟩
    · exact absurd hw (by simp)
    · exact absurd hed (hne _ _)

theorem path_noEps_cons {sts : List NSt} (hne : ∀ i q, ¬ edge sts i .eps q)
    {i t : Nat} {b : Bool} {w : List Bool} :
    Path sts i (b :: w) t ↔ ∃ q, edge sts i (.sym b) q ∧ Path sts q w t := by
  constructor
  · rintro ⟨k, hp⟩
    rcases pathN_cases hp with ⟨-, -, habs⟩ | ⟨k', q, -, hcase⟩
    · exact absurd habs (by simp)
    · rcases hcase with ⟨b', w', hw, hed, rest⟩ | ⟨hed, -⟩
      · obtain ⟨rfl, rfl⟩ : b' = b ∧ w' = w := by
          constructor <;> [exact (List.cons.injEq _ _ _ _ ▸ hw).1.symm;
            exact (List.cons.injEq _ _ _ _ ▸ hw).2.symm]
        exact ⟨q, hed, ⟨k', rest⟩⟩
      · exact absurd hed (hne _ _)
  · rintro ⟨q, hed, hrest⟩
    exact path_sym_cons hed hrest

/-- Acceptance from a state of the silent-free automaton is monotone along
silent reachability of the input automaton. -/
theorem accFrom_removeEps_mono (n : NFA) (hv : ValidN n.states = true)
    {p q : Nat} (hpq : EpsReach n.states p q) (hp : p < n.states.length)
    {w : List Bool} (hacc : AccFrom (removeEps n).states q w) :
    AccFrom (removeEps n).states p w := by
  have hq : q < n.states.length := by
    clear hacc
    induction hpq with
    | refl => exact hp
    | tail hmid hedge ih => exact validN_target hv hedge
  cases w with
  | nil =>
    obtain ⟨t, hpath, ht⟩ := hacc
    have := path_noEps_nil (noEps_removeEps n) hpath
    subst this
    refine ⟨p, path_refl _, ?_⟩
    rw [acceptAt_removeEps n hq] at ht
    rw [acceptAt_removeEps n hp]
    rw [List.any_eq_true] at ht ⊢
    obtain ⟨cst, hcst, hcacc⟩ := ht
    exact ⟨cst, (mem_epsClosure hv hp).mpr
      (Relation.ReflTransGen.trans hpq ((mem_epsClosure hv hq).mp hcst)), hcacc⟩
  | cons b w' =>
    obtain ⟨t, hpath, ht⟩ := hacc
    obtain ⟨r, hed, hrest⟩ := (path_noEps_cons (noEps_removeEps n)).mp hpath
    have hmem := (edge_removeEps_sym n hq b r).mp hed
    obtain ⟨u, u', hqu, huu', hu'r⟩ := (mem_removeEpsTrans hv hq).mp hmem
    have hed' : edge (removeEps n).states p (.sym b) r :=
      (edge_removeEps_sym n hp b r).mpr ((mem_removeEpsTrans hv hp).mpr
        ⟨u, u', Relation.ReflTransGen.trans hpq hqu, huu', hu'r⟩)
    exact ⟨t, path_sym_cons hed' hrest, ht⟩

/-- Language preservation of the silent-transition eliminator, per state. -/
theorem removeEps_correct (n : NFA) (hv : ValidN n.states = true) :
    ∀ (w : List Bool) (i : Nat), i < n.states.length →
      (AccFrom (removeEps n).states i w ↔ AccFrom n.states i w) := by
  intro w
  induction w with
  | nil =>
    intro i hi
    constructor
    · rintro ⟨t, hpath, ht⟩
      have := path_noEps_nil (noEps_removeEps n) hpath
      subst this
      rw [acceptAt_removeEps n hi, List.any_eq_true] at ht
      obtain ⟨cst, hcst, hcacc⟩ := ht
      exact ⟨cst, path_nil_iff_epsReach.mpr ((mem_epsClosure hv hi).mp hcst), hcacc⟩
    · rintro ⟨t, hpath, ht⟩
      refine ⟨i, path_refl _, ?_⟩
      rw [acceptAt_removeEps n hi, List.any_eq_true]
      exact ⟨t, (mem_epsClosure hv hi).mpr (path_nil_iff_epsReach.mp hpath), ht⟩
  | cons b w' ih =>
    intro i hi
    constructor
    · rintro ⟨t, hpath, ht⟩
      obtain ⟨r, hed, hrest⟩ := (path_noEps_cons (noEps_removeEps n)).mp hpath
      obtain ⟨u, u', hiu, huu', hu'r⟩ :=
        (mem_removeEpsTrans hv hi).mp ((edge_removeEps_sym n hi b r).mp hed)
      have hu'len : u' < n.states.length := validN_target hv huu'
      have hrlen : r < n.states.length := by
        rcases (Relation.reflTransGen_iff_eq_or_transGen.mp hu'r) with rfl | htg
        · exact hu'len
        · obtain ⟨m, hm, hlast⟩ := Relation.TransGen.tail'_iff.mp htg
          exact validN_target hv hlast
      have hr : AccFrom (removeEps n).states r w' := ⟨t, hrest, ht⟩
      have hu' : AccFrom (removeEps n).states u' w' :=
        accFrom_removeEps_mono n hv hu'r hu'len hr
      have hu'o : AccFrom n.states u' w' := (ih u' hu'len).mp hu'
      obtain ⟨t', hpath', ht'⟩ := hu'o
      exact ⟨t', path_cons_iff.mpr ⟨u, u', hiu, huu', hpath'⟩, ht'⟩
    · rintro ⟨t, hpath, ht⟩
      obtain ⟨p, p', hip, hpp', hrest⟩ := path_cons_iff.mp hpath
      have hp'len : p' < n.states.length := validN_target hv hpp'
      have hp'o : AccFrom n.states p' w' := ⟨t, hrest, ht⟩
      have hp'r : AccFrom (removeEps n).states p' w' := (ih p' hp'len).mpr hp'o
      obtain ⟨t', hpath', ht'⟩ := hp'r
      have hed : edge (removeEps n).states i (.sym b) p' :=
        (edge_removeEps_sym n hi b p').mpr ((mem_removeEpsTrans hv hi).mpr
          ⟨p, p', hip, hpp', Relation.ReflTransGen.refl⟩)
      exact ⟨t', path_sym_cons hed hpath', ht'⟩

/-- One DFA state (`DFA::State`): accept flag and the two successors for
symbols `0` and `1`.  The C++ `int` transition with `-1` for "no
transition" is `Option Nat` (`-1` ↦ `none`); the `id` field again equals
the position. -/
structure DSt : Type where
  accept : Bool := false
  t0 : Option Nat := none
  t1 : Option Nat := none
deriving DecidableEq, Repr

instance : Inhabited DSt := ⟨⟨false, none, none⟩⟩

/-- `struct DFA`: state vector, start index and recorded trap index
(`trap = -1` ↦ `none`).  The start is `Nat` because every construction in
the pipeline assigns it before use. -/
structure DFA : Type where
  states : List DSt
  start : Nat := 0
  trap : Option Nat := none
deriving DecidableEq, Repr

/-- The transition of a DFA state for a symbol (`t0` for `0`, `t1` for `1`). -/
def dTrans (st : DSt) (b : Bool) : Option Nat :=
  if b then st.t1 else st.t0

/-- `SubsetConstruction::move_set`: successors of a subset for one symbol. -/
def moveSet (n : NFA) (S : Finset Nat) (b : Bool) : Finset Nat :=
  S.biUnion (fun s => (symSucc n.states s b).toFinset)

theorem mem_moveSet {n : NFA} {S : Finset Nat} {b : Bool} {q : Nat} :
    q ∈ moveSet n S b ↔ ∃ s ∈ S, edge n.states s (.sym b) q := by
  unfold moveSet
  rw [Finset.mem_biUnion]
  constructor
  · rintro ⟨s, hs, hq⟩
    rw [List.mem_toFinset, mem_symSucc] at hq
    exact ⟨s, hs, hq⟩
  · rintro ⟨s, hs, hq⟩
    exact ⟨s, hs, by rw [List.mem_toFinset, mem_symSucc]; exact hq⟩

/-- "Does the subset contain an accepting NFA state" (the `is_accept` scan
of `SubsetConstruction::convert`). -/
def accOf (n : NFA) (S : Finset Nat) : Bool :=
  decide (∃ s ∈ S, acceptAt n.states s = true)

theorem accOf_iff {n : NFA} {S : Finset Nat} :
    accOf n S = true ↔ ∃ s ∈ S, acceptAt n.states s = true := by
  unfold accOf
  rw [decide_eq_true_eq]

/-- Position of a value in a registration list (the `std::map` lookups of
the source, keyed by identity). -/
def lookupIdx {α : Type} [DecidableEq α] (seen : List α) (S : α) : Option Nat :=
  match seen with
  | [] => none
  | T :: rest => if T = S then some 0 else (lookupIdx rest S).map (· + 1)

theorem lookupIdx_eq_none {α : Type} [DecidableEq α] {seen : List α} {S : α} :
    lookupIdx seen S = none ↔ S ∉ seen := by
  induction seen with
  | nil => simp [lookupIdx]
  | cons T rest ih =>
    unfold lookupIdx
    by_cases hT : T = S
    · simp [hT]
    · simp only [hT, if_neg, not_false_iff, Option.map_eq_none']
      rw [ih, List.mem_cons]
      constructor
      · intro h
        rintro (rfl | hmem)
        · exact hT rfl
        · exact h hmem
      · intro h
        exact fun hmem => h (.inr hmem)

theorem lookupIdx_some {α : Type} [DecidableEq α] {seen : List α} {S : α} {i : Nat}
    (h : lookupIdx seen S = some i) : seen[i]? = some S := by
  induction seen generalizing i with
  | nil => cases h
  | cons T rest ih =>
    unfold lookupIdx at h
    by_cases hT : T = S
    · simp [hT] at h
      subst h
      simp [hT]
    · simp only [hT, if_neg, not_false_iff, Option.map_eq_some'] at h
      obtain ⟨j, hj, rfl⟩ := h
      simpa using ih hj

theorem lookupIdx_of_getElem {α : Type} [DecidableEq α] {seen : List α} (hnd : seen.Nodup)
    {S : α} {k : Nat} (h : seen[k]? = some S) : lookupIdx seen S = some k := by
  induction seen generalizing k with
  | nil => cases h
  | cons T rest ih =>
    unfold lookupIdx
    rcases Nat.eq_zero_or_pos k with rfl | hk
    · simp at h
      simp [h]
    · obtain ⟨k', rfl⟩ : ∃ k', k = k' + 1 := ⟨k - 1, by omega⟩
      simp at h
      have hT : T ≠ S := by
        intro hTS
        subst hTS
        have hmem : T ∈ rest := by
          rcases List.getElem?_eq_some_iff.mp h with ⟨hk', hEq⟩
          exact hEq ▸ List.getElem_mem hk'
        exact (List.nodup_cons.mp hnd).1 hmem
      simp only [hT, if_neg, not_false_iff]
      rw [ih (List.nodup_cons.mp hnd).2 h]
      rfl

theorem lookupIdx_append_left {α : Type} [DecidableEq α] {seen ext : List α} {S : α} {i : Nat}
    (h : lookupIdx seen S = some i) : lookupIdx (seen ++ ext) S = some i := by
  induction seen generalizing i with
  | nil => cases h
  | cons T rest ih =>
    rw [List.cons_append]
    unfold lookupIdx at h ⊢
    by_cases hT : T = S
    · simpa [hT] using h
    · simp only [hT, if_neg, not_false_iff, Option.map_eq_some'] at h ⊢
      obtain ⟨j, hj, rfl⟩ := h
      exact ⟨j, ih hj, rfl⟩

/-- The worklist entry of `SubsetConstruction::convert` (`TempState`). -/
structure TempState : Type where
  id : Nat
  acc : Bool
  t0 : Option Nat
  t1 : Option Nat
deriving DecidableEq, Repr

/-- `SubsetConstruction::get_state_id`: `-1` for the empty subset, the
registered index for a seen subset, otherwise register and enqueue. -/
def getStateId (S : Finset Nat) (seen q : List (Finset Nat)) :
    Option Nat × List (Finset Nat) × List (Finset Nat) :=
  if S = ∅ then (none, seen, q)
  else
    match lookupIdx seen S with
    | some i => (some i, seen, q)
    | none => (some seen.length, seen ++ [S], q ++ [S])

/-- The worklist loop of `SubsetConstruction::convert`, fuel-indexed; the
fuel bound is proved sufficient in `convertLoop_ok`. -/
def convertLoop (n : NFA) : Nat → List (Finset Nat) → List (Finset Nat) →
    List TempState → List (Finset Nat) × List TempState
  | 0, seen, _, tmp => (seen, tmp)
  | fuel + 1, seen, q, tmp =>
    match q with
    | [] => (seen, tmp)
    | S :: q' =>
      let cid := (lookupIdx seen S).getD 0
      let acc := accOf n S
      let g0 := moveSet n S false
      let g1 := moveSet n S true
      let (i0, seen1, q1) := getStateId g0 seen q'
      let (i1, seen2, q2) := getStateId g1 seen1 q1
      convertLoop n fuel seen2 q2 (tmp ++ [⟨cid, acc, i0, i1⟩])

/-- `SubsetConstruction::convert`: run the worklist, append the canonical
trap for the empty subset if it was never registered (it never is),
redirect `-1` transitions to the trap, then fill the state vector by the
recorded ids (the loop invariant gives `tmp[k].id = k`, so the id-indexed
writes fill the vector in order). -/
def convert (n : NFA) : DFA :=
  let startSet : Finset Nat := {n.start}
  let res := convertLoop n (2 ^ n.states.length + 1) [startSet] [startSet] []
  let seen := res.1
  let tmp := res.2
  let tmp2 := if (∅ : Finset Nat) ∈ seen then tmp
    else tmp ++ [⟨tmp.length, false, some tmp.length, some tmp.length⟩]
  let trapId := if (∅ : Finset Nat) ∈ seen then (lookupIdx seen ∅).getD 0 else tmp.length
  let tmp3 := tmp2.map (fun t =>
    TempState.mk t.id t.acc (some (t.t0.getD trapId)) (some (t.t1.getD trapId)))
  { states := tmp3.foldl (fun sts t => sts.set t.id ⟨t.acc, t.t0, t.t1⟩)
      (List.replicate tmp3.length ⟨false, none, none⟩),
    start := 0,
    trap := some trapId }

/-- Specification of a recorded worklist transition entry: `-1` (`none`)
for the empty move, otherwise the registered index of the successor
subset. -/
def TransSpec (n : NFA) (seen : List (Finset Nat)) (S : Finset Nat) (b : Bool)
    (o : Option Nat) : Prop :=
  (moveSet n S b = ∅ ∧ o = none) ∨
  (moveSet n S b ≠ ∅ ∧ ∃ j, o = some j ∧ seen[j]? = some (moveSet n S b))

theorem transSpec_mono {n : NFA} {seen ext : List (Finset Nat)} {S : Finset Nat}
    {b : Bool} {o : Option Nat} (h : TransSpec n seen S b o) :
    TransSpec n (seen ++ ext) S b o := by
  rcases h with ⟨h1, h2⟩ | ⟨h1, j, h2, h3⟩
  · exact .inl ⟨h1, h2⟩
  · refine .inr ⟨h1, j, h2, ?_⟩
    rcases List.getElem?_eq_some_iff.mp h3 with ⟨hj, -⟩
    rw [List.getElem?_append_left hj]
    exact h3

/-- Invariant of the subset-construction worklist: the registered subsets
are distinct, nonempty and bounded; the queue is exactly the unprocessed
suffix of the registration list; each processed entry records its own
index, its acceptance, and its two moves. -/
structure ConvInv (n : NFA) (seen q : List (Finset Nat)) (tmp : List TempState) : Prop where
  nodup : seen.Nodup
  nonemptySets : ∀ S ∈ seen, S ≠ ∅
  bounded : ∀ S ∈ seen, ∀ x ∈ S, x < n.states.length
  qeq : q = seen.drop tmp.length
  entries : ∀ k, k < tmp.length → ∃ S t, seen[k]? = some S ∧ tmp[k]? = some t ∧
    t.id = k ∧ t.acc = accOf n S ∧
    TransSpec n seen S false t.t0 ∧ TransSpec n seen S true t.t1

theorem seen_le_pow {n : NFA} {seen : List (Finset Nat)} (hnd : seen.Nodup)
    (hbd : ∀ S ∈ seen, ∀ x ∈ S, x < n.states.length) :
    seen.length ≤ 2 ^ n.states.length := by
  calc seen.length = seen.toFinset.card := (List.toFinset_card_of_nodup hnd).symm
    _ ≤ (Finset.range n.states.length).powerset.card := by
        apply Finset.card_le_card
        intro S hS
        rw [List.mem_toFinset] at hS
        rw [Finset.mem_powerset]
        intro x hx
        rw [Finset.mem_range]
        exact hbd S hS x hx
    _ = 2 ^ n.states.length := by rw [Finset.card_powerset, Finset.card_range]

theorem getStateId_spec {S : Finset Nat} {seen q : List (Finset Nat)}
    (hnd : seen.Nodup) :
    ∃ o ext, getStateId S seen q = (o, seen ++ ext, q ++ ext) ∧
      (∀ T ∈ ext, T = S ∧ S ≠ ∅) ∧ (seen ++ ext).Nodup ∧
      ((S = ∅ ∧ o = none ∧ ext = []) ∨
        (S ≠ ∅ ∧ ∃ j, o = some j ∧ (seen ++ ext)[j]? = some S)) := by
  unfold getStateId
  by_cases hS : S = ∅
  · exact ⟨none, [], by simp [hS], by simp, by simpa using hnd, .inl ⟨hS, rfl, rfl⟩⟩
  · cases hlk : lookupIdx seen S with
    | some i =>
      refine ⟨some i, [], by simp [hS, hlk], by simp, by simpa using hnd,
        .inr ⟨hS, i, rfl, ?_⟩⟩
      simpa using lookupIdx_some hlk
    | none =>
      have hSmem : S ∉ seen := lookupIdx_eq_none.mp hlk
      refine ⟨some seen.length, [S], by simp [hS, hlk], by simp [hS], ?_,
        .inr ⟨hS, seen.length, rfl, List.getElem?_concat_length seen S⟩⟩
      exact hnd.append (List.nodup_singleton S)
        (fun x hx hx' => by simp at hx'; subst hx'; exact hSmem hx)

/-- The worklist loop terminates with the queue drained and the invariant
established, within the stated fuel, and only ever appends registrations. -/
theorem convertLoop_ok (n : NFA) (hv : ValidN n.states = true) :
    ∀ (fuel : Nat) (seen q : List (Finset Nat)) (tmp : List TempState),
    ConvInv n seen q tmp →
    q.length + 2 ^ n.states.length ≤ fuel + seen.length →
    ∃ seen' tmp', convertLoop n fuel seen q tmp = (seen', tmp') ∧
      ConvInv n seen' [] tmp' ∧ tmp'.length = seen'.length ∧
      ∃ ext, seen' = seen ++ ext := by
  have hfinish : ∀ (seen q : List (Finset Nat)) (tmp : List TempState),
      ConvInv n seen q tmp → q = [] →
      ConvInv n seen [] tmp ∧ tmp.length = seen.length := by
    intro seen q tmp hinv hq
    subst hq
    refine ⟨hinv, ?_⟩
    have h1 : seen.length ≤ tmp.length :=
      List.drop_eq_nil_iff.mp hinv.qeq.symm
    have h2 : tmp.length ≤ seen.length := by
      by_contra hgt
      obtain ⟨S, t, hS, -⟩ := hinv.entries seen.length (by omega)
      rw [List.getElem?_eq_none (le_refl _)] at hS
      cases hS
    omega
  intro fuel
  induction fuel with
  | zero =>
    intro seen q tmp hinv hbound
    have hle := seen_le_pow hinv.nodup hinv.bounded
    have hq : q = [] := List.eq_nil_of_length_eq_zero (by omega)
    obtain ⟨hinv', hlen⟩ := hfinish seen q tmp hinv hq
    subst hq
    exact ⟨seen, tmp, rfl, hinv', hlen, [], by simp⟩
  | succ fuel ih =>
    intro seen q tmp hinv hbound
    cases q with
    | nil =>
      obtain ⟨hinv', hlen⟩ := hfinish seen [] tmp hinv rfl
      exact ⟨seen, tmp, rfl, hinv', hlen, [], by simp⟩
    | cons S q' =>
      have hS : seen[tmp.length]? = some S := by
        have h0 : (seen.drop tmp.length)[0]? = some S := by
          rw [← hinv.qeq]
          simp
        rwa [List.getElem?_drop, Nat.add_zero] at h0
      have htlt : tmp.length < seen.length := by
        rcases List.getElem?_eq_some_iff.mp hS with ⟨hlt, -⟩
        exact hlt
      have hq' : q' = seen.drop (tmp.length + 1) := by
        have hdd : seen.drop (tmp.length + 1) = (seen.drop tmp.length).drop 1 := by
          rw [List.drop_drop]
        rw [hdd, ← hinv.qeq]
        simp
      have hcid : (lookupIdx seen S).getD 0 = tmp.length := by
        rw [lookupIdx_of_getElem hinv.nodup hS]
        rfl
      obtain ⟨o0, ext0, hg0, hext0, hnd0, hspec0⟩ :=
        getStateId_spec (S := moveSet n S false) (q := q') hinv.nodup
      obtain ⟨o1, ext1, hg1, hext1, hnd1, hspec1⟩ :=
        getStateId_spec (S := moveSet n S true) (q := q' ++ ext0) hnd0
      have hstep : convertLoop n (fuel + 1) seen (S :: q') tmp =
          convertLoop n fuel (seen ++ ext0 ++ ext1) (q' ++ ext0 ++ ext1)
            (tmp ++ [⟨(lookupIdx seen S).getD 0, accOf n S, o0, o1⟩]) := by
        simp only [convertLoop, hg0, hg1]
      have hSmem : S ∈ seen := by
        rcases List.getElem?_eq_some_iff.mp hS with ⟨hlt, hEq⟩
        exact hEq ▸ List.getElem_mem hlt
      have hmoveBounded : ∀ (b : Bool), ∀ x ∈ moveSet n S b, x < n.states.length := by
        intro b x hx
        obtain ⟨s, -, hedge⟩ := mem_moveSet.mp hx
        exact validN_target hv hedge
      have hinv' : ConvInv n (seen ++ ext0 ++ ext1) (q' ++ ext0 ++ ext1)
          (tmp ++ [⟨(lookupIdx seen S).getD 0, accOf n S, o0, o1⟩]) := by
        refine ⟨hnd1, ?_, ?_, ?_, ?_⟩
        · intro T hT
          rcases List.mem_append.mp hT with hT' | hT1
          · rcases List.mem_append.mp hT' with hT'' | hT0
            · exact hinv.nonemptySets T hT''
            · obtain ⟨rfl, hne⟩ := hext0 T hT0
              exact hne
          · obtain ⟨rfl, hne⟩ := hext1 T hT1
            exact hne
        · intro T hT x hx
          rcases List.mem_append.mp hT with hT' | hT1
          · rcases List.mem_append.mp hT' with hT'' | hT0
            · exact hinv.bounded T hT'' x hx
            · obtain ⟨rfl, -⟩ := hext0 T hT0
              exact hmoveBounded false x hx
          · obtain ⟨rfl, -⟩ := hext1 T hT1
            exact hmoveBounded true x hx
        · rw [List.length_append, List.length_singleton]
          rw [List.drop_append_of_le_length (by rw [List.length_append]; omega),
            List.drop_append_of_le_length (by omega), ← hq']
        · intro k hk
          rw [List.length_append, List.length_singleton] at hk
          by_cases hkt : k < tmp.length
          · obtain ⟨T, t, hT, ht, hid, hacc, hts0, hts1⟩ := hinv.entries k hkt
            refine ⟨T, t, ?_, ?_, hid, hacc, ?_, ?_⟩
            · rcases List.getElem?_eq_some_iff.mp hT with ⟨hlt, -⟩
              rw [List.append_assoc, List.getElem?_append_left hlt]
              exact hT
            · rcases List.getElem?_eq_some_iff.mp ht with ⟨hlt, -⟩
              rw [List.getElem?_append_left hlt]
              exact ht
            · rw [List.append_assoc]
              exact transSpec_mono hts0
            · rw [List.append_assoc]
              exact transSpec_mono hts1
          · have hkeq : k = tmp.length := by omega
            subst hkeq
            refine ⟨S, ⟨(lookupIdx seen S).getD 0, accOf n S, o0, o1⟩, ?_,
              List.getElem?_concat_length tmp _, hcid, rfl, ?_, ?_⟩
            · rw [List.append_assoc, List.getElem?_append_left htlt]
              exact hS
            · rcases hspec0 with ⟨hm, ho, -⟩ | ⟨hm, j, ho, hj⟩
              · exact .inl ⟨hm, ho⟩
              · refine .inr ⟨hm, j, ho, ?_⟩
                rcases List.getElem?_eq_some_iff.mp hj with ⟨hlt, -⟩
                rw [List.getElem?_append_left hlt]
                exact hj
            · rcases hspec1 with ⟨hm, ho, -⟩ | ⟨hm, j, ho, hj⟩
              · exact .inl ⟨hm, ho⟩
              · exact .inr ⟨hm, j, ho, hj⟩
      have hbound' : (q' ++ ext0 ++ ext1).length + 2 ^ n.states.length ≤
          fuel + (seen ++ ext0 ++ ext1).length := by
        simp only [List.length_append]
        simp only [List.length_cons] at hbound
        omega
      obtain ⟨seen', tmp', hrun, hinvF, hlenF, ext, hext⟩ :=
        ih (seen ++ ext0 ++ ext1) (q' ++ ext0 ++ ext1)
          (tmp ++ [⟨(lookupIdx seen S).getD 0, accOf n S, o0, o1⟩]) hinv' hbound'
      refine ⟨seen', tmp', ?_, hinvF, hlenF, ext0 ++ ext1 ++ ext, ?_⟩
      · rw [hstep]
        exact hrun
      · rw [hext]
        simp [List.append_assoc]

theorem writeFold_length (ts : List TempState) (acc : List DSt) :
    (ts.foldl (fun sts t => sts.set t.id ⟨t.acc, t.t0, t.t1⟩) acc).length = acc.length := by
  induction ts generalizing acc with
  | nil => rfl
  | cons t rest ih => simp [List.foldl_cons, ih]

/-- The id-indexed write loop of `SubsetConstruction::convert`: when the
recorded ids are the positions `base, base+1, …`, the writes fill the
vector in order. -/
theorem writeFold_getElem : ∀ (ts : List TempState) (acc : List DSt) (base : Nat),
    (∀ k t, ts[k]? = some t → t.id = base + k) →
    base + ts.length ≤ acc.length →
    ∀ j, (ts.foldl (fun sts t => sts.set t.id ⟨t.acc, t.t0, t.t1⟩) acc)[j]? =
      if base ≤ j ∧ j < base + ts.length then
        (ts[j - base]?).map (fun t => (⟨t.acc, t.t0, t.t1⟩ : DSt))
      else acc[j]? := by
  intro ts
  induction ts with
  | nil =>
    intro acc base hids hlen j
    have hcond : ¬ (base ≤ j ∧ j < base + ([] : List TempState).length) := by
      intro hcon
      obtain ⟨hc1, hc2⟩ := hcon
      simp only [List.length_nil, Nat.add_zero] at hc2
      omega
    simp only [List.foldl_nil, hcond, if_neg, not_false_iff]
  | cons t rest ih =>
    intro acc base hids hlen j
    simp only [List.foldl_cons]
    have hid : t.id = base := by
      have := hids 0 t (by simp)
      simpa using this
    rw [hid]
    have hrec := ih (acc.set base ⟨t.acc, t.t0, t.t1⟩) (base + 1)
      (fun k u hk => by
        have := hids (k + 1) u (by simpa using hk)
        omega)
      (by
        rw [List.length_set]
        simp at hlen
        omega) j
    rw [hrec]
    by_cases h1 : base + 1 ≤ j ∧ j < base + 1 + rest.length
    · rw [if_pos h1, if_pos (by simp; omega)]
      have hsub : j - base = (j - (base + 1)) + 1 := by omega
      rw [hsub]
      simp
    · rw [if_neg h1]
      by_cases h2 : base ≤ j ∧ j < base + (t :: rest).length
      · have hj : j = base := by
          simp at h2
          omega
        subst hj
        rw [if_pos h2, List.getElem?_set_self (by simp at hlen; omega)]
        simp
      · rw [if_neg h2]
        have hne : base ≠ j := by
          intro hbj
          apply h2
          refine ⟨by omega, ?_⟩
          simp
          omega
        rw [List.getElem?_set_ne hne]

theorem accOf_empty (n : NFA) : accOf n ∅ = false := by
  unfold accOf
  simp

theorem moveSet_empty (n : NFA) (b : Bool) : moveSet n ∅ b = ∅ := by
  unfold moveSet
  simp

/-- Characterization of the DFA produced by subset construction: each state
corresponds to a distinct subset of NFA states, state 0 is the start subset,
the trap is the unique empty-subset state, acceptance is membership of an
accepting NFA state, and each transition goes to the subset reached by
`moveSet` (the trap for the empty move). -/
structure ConvertChar (n : NFA) (d : DFA) (sets : List (Finset Nat)) : Prop where
  len : sets.length = d.states.length
  nodupSets : sets.Nodup
  startSet : sets[0]? = some {n.start}
  startIdx : d.start = 0
  trapSpec : ∃ tp, d.trap = some tp ∧ tp < d.states.length ∧ sets[tp]? = some ∅
  emptyIff : ∀ (k : Nat) (S : Finset Nat), sets[k]? = some S → (S = ∅ ↔ d.trap = some k)
  stSpec : ∀ (k : Nat) (S : Finset Nat), sets[k]? = some S →
    ∃ st, d.states[k]? = some st ∧
    st.accept = accOf n S ∧
    (∀ b, ∃ j, dTrans st b = some j ∧ j < d.states.length ∧
      ((moveSet n S b = ∅ ∧ d.trap = some j) ∨ sets[j]? = some (moveSet n S b)))

/-- The subset construction satisfies its characterization. -/
theorem convert_char (n : NFA) (hv : ValidN n.states = true)
    (hstart : n.start < n.states.length) :
    ∃ sets, ConvertChar n (convert n) sets := by
  have hinv0 : ConvInv n [{n.start}] [{n.start}] [] := by
    refine ⟨List.nodup_singleton _, ?_, ?_, rfl, ?_⟩
    · intro S hS
      simp at hS
      subst hS
      simp
    · intro S hS x hx
      simp at hS
      subst hS
      simp at hx
      subst hx
      exact hstart
    · intro k hk
      simp at hk
  obtain ⟨seen, tmp, hrun, hinvF, hlenF, ext, hext⟩ :=
    convertLoop_ok n hv (2 ^ n.states.length + 1) [{n.start}] [{n.start}] [] hinv0
      (by simp; omega)
  have hempty : (∅ : Finset Nat) ∉ seen := by
    intro hmem
    exact hinvF.nonemptySets ∅ hmem rfl
  have hseenlen : 1 ≤ seen.length := by
    rw [hext]
    simp
  refine ⟨seen ++ [∅], ?_⟩
  set tmp3 : List TempState :=
    (tmp ++ [TempState.mk tmp.length false (some tmp.length) (some tmp.length)]).map
      (fun t => TempState.mk t.id t.acc (some (t.t0.getD tmp.length))
        (some (t.t1.getD tmp.length))) with htmp3
  have hconv : convert n =
      { states := tmp3.foldl (fun sts t => sts.set t.id (DSt.mk t.acc t.t0 t.t1))
          (List.replicate tmp3.length (DSt.mk false none none)),
        start := 0,
        trap := some tmp.length } := by
    simp only [convert]
    rw [hrun]
    simp only [hempty, if_neg, not_false_iff]
  have htmp3len : tmp3.length = tmp.length + 1 := by
    rw [htmp3, List.length_map]
    simp
  have hids : ∀ k t, tmp3[k]? = some t → t.id = 0 + k := by
    intro k t hk
    rw [htmp3, List.getElem?_map] at hk
    rcases hmap : (tmp ++
        [TempState.mk tmp.length false (some tmp.length) (some tmp.length)])[k]? with - | u
    · rw [hmap] at hk
      cases hk
    · rw [hmap] at hk
      simp at hk
      by_cases hkt : k < tmp.length
      · rw [List.getElem?_append_left hkt] at hmap
        obtain ⟨S, t', hS, ht', hid, -⟩ := hinvF.entries k hkt
        rw [hmap] at ht'
        cases ht'
        rw [← hk]
        simpa using hid
      · have hkeq : k = tmp.length := by
          rcases List.getElem?_eq_some_iff.mp hmap with ⟨hlt, -⟩
          simp at hlt
          omega
        subst hkeq
        rw [List.getElem?_concat_length] at hmap
        cases hmap
        rw [← hk]
        simp
  have hstates : ∀ j, (convert n).states[j]? =
      if j < tmp.length + 1 then
        (tmp3[j]?).map (fun t => (⟨t.acc, t.t0, t.t1⟩ : DSt))
      else none := by
    intro j
    rw [hconv]
    have := writeFold_getElem tmp3 (List.replicate tmp3.length ⟨false, none, none⟩) 0
      hids (by simp) j
    simp only [Nat.zero_add, Nat.zero_le, true_and] at this
    rw [this, htmp3len]
    by_cases hj : j < tmp.length + 1
    · simp [hj]
    · simp only [if_neg hj]
      refine List.getElem?_eq_none ?_
      rw [List.length_replicate]
      omega
  have hstateslen : (convert n).states.length = tmp.length + 1 := by
    rw [hconv]
    simp only [writeFold_length, List.length_replicate]
    exact htmp3len
  have htrap : (convert n).trap = some tmp.length := by
    rw [hconv]
  have hstart0 : (convert n).start = 0 := by
    rw [hconv]
  refine ⟨?_, ?_, ?_, hstart0, ?_, ?_, ?_⟩
  · rw [hstateslen]
    simp
    omega
  · refine hinvF.nodup.append (List.nodup_singleton _) ?_
    intro x hx hx'
    simp at hx'
    subst hx'
    exact hempty hx
  · rw [List.getElem?_append_left (by omega), hext]
    simp
  · refine ⟨tmp.length, htrap, by rw [hstateslen]; omega, ?_⟩
    rw [hlenF, List.getElem?_concat_length]
  · intro k S hk
    rw [htrap]
    by_cases hkl : k < seen.length
    · rw [List.getElem?_append_left hkl] at hk
      have hSne : S ≠ ∅ := by
        apply hinvF.nonemptySets
        rcases List.getElem?_eq_some_iff.mp hk with ⟨hlt, hEq⟩
        exact hEq ▸ List.getElem_mem hlt
      constructor
      · intro h
        exact absurd h hSne
      · intro h
        have : k = tmp.length := by
          injection h with h'
          omega
        omega
    · have hkeq : k = seen.length := by
        rcases List.getElem?_eq_some_iff.mp hk with ⟨hlt, -⟩
        simp at hlt
        omega
      subst hkeq
      rw [List.getElem?_concat_length] at hk
      injection hk with hk'
      subst hk'
      rw [hlenF]
      simp
  · intro k S hk
    have hklen : k < tmp.length + 1 := by
      rcases List.getElem?_eq_some_iff.mp hk with ⟨hlt, -⟩
      simp at hlt
      omega
    by_cases hkt : k < tmp.length
    · rw [List.getElem?_append_left (by omega)] at hk
      obtain ⟨S', t, hS', ht, hid, hacc, hts0, hts1⟩ := hinvF.entries k hkt
      rw [hk] at hS'
      injection hS' with hS'
      subst hS'
      refine ⟨⟨t.acc, some (t.t0.getD tmp.length), some (t.t1.getD tmp.length)⟩, ?_, hacc, ?_⟩
      · rw [hstates k, if_pos hklen, htmp3, List.getElem?_map,
          List.getElem?_append_left hkt, ht]
        rfl
      · intro b
        have hts : TransSpec n seen S b (if b then t.t1 else t.t0) := by
          cases b
          · exact hts0
          · exact hts1
        rcases hts with ⟨hm, ho⟩ | ⟨hm, j, ho, hj⟩
        · refine ⟨tmp.length, ?_, by rw [hstateslen]; omega, .inl ⟨hm, htrap⟩⟩
          unfold dTrans
          cases b <;> simp at ho ⊢ <;> rw [ho] <;> rfl
        · refine ⟨j, ?_, ?_, .inr ?_⟩
          · unfold dTrans
            cases b <;> simp at ho ⊢ <;> rw [ho] <;> rfl
          · rcases List.getElem?_eq_some_iff.mp hj with ⟨hlt, -⟩
            rw [hstateslen, hlenF]
            omega
          · rcases List.getElem?_eq_some_iff.mp hj with ⟨hlt, -⟩
            rw [List.getElem?_append_left hlt]
            exact hj
    · have hkeq : k = seen.length := by
        rcases List.getElem?_eq_some_iff.mp hk with ⟨hlt, -⟩
        simp at hlt
        omega
      have hkeq' : k = tmp.length := by omega
      subst hkeq'
      rw [hkeq, List.getElem?_concat_length] at hk
      injection hk with hk'
      subst hk'
      refine ⟨⟨false, some tmp.length, some tmp.length⟩, ?_, (accOf_empty n).symm, ?_⟩
      · rw [hstates tmp.length, if_pos (by omega), htmp3, List.getElem?_map,
          List.getElem?_concat_length]
        rfl
      · intro b
        refine ⟨tmp.length, ?_, by rw [hstateslen]; omega,
          .inl ⟨moveSet_empty n b, htrap⟩⟩
        unfold dTrans
        cases b <;> rfl

/-- Class value of state `i` under a partition vector (`partition[i]`). -/
def Pval (P : List Nat) (i : Nat) : Nat :=
  P.getD i 0

/-- `DFAMinimizer::minimize`'s initial partition: accepting states in class
1, the rest in class 0. -/
def initPartition (d : DFA) : List Nat :=
  d.states.map (fun st => if st.accept then 1 else 0)

/-- Strict lexicographic order on the regrouping keys
(`std::map<array<int,3>, …>` iterates keys in this order). -/
def keyLt (a b : Nat × Nat × Nat) : Prop :=
  a.1 < b.1 ∨ (a.1 = b.1 ∧ (a.2.1 < b.2.1 ∨ (a.2.1 = b.2.1 ∧ a.2.2 < b.2.2)))

instance (a b : Nat × Nat × Nat) : Decidable (keyLt a b) := by
  unfold keyLt
  infer_instance

def keyLe (a b : Nat × Nat × Nat) : Bool :=
  decide (keyLt a b ∨ a = b)

/-- The regrouping key of state `i`: its class and the classes of its two
successors (`{partition[i], c0, c1}`). -/
def keyOf (d : DFA) (P : List Nat) (i : Nat) : Nat × Nat × Nat :=
  (Pval P i, Pval P ((d.states.getD i default).t0.getD 0),
    Pval P ((d.states.getD i default).t1.getD 0))

/-- The distinct keys in `std::map` iteration order. -/
def sortedKeys (d : DFA) (P : List Nat) : List (Nat × Nat × Nat) :=
  (((List.range d.states.length).map (keyOf d P)).dedup).insertionSort
    (fun a b => keyLe a b = true)

/-- One refinement pass: regroup by key and renumber classes in key order
(group `g` of the sorted map gets class `new_class =` its rank). -/
def refineStep (d : DFA) (P : List Nat) : List Nat :=
  (List.range d.states.length).map
    (fun i => (lookupIdx (sortedKeys d P) (keyOf d P i)).getD 0)

/-- The `while (changed)` refinement loop, fuel-indexed (sufficiency of the
fuel is proved via `refineStep_iterate_fix`). -/
def minimizeLoop (d : DFA) : Nat → List Nat → List Nat
  | 0, P => P
  | fuel + 1, P =>
    let P' := refineStep d P
    if P' = P then P else minimizeLoop d fuel P'

/-- The partition at the fixpoint of the refinement loop. -/
def finalPartition (d : DFA) : List Nat :=
  minimizeLoop d (d.states.length + 2) (initPartition d)

/-- `DFAMinimizer::minimize`: one state per final class, wired through the
first representative of each class; a class accepts iff it contains an
accepting state; start and trap are mapped through the partition. -/
def minimize (d : DFA) : DFA :=
  let P := finalPartition d
  let count := P.foldl max 0 + 1
  let rep := fun c => ((List.range d.states.length).find? (fun i => Pval P i == c)).getD 0
  { states := (List.range count).map (fun c =>
      { accept := decide (∃ i, i < d.states.length ∧ Pval P i = c ∧
          (d.states.getD i default).accept = true),
        t0 := some (Pval P ((d.states.getD (rep c) default).t0.getD 0)),
        t1 := some (Pval P ((d.states.getD (rep c) default).t1.getD 0)) }),
    start := Pval P d.start,
    trap := some (Pval P (d.trap.getD 0)) }

/-- Executable well-formedness of a DFA as the minimizer receives it:
nonempty, start and trap in range, and total in-range transitions. -/
def dvalid (d : DFA) : Bool :=
  decide (1 ≤ d.states.length) && decide (d.start < d.states.length) &&
  (match d.trap with
   | some t => decide (t < d.states.length)
   | none => false) &&
  d.states.all (fun st =>
    (match st.t0 with
     | some j => decide (j < d.states.length)
     | none => false) &&
    (match st.t1 with
     | some j => decide (j < d.states.length)
     | none => false))

theorem getD_map_range {α : Type} (f : Nat → α) {n i : Nat} (hi : i < n) (da : α) :
    ((List.range n).map f).getD i da = f i := by
  rw [List.getD_eq_getElem?_getD, List.getElem?_map, List.getElem?_range hi]
  rfl

theorem getD_map {α β : Type} (l : List α) (f : α → β) {i : Nat} (hi : i < l.length)
    (da : α) (db : β) : (l.map f).getD i db = f (l.getD i da) := by
  rw [List.getD_eq_getElem?_getD, List.getElem?_map, List.getElem?_eq_getElem hi,
    List.getD_eq_getElem?_getD, List.getElem?_eq_getElem hi]
  rfl

theorem length_initPartition (d : DFA) : (initPartition d).length = d.states.length := by
  simp [initPartition]

theorem length_refineStep (d : DFA) (P : List Nat) :
    (refineStep d P).length = d.states.length := by
  simp [refineStep]

theorem lookupIdx_isSome {α : Type} [DecidableEq α] {seen : List α} {S : α}
    (h : S ∈ seen) : ∃ i, lookupIdx seen S = some i := by
  cases hl : lookupIdx seen S with
  | none => exact absurd (lookupIdx_eq_none.mp hl) (by simpa using h)
  | some i => exact ⟨i, rfl⟩

theorem nodup_sortedKeys (d : DFA) (P : List Nat) : (sortedKeys d P).Nodup := by
  unfold sortedKeys
  exact (List.perm_insertionSort _ _).nodup_iff.mpr (List.nodup_dedup _)

theorem mem_sortedKeys {d : DFA} {P : List Nat} {k : Nat × Nat × Nat} :
    k ∈ sortedKeys d P ↔ ∃ i, i < d.states.length ∧ keyOf d P i = k := by
  unfold sortedKeys
  rw [(List.perm_insertionSort _ _).mem_iff, List.mem_dedup, List.mem_map]
  constructor
  · rintro ⟨i, hi, rfl⟩
    exact ⟨i, by simpa using hi, rfl⟩
  · rintro ⟨i, hi, rfl⟩
    exact ⟨i, by simpa using hi, rfl⟩

theorem keyOf_mem_sortedKeys {d : DFA} {P : List Nat} {i : Nat}
    (hi : i < d.states.length) : keyOf d P i ∈ sortedKeys d P :=
  mem_sortedKeys.mpr ⟨i, hi, rfl⟩

theorem refineStep_val {d : DFA} {P : List Nat} {i : Nat} (hi : i < d.states.length) :
    ∃ m, lookupIdx (sortedKeys d P) (keyOf d P i) = some m ∧
      Pval (refineStep d P) i = m := by
  obtain ⟨m, hm⟩ := lookupIdx_isSome (keyOf_mem_sortedKeys (P := P) hi)
  refine ⟨m, hm, ?_⟩
  unfold Pval refineStep
  rw [getD_map_range _ hi, hm]
  rfl

/-- Two states get the same new class exactly when their keys agree. -/
theorem refineStep_eq_iff {d : DFA} {P : List Nat} {i j : Nat}
    (hi : i < d.states.length) (hj : j < d.states.length) :
    Pval (refineStep d P) i = Pval (refineStep d P) j ↔ keyOf d P i = keyOf d P j := by
  obtain ⟨mi, hmi, hvi⟩ := refineStep_val (P := P) hi
  obtain ⟨mj, hmj, hvj⟩ := refineStep_val (P := P) hj
  rw [hvi, hvj]
  constructor
  · intro hm
    subst hm
    have h1 := lookupIdx_some hmi
    have h2 := lookupIdx_some hmj
    rw [h1] at h2
    exact Option.some.inj h2
  · intro hk
    rw [hk] at hmi
    rw [hmi] at hmj
    injection hmj

/-- A refinement pass never merges two classes. -/
theorem refineStep_refines {d : DFA} {P : List Nat} {i j : Nat}
    (hi : i < d.states.length) (hj : j < d.states.length)
    (h : Pval (refineStep d P) i = Pval (refineStep d P) j) : Pval P i = Pval P j := by
  have hk := (refineStep_eq_iff hi hj).mp h
  have := congrArg Prod.fst hk
  simpa [keyOf] using this

theorem refineStep_lt {d : DFA} {P : List Nat} {i : Nat} (hi : i < d.states.length) :
    Pval (refineStep d P) i < (sortedKeys d P).length := by
  obtain ⟨m, hm, hv⟩ := refineStep_val (P := P) hi
  rw [hv]
  rcases List.getElem?_eq_some_iff.mp (lookupIdx_some hm) with ⟨hlt, -⟩
  exact hlt

theorem refineStep_surj {d : DFA} {P : List Nat} {m : Nat}
    (hm : m < (sortedKeys d P).length) :
    ∃ i, i < d.states.length ∧ Pval (refineStep d P) i = m := by
  have hmem : (sortedKeys d P)[m] ∈ sortedKeys d P := List.getElem_mem hm
  obtain ⟨i, hi, hk⟩ := mem_sortedKeys.mp hmem
  refine ⟨i, hi, ?_⟩
  obtain ⟨m', hm', hv⟩ := refineStep_val (P := P) hi
  rw [hv]
  rw [hk] at hm'
  have hfin := lookupIdx_of_getElem (nodup_sortedKeys d P) (List.getElem?_eq_getElem hm)
  rw [hfin] at hm'
  exact (Option.some.inj hm').symm

theorem keyLt_irrefl (a : Nat × Nat × Nat) : ¬ keyLt a a := by
  unfold keyLt
  omega

theorem keyLt_trans {a b c : Nat × Nat × Nat} (h1 : keyLt a b) (h2 : keyLt b c) :
    keyLt a c := by
  unfold keyLt at *
  omega

theorem keyLt_asymm {a b : Nat × Nat × Nat} (h : keyLt a b) : ¬ keyLt b a :=
  fun h' => keyLt_irrefl a (keyLt_trans h h')

theorem keyLt_connex {a b : Nat × Nat × Nat} (h : a ≠ b) : keyLt a b ∨ keyLt b a := by
  by_cases h1 : a.1 = b.1
  · by_cases h2 : a.2.1 = b.2.1
    · by_cases h3 : a.2.2 = b.2.2
      · exfalso
        apply h
        rw [Prod.ext_iff, Prod.ext_iff]
        exact ⟨h1, h2, h3⟩
      · unfold keyLt
        omega
    · unfold keyLt
      omega
  · unfold keyLt
    omega

theorem keyLe_trans' : ∀ (a b c : Nat × Nat × Nat), keyLe a b → keyLe b c → keyLe a c := by
  intro a b c h1 h2
  unfold keyLe at *
  rw [decide_eq_true_eq] at *
  rcases h1 with h1 | rfl
  · rcases h2 with h2 | rfl
    · exact .inl (keyLt_trans h1 h2)
    · exact .inl h1
  · exact h2

theorem keyLe_total' : ∀ (a b : Nat × Nat × Nat), keyLe a b || keyLe b a := by
  intro a b
  unfold keyLe
  by_cases h : a = b
  · subst h
    simp
  · rcases keyLt_connex h with h' | h' <;> simp [h']

instance : IsTotal (Nat × Nat × Nat) (fun a b => keyLe a b = true) :=
  ⟨fun a b => by
    have := keyLe_total' a b
    rcases Bool.or_eq_true_iff.mp this with h | h
    · exact Or.inl h
    · exact Or.inr h⟩

instance : IsTrans (Nat × Nat × Nat) (fun a b => keyLe a b = true) :=
  ⟨fun a b c hab hbc => keyLe_trans' a b c hab hbc⟩

theorem pairwise_sortedKeys (d : DFA) (P : List Nat) :
    (sortedKeys d P).Pairwise (fun a b => keyLe a b = true) := by
  unfold sortedKeys
  exact List.sorted_insertionSort _ _

/-- In a sorted duplicate-free list, the position of an element is the
number of strictly smaller elements. -/
theorem lookupIdx_rank {L : List (Nat × Nat × Nat)} (hnd : L.Nodup)
    (hsort : L.Pairwise (fun a b => keyLe a b = true)) {x : Nat × Nat × Nat} {m : Nat}
    (h : lookupIdx L x = some m) :
    (L.filter (fun y => decide (keyLt y x))).length = m := by
  induction L generalizing m with
  | nil => cases h
  | cons a rest ih =>
    unfold lookupIdx at h
    rw [List.pairwise_cons] at hsort
    rw [List.nodup_cons] at hnd
    by_cases ha : a = x
    · subst ha
      simp only [if_pos rfl] at h
      injection h with h
      subst h
      rw [List.filter_cons]
      have hnlt : ¬ keyLt a a := keyLt_irrefl a
      simp only [hnlt, decide_False, if_neg, Bool.false_eq_true, not_false_iff]
      rw [List.length_eq_zero, List.filter_eq_nil_iff]
      intro y hy
      have hle : keyLe a y = true := hsort.1 y hy
      have hya : y ≠ a := fun hEq => hnd.1 (hEq ▸ hy)
      unfold keyLe at hle
      rw [decide_eq_true_eq] at hle
      rcases hle with hlt | rfl
      · simp [keyLt_asymm hlt]
      · exact absurd rfl hya
    · simp only [ha, if_neg, not_false_iff, Option.map_eq_some'] at h
      obtain ⟨m', hm', rfl⟩ := h
      have hxmem : x ∈ rest := by
        rcases List.getElem?_eq_some_iff.mp (lookupIdx_some hm') with ⟨hlt, hEq⟩
        exact hEq ▸ List.getElem_mem hlt
      have hax : keyLt a x := by
        have hle : keyLe a x = true := hsort.1 x hxmem
        unfold keyLe at hle
        rw [decide_eq_true_eq] at hle
        rcases hle with hlt | rfl
        · exact hlt
        · exact absurd rfl ha
      rw [List.filter_cons]
      simp only [hax, decide_True, if_pos]
      rw [List.length_cons, ih hnd.2 hsort.2 hm']

/-- At a partition where regrouping does not split (equal classes have
equal keys) and whose class values are downward closed, the renumbering
pass returns the partition unchanged. -/
theorem refineStep_of_nosplit {d : DFA} {P : List Nat}
    (hlen : P.length = d.states.length)
    (hns : ∀ i j, i < d.states.length → j < d.states.length →
      Pval P i = Pval P j → keyOf d P i = keyOf d P j)
    (hcontig : ∀ i, i < d.states.length → ∀ w, w < Pval P i →
      ∃ j, j < d.states.length ∧ Pval P j = w) :
    refineStep d P = P := by
  have hval : ∀ i, i < d.states.length → Pval (refineStep d P) i = Pval P i := by
    intro i hi
    obtain ⟨m, hm, hv⟩ := refineStep_val (P := P) hi
    rw [hv]
    have hrank := lookupIdx_rank (nodup_sortedKeys d P) (pairwise_sortedKeys d P) hm
    rw [← hrank]
    have hfnd : ((sortedKeys d P).filter (fun y => decide (keyLt y (keyOf d P i)))).Nodup :=
      (nodup_sortedKeys d P).filter _
    rw [← List.toFinset_card_of_nodup hfnd]
    rw [← Finset.card_range (Pval P i)]
    apply Finset.card_bij (fun k _ => k.1)
    · intro k hk
      rw [List.mem_toFinset, List.mem_filter, decide_eq_true_eq] at hk
      obtain ⟨hkmem, hklt⟩ := hk
      obtain ⟨j, hj, hkey⟩ := mem_sortedKeys.mp hkmem
      rw [Finset.mem_range]
      subst hkey
      have hfst : (keyOf d P j).1 = Pval P j := rfl
      rw [hfst]
      by_cases hPij : Pval P j = Pval P i
      · exfalso
        have := hns j i hj hi hPij
        rw [this] at hklt
        exact keyLt_irrefl _ hklt
      · have hle : Pval P j ≤ Pval P i := by
          rcases hklt with hlt | ⟨hEq, -⟩
          · have : (keyOf d P j).1 = Pval P j := rfl
            have h2 : (keyOf d P i).1 = Pval P i := rfl
            omega
          · have h2 : (keyOf d P i).1 = Pval P i := rfl
            omega
        omega
    · intro k1 hk1 k2 hk2 hEq
      rw [List.mem_toFinset, List.mem_filter, decide_eq_true_eq] at hk1 hk2
      obtain ⟨j1, hj1, hkey1⟩ := mem_sortedKeys.mp hk1.1
      obtain ⟨j2, hj2, hkey2⟩ := mem_sortedKeys.mp hk2.1
      subst hkey1
      subst hkey2
      exact hns j1 j2 hj1 hj2 hEq
    · intro v hv
      rw [Finset.mem_range] at hv
      obtain ⟨j, hj, hPj⟩ := hcontig i hi v hv
      refine ⟨keyOf d P j, ?_, hPj⟩
      rw [List.mem_toFinset, List.mem_filter, decide_eq_true_eq]
      refine ⟨keyOf_mem_sortedKeys hj, ?_⟩
      unfold keyLt
      left
      have h1 : (keyOf d P j).1 = Pval P j := rfl
      have h2 : (keyOf d P i).1 = Pval P i := rfl
      omega
  apply List.ext_getElem (by rw [length_refineStep, hlen])
  intro i hi1 hi2
  have hi : i < d.states.length := by rwa [length_refineStep] at hi1
  have := hval i hi
  unfold Pval at this
  rwa [List.getD_eq_getElem?_getD, List.getElem?_eq_getElem hi1,
    List.getD_eq_getElem?_getD, List.getElem?_eq_getElem hi2] at this

/-- The set of class values in use. -/
def classImage (d : DFA) (P : List Nat) : Finset Nat :=
  ((List.range d.states.length).map (Pval P)).toFinset

theorem mem_classImage {d : DFA} {P : List Nat} {v : Nat} :
    v ∈ classImage d P ↔ ∃ i, i < d.states.length ∧ Pval P i = v := by
  unfold classImage
  rw [List.mem_toFinset, List.mem_map]
  constructor
  · rintro ⟨i, hi, rfl⟩
    exact ⟨i, by simpa using hi, rfl⟩
  · rintro ⟨i, hi, rfl⟩
    exact ⟨i, by simpa using hi, rfl⟩

theorem card_classImage_le (d : DFA) (P : List Nat) :
    (classImage d P).card ≤ d.states.length := by
  calc (classImage d P).card ≤ ((List.range d.states.length).map (Pval P)).length :=
        List.toFinset_card_le _
    _ = d.states.length := by simp

/-- The map sending a new class to the old class of its members. -/
def classBack (d : DFA) (P : List Nat) (v' : Nat) : Nat :=
  Pval P (((List.range d.states.length).find? (fun i => Pval (refineStep d P) i == v')).getD 0)

theorem classBack_spec {d : DFA} {P : List Nat} {i : Nat} (hi : i < d.states.length) :
    classBack d P (Pval (refineStep d P) i) = Pval P i := by
  unfold classBack
  have hfind : ∃ j, ((List.range d.states.length).find?
      (fun i' => Pval (refineStep d P) i' == Pval (refineStep d P) i)) = some j := by
    cases hf : (List.range d.states.length).find?
        (fun i' => Pval (refineStep d P) i' == Pval (refineStep d P) i) with
    | some j => exact ⟨j, rfl⟩
    | none =>
      exfalso
      have := List.find?_eq_none.mp hf i (by simpa using hi)
      simp at this
  obtain ⟨j, hj⟩ := hfind
  rw [hj]
  have hjmem := List.find?_some hj
  have hjin : j < d.states.length := by
    have := List.mem_range.mp (List.mem_of_find?_eq_some hj)
    exact this
  rw [Option.getD_some]
  apply refineStep_refines hjin hi
  simpa using hjmem

theorem card_classImage_mono (d : DFA) (P : List Nat) :
    (classImage d P).card ≤ (classImage d (refineStep d P)).card := by
  apply Finset.card_le_card_of_surjOn (classBack d P)
  intro v hv
  have hv' : v ∈ classImage d P := hv
  rw [mem_classImage] at hv'
  obtain ⟨i, hi, rfl⟩ := hv'
  have hmem : Pval (refineStep d P) i ∈ classImage d (refineStep d P) :=
    mem_classImage.mpr ⟨i, hi, rfl⟩
  exact ⟨Pval (refineStep d P) i, hmem, classBack_spec hi⟩

/-- A pass that changes a downward-closed partition strictly increases the
number of classes. -/
theorem card_classImage_strict {d : DFA} {P : List Nat}
    (hlen : P.length = d.states.length)
    (hcontig : ∀ i, i < d.states.length → ∀ w, w < Pval P i →
      ∃ j, j < d.states.length ∧ Pval P j = w)
    (hne : refineStep d P ≠ P) :
    (classImage d P).card < (classImage d (refineStep d P)).card := by
  by_contra hle
  push_neg at hle
  have hinj := Finset.inj_on_of_surj_on_of_card_le
    (s := classImage d (refineStep d P)) (t := classImage d P)
    (fun v' _ => classBack d P v')
    (fun v' hv' => by
      rw [mem_classImage] at hv'
      obtain ⟨i, hi, rfl⟩ := hv'
      show classBack d P (Pval (refineStep d P) i) ∈ classImage d P
      rw [classBack_spec hi, mem_classImage]
      exact ⟨i, hi, rfl⟩)
    (fun v hv => by
      rw [mem_classImage] at hv
      obtain ⟨i, hi, rfl⟩ := hv
      exact ⟨Pval (refineStep d P) i, mem_classImage.mpr ⟨i, hi, rfl⟩, classBack_spec hi⟩)
    hle
  apply hne
  apply refineStep_of_nosplit hlen ?_ hcontig
  intro i j hi hj hPij
  apply (refineStep_eq_iff hi hj).mp
  apply hinj (mem_classImage.mpr ⟨i, hi, rfl⟩) (mem_classImage.mpr ⟨j, hj, rfl⟩)
  rw [classBack_spec hi, classBack_spec hj, hPij]

theorem contig_refineStep (d : DFA) (P : List Nat) :
    ∀ i, i < d.states.length → ∀ w, w < Pval (refineStep d P) i →
      ∃ j, j < d.states.length ∧ Pval (refineStep d P) j = w := by
  intro i hi w hw
  have := refineStep_lt (P := P) hi
  exact refineStep_surj (by omega)

/-- The refinement loop reaches its fixpoint within `|states|` passes. -/
theorem refineStep_iterate_fix (d : DFA) :
    refineStep d ((refineStep d)^[d.states.length] (initPartition d)) =
      (refineStep d)^[d.states.length] (initPartition d) := by
  rcases Nat.eq_zero_or_pos d.states.length with hn | hn
  · have hstates : d.states = [] := List.eq_nil_of_length_eq_zero hn
    have hrs : ∀ P, refineStep d P = [] := by
      intro P
      unfold refineStep
      rw [hn]
      rfl
    have h0 : (refineStep d)^[d.states.length] (initPartition d) = initPartition d := by
      rw [hn]
      rfl
    rw [h0, hrs, initPartition, hstates]
    rfl
  · set n := d.states.length with hns
    set P0 := initPartition d with hP0
    by_contra hne
    have hstab : ∀ k m, refineStep d ((refineStep d)^[k] P0) = (refineStep d)^[k] P0 →
        k ≤ m → (refineStep d)^[m] P0 = (refineStep d)^[k] P0 := by
      intro k m hfix hkm
      obtain ⟨j, rfl⟩ : ∃ j, m = j + k := ⟨m - k, by omega⟩
      rw [Function.iterate_add_apply]
      exact Function.iterate_fixed hfix j
    have hall : ∀ k, k ≤ n - 1 →
        refineStep d ((refineStep d)^[k + 1] P0) ≠ (refineStep d)^[k + 1] P0 := by
      intro k hk hfix
      apply hne
      have := hstab (k + 1) n hfix (by omega)
      rw [this]
      exact hfix
    have hlenit : ∀ k, ((refineStep d)^[k + 1] P0).length = n := by
      intro k
      rw [Function.iterate_succ_apply']
      exact length_refineStep d _
    have hcontigit : ∀ k, ∀ i, i < n → ∀ w, w < Pval ((refineStep d)^[k + 1] P0) i →
        ∃ j, j < n ∧ Pval ((refineStep d)^[k + 1] P0) j = w := by
      intro k
      rw [Function.iterate_succ_apply']
      exact contig_refineStep d _
    have hgrow : ∀ k, k ≤ n - 1 →
        k + 1 ≤ (classImage d ((refineStep d)^[k + 1] P0)).card := by
      intro k
      induction k with
      | zero =>
        intro hk
        have h0 : 0 ∈ classImage d ((refineStep d)^[0 + 1] P0) ∨
            (classImage d ((refineStep d)^[0 + 1] P0)).Nonempty := by
          right
          exact ⟨Pval ((refineStep d)^[0 + 1] P0) 0, mem_classImage.mpr ⟨0, hn, rfl⟩⟩
        rcases h0 with h | h
        · exact Finset.card_pos.mpr ⟨0, h⟩
        · exact Finset.card_pos.mpr h
      | succ k ih =>
        intro hk
        have hk' : k ≤ n - 1 := by omega
        have hprev := ih hk'
        have hstrict := card_classImage_strict (hlenit k) (hcontigit k) (hall k hk')
        have hit : refineStep d ((refineStep d)^[k + 1] P0) =
            (refineStep d)^[k + 1 + 1] P0 := (Function.iterate_succ_apply' _ _ _).symm
        rw [hit] at hstrict
        omega
    have hfinal := hgrow (n - 1) (le_refl _)
    have hcap := card_classImage_le d ((refineStep d)^[(n - 1) + 1] P0)
    have hlast := hall (n - 1) (le_refl _)
    have hstrict := card_classImage_strict (hlenit (n - 1)) (hcontigit (n - 1)) hlast
    have hit : refineStep d ((refineStep d)^[(n - 1) + 1] P0) =
        (refineStep d)^[(n - 1) + 1 + 1] P0 := (Function.iterate_succ_apply' _ _ _).symm
    rw [hit] at hstrict
    have hcap2 := card_classImage_le d ((refineStep d)^[(n - 1) + 1 + 1] P0)
    omega

/-- The fuel-indexed loop stops at a fixpoint that is an iterate of the
pass function. -/
theorem minimizeLoop_spec (d : DFA) : ∀ (f : Nat) (P : List Nat),
    (∃ m, m ≤ f ∧ refineStep d ((refineStep d)^[m] P) = (refineStep d)^[m] P) →
    ∃ k, minimizeLoop d f P = (refineStep d)^[k] P ∧
      refineStep d (minimizeLoop d f P) = minimizeLoop d f P := by
  intro f
  induction f with
  | zero =>
    intro P ⟨m, hm, hfix⟩
    have hm0 : m = 0 := Nat.le_zero.mp hm
    subst hm0
    exact ⟨0, rfl, hfix⟩
  | succ f ih =>
    intro P ⟨m, hm, hfix⟩
    unfold minimizeLoop
    by_cases hP : refineStep d P = P
    · rw [if_pos hP]
      exact ⟨0, rfl, hP⟩
    · rw [if_neg hP]
      have hm1 : 1 ≤ m := by
        rcases Nat.eq_zero_or_pos m with rfl | h
        · exact absurd hfix hP
        · exact h
      obtain ⟨k, hk1, hk2⟩ := ih (refineStep d P)
        ⟨m - 1, by omega, by
          rw [← Function.iterate_succ_apply]
          have h' : (m - 1).succ = m := by omega
          rw [h']
          exact hfix⟩
      exact ⟨k + 1, by rw [hk1, Function.iterate_succ_apply], hk2⟩

theorem finalPartition_spec (d : DFA) :
    (∃ k, finalPartition d = (refineStep d)^[k] (initPartition d)) ∧
      refineStep d (finalPartition d) = finalPartition d := by
  obtain ⟨k, h1, h2⟩ := minimizeLoop_spec d (d.states.length + 2) (initPartition d)
    ⟨d.states.length, by omega, refineStep_iterate_fix d⟩
  exact ⟨⟨k, h1⟩, h2⟩

/-- Run a DFA from state `i` on word `w`: `none` transitions (the `-1`
sentinel) reject, acceptance is the final state's flag. -/
def dfaAcceptFrom (d : DFA) : Nat → List Bool → Bool
  | i, [] => (d.states.getD i default).accept
  | i, b :: w =>
      match dTrans (d.states.getD i default) b with
      | some j => dfaAcceptFrom d j w
      | none => false

theorem dvalid_len {d : DFA} (h : dvalid d = true) : 1 ≤ d.states.length := by
  unfold dvalid at h
  simp only [Bool.and_eq_true, decide_eq_true_eq] at h
  exact h.1.1.1

theorem dvalid_start {d : DFA} (h : dvalid d = true) : d.start < d.states.length := by
  unfold dvalid at h
  simp only [Bool.and_eq_true, decide_eq_true_eq] at h
  exact h.1.1.2

theorem dvalid_trap {d : DFA} (h : dvalid d = true) :
    ∃ t, d.trap = some t ∧ t < d.states.length := by
  unfold dvalid at h
  simp only [Bool.and_eq_true, decide_eq_true_eq] at h
  have := h.1.2
  cases ht : d.trap with
  | none => rw [ht] at this; cases this
  | some t =>
    rw [ht] at this
    simp at this
    exact ⟨t, rfl, this⟩

theorem dvalid_trans {d : DFA} (h : dvalid d = true) {i : Nat}
    (hi : i < d.states.length) :
    (∃ j, (d.states.getD i default).t0 = some j ∧ j < d.states.length) ∧
    (∃ j, (d.states.getD i default).t1 = some j ∧ j < d.states.length) := by
  unfold dvalid at h
  simp only [Bool.and_eq_true] at h
  have hall := h.2
  rw [List.all_eq_true] at hall
  have hmem : d.states.getD i default ∈ d.states := by
    rw [List.getD_eq_getElem?_getD, List.getElem?_eq_getElem hi]
    exact List.getElem_mem hi
  have := hall _ hmem
  simp only [Bool.and_eq_true] at this
  constructor
  · have h0 := this.1
    cases ht : (d.states.getD i default).t0 with
    | none => rw [ht] at h0; cases h0
    | some j =>
      rw [ht] at h0
      simp at h0
      exact ⟨j, rfl, h0⟩
  · have h1 := this.2
    cases ht : (d.states.getD i default).t1 with
    | none => rw [ht] at h1; cases h1
    | some j =>
      rw [ht] at h1
      simp at h1
      exact ⟨j, rfl, h1⟩

theorem length_iterate_refineStep (d : DFA) (k : Nat) :
    ((refineStep d)^[k] (initPartition d)).length = d.states.length := by
  cases k with
  | zero => exact length_initPartition d
  | succ k =>
    rw [Function.iterate_succ_apply']
    exact length_refineStep d _

theorem length_finalPartition (d : DFA) :
    (finalPartition d).length = d.states.length := by
  obtain ⟨⟨k, hk⟩, -⟩ := finalPartition_spec d
  rw [hk]
  exact length_iterate_refineStep d k

theorem initPartition_val {d : DFA} {i : Nat} (hi : i < d.states.length) :
    Pval (initPartition d) i = if (d.states.getD i default).accept then 1 else 0 := by
  unfold Pval initPartition
  rw [getD_map d.states _ hi default]

theorem iterate_refines {d : DFA} (k : Nat) {i j : Nat}
    (hi : i < d.states.length) (hj : j < d.states.length)
    (h : Pval ((refineStep d)^[k] (initPartition d)) i =
      Pval ((refineStep d)^[k] (initPartition d)) j) :
    Pval (initPartition d) i = Pval (initPartition d) j := by
  induction k with
  | zero => exact h
  | succ k ih =>
    rw [Function.iterate_succ_apply'] at h
    exact ih (refineStep_refines hi hj h)

/-- States in the same final class agree on acceptance. -/
theorem finalPartition_acc {d : DFA} {i j : Nat}
    (hi : i < d.states.length) (hj : j < d.states.length)
    (h : Pval (finalPartition d) i = Pval (finalPartition d) j) :
    (d.states.getD i default).accept = (d.states.getD j default).accept := by
  obtain ⟨⟨k, hk⟩, -⟩ := finalPartition_spec d
  rw [hk] at h
  have := iterate_refines k hi hj h
  rw [initPartition_val hi, initPartition_val hj] at this
  by_cases ha : (d.states.getD i default).accept <;>
    by_cases hb : (d.states.getD j default).accept <;>
    simp only [List.getD_eq_getElem?_getD] at ha hb ⊢ <;>
    simp [ha, hb] at this ⊢

/-- States in the same final class have successors in the same final class. -/
theorem finalPartition_forward {d : DFA} {i j : Nat}
    (hi : i < d.states.length) (hj : j < d.states.length)
    (h : Pval (finalPartition d) i = Pval (finalPartition d) j) :
    keyOf d (finalPartition d) i = keyOf d (finalPartition d) j := by
  obtain ⟨-, hfix⟩ := finalPartition_spec d
  apply (refineStep_eq_iff hi hj).mp
  rw [hfix]
  exact h

/-- Moore soundness: states in the same final class accept the same words. -/
theorem finalPartition_sound {d : DFA} (hv : dvalid d = true) :
    ∀ (w : List Bool) {i j : Nat}, i < d.states.length → j < d.states.length →
      Pval (finalPartition d) i = Pval (finalPartition d) j →
      dfaAcceptFrom d i w = dfaAcceptFrom d j w := by
  intro w
  induction w with
  | nil =>
    intro i j hi hj h
    unfold dfaAcceptFrom
    exact finalPartition_acc hi hj h
  | cons b w ih =>
    intro i j hi hj h
    have hkey := finalPartition_forward hi hj h
    obtain ⟨⟨a0, ht0i, ha0⟩, ⟨a1, ht1i, ha1⟩⟩ := dvalid_trans hv hi
    obtain ⟨⟨b0, ht0j, hb0⟩, ⟨b1, ht1j, hb1⟩⟩ := dvalid_trans hv hj
    unfold dfaAcceptFrom
    cases b
    · unfold dTrans
      simp only [if_neg, Bool.false_eq_true, not_false_iff]
      rw [ht0i, ht0j]
      apply ih ha0 hb0
      have h2 := congrArg (fun k => k.2.1) hkey
      unfold keyOf at h2
      simp only at h2
      rwa [ht0i, ht0j] at h2
    · unfold dTrans
      simp only [if_pos]
      rw [ht1i, ht1j]
      apply ih ha1 hb1
      have h2 := congrArg (fun k => k.2.2) hkey
      unfold keyOf at h2
      simp only at h2
      rwa [ht1i, ht1j] at h2

/-- Moore completeness: states in different final classes are
distinguished by some word. -/
theorem finalPartition_complete {d : DFA} (hv : dvalid d = true) :
    ∀ {i j : Nat}, i < d.states.length → j < d.states.length →
      Pval (finalPartition d) i ≠ Pval (finalPartition d) j →
      ∃ w, dfaAcceptFrom d i w ≠ dfaAcceptFrom d j w := by
  have hstep : ∀ (k : Nat) {i j : Nat}, i < d.states.length → j < d.states.length →
      Pval ((refineStep d)^[k] (initPartition d)) i ≠
        Pval ((refineStep d)^[k] (initPartition d)) j →
      ∃ w, dfaAcceptFrom d i w ≠ dfaAcceptFrom d j w := by
    intro k
    induction k with
    | zero =>
      intro i j hi hj h
      refine ⟨[], ?_⟩
      unfold dfaAcceptFrom
      intro hacc
      apply h
      simp only [Function.iterate_zero_apply]
      rw [initPartition_val hi, initPartition_val hj, hacc]
    | succ k ih =>
      intro i j hi hj h
      rw [Function.iterate_succ_apply'] at h
      have hkey : keyOf d ((refineStep d)^[k] (initPartition d)) i ≠
          keyOf d ((refineStep d)^[k] (initPartition d)) j :=
        fun hk => h ((refineStep_eq_iff hi hj).mpr hk)
      obtain ⟨⟨a0, ht0i, ha0⟩, ⟨a1, ht1i, ha1⟩⟩ := dvalid_trans hv hi
      obtain ⟨⟨b0, ht0j, hb0⟩, ⟨b1, ht1j, hb1⟩⟩ := dvalid_trans hv hj
      by_cases h1 : Pval ((refineStep d)^[k] (initPartition d)) i =
          Pval ((refineStep d)^[k] (initPartition d)) j
      · by_cases h2 : Pval ((refineStep d)^[k] (initPartition d)) a0 =
            Pval ((refineStep d)^[k] (initPartition d)) b0
        · have h3 : Pval ((refineStep d)^[k] (initPartition d)) a1 ≠
              Pval ((refineStep d)^[k] (initPartition d)) b1 := by
            intro h3
            apply hkey
            unfold keyOf
            rw [ht0i, ht0j, ht1i, ht1j]
            simp only [Option.getD_some]
            rw [h1, h2, h3]
          obtain ⟨w, hw⟩ := ih ha1 hb1 h3
          refine ⟨true :: w, ?_⟩
          unfold dfaAcceptFrom dTrans
          simp only [if_pos]
          rw [ht1i, ht1j]
          exact hw
        · obtain ⟨w, hw⟩ := ih ha0 hb0 h2
          refine ⟨false :: w, ?_⟩
          unfold dfaAcceptFrom dTrans
          simp only [if_neg, Bool.false_eq_true, not_false_iff]
          rw [ht0i, ht0j]
          exact hw
      · exact ih hi hj h1
  intro i j hi hj h
  obtain ⟨⟨k, hk⟩, -⟩ := finalPartition_spec d
  rw [hk] at h
  exact hstep k hi hj h

theorem finalPartition_lt {d : DFA} {i : Nat} (hi : i < d.states.length) :
    Pval (finalPartition d) i < (sortedKeys d (finalPartition d)).length := by
  obtain ⟨-, hfix⟩ := finalPartition_spec d
  conv_lhs => rw [← hfix]
  exact refineStep_lt hi

theorem finalPartition_surj {d : DFA} {m : Nat}
    (hm : m < (sortedKeys d (finalPartition d)).length) :
    ∃ i, i < d.states.length ∧ Pval (finalPartition d) i = m := by
  obtain ⟨-, hfix⟩ := finalPartition_spec d
  obtain ⟨i, hi, hv⟩ := refineStep_surj hm
  refine ⟨i, hi, ?_⟩
  rw [← hfix]
  exact hv

theorem sortedKeys_pos {d : DFA} (hn : 1 ≤ d.states.length) :
    1 ≤ (sortedKeys d (finalPartition d)).length := by
  have := keyOf_mem_sortedKeys (P := finalPartition d) (i := 0) hn
  exact List.length_pos.mpr (fun h => by rw [h] at this; cases this)

theorem le_foldl_max : ∀ (l : List Nat) (a : Nat), a ≤ l.foldl max a := by
  intro l
  induction l with
  | nil => intro a; exact Nat.le_refl a
  | cons x l ih =>
    intro a
    exact Nat.le_trans (Nat.le_max_left a x) (ih (max a x))

theorem mem_le_foldl_max : ∀ (l : List Nat) (a x : Nat), x ∈ l → x ≤ l.foldl max a := by
  intro l
  induction l with
  | nil => intro a x hx; cases hx
  | cons y l ih =>
    intro a x hx
    rcases List.mem_cons.mp hx with h | h
    · subst h
      exact Nat.le_trans (Nat.le_max_right a x) (le_foldl_max l (max a x))
    · exact ih (max a y) x h

theorem foldl_max_cases : ∀ (l : List Nat) (a : Nat), l.foldl max a = a ∨ l.foldl max a ∈ l := by
  intro l
  induction l with
  | nil => intro a; exact Or.inl rfl
  | cons x l ih =>
    intro a
    rcases ih (max a x) with h | h
    · rcases Nat.le_total a x with hle | hle
      · right
        rw [List.foldl_cons, h, Nat.max_eq_right hle]
        exact List.mem_cons_self x l
      · left
        rw [List.foldl_cons, h, Nat.max_eq_left hle]
    · right
      exact List.mem_cons_of_mem x h

theorem Pval_getElem {P : List Nat} {i : Nat} (hi : i < P.length) :
    Pval P i = P[i] := by
  unfold Pval
  rw [List.getD_eq_getElem?_getD, List.getElem?_eq_getElem hi]
  rfl

/-- `new_num + 1` (the class count used by `minimize`) equals the number of
distinct keys at the fixpoint. -/
theorem count_eq {d : DFA} (hn : 1 ≤ d.states.length) :
    (finalPartition d).foldl max 0 + 1 = (sortedKeys d (finalPartition d)).length := by
  have hK1 := sortedKeys_pos hn
  have hlen := length_finalPartition d
  have hlt : (finalPartition d).foldl max 0 < (sortedKeys d (finalPartition d)).length := by
    rcases foldl_max_cases (finalPartition d) 0 with h0 | hmem
    · omega
    · obtain ⟨i, hi, hPi⟩ := List.mem_iff_getElem.mp hmem
      have hi' : i < d.states.length := by omega
      have := finalPartition_lt hi'
      rw [Pval_getElem (by omega), hPi] at this
      exact this
  have hge : (sortedKeys d (finalPartition d)).length ≤
      (finalPartition d).foldl max 0 + 1 := by
    obtain ⟨i, hi, hPi⟩ :=
      finalPartition_surj (d := d)
        (m := (sortedKeys d (finalPartition d)).length - 1) (by omega)
    have hmem : Pval (finalPartition d) i ∈ finalPartition d := by
      rw [Pval_getElem (by omega)]
      exact List.getElem_mem (by omega)
    have := mem_le_foldl_max (finalPartition d) 0 _ hmem
    omega
  omega

/-- The class representative `minimize` wires through: the first state of
the class (`find(partition.begin(), ...)`). -/
def repOf (d : DFA) (c : Nat) : Nat :=
  ((List.range d.states.length).find? (fun i => Pval (finalPartition d) i == c)).getD 0

theorem repOf_spec {d : DFA} {c : Nat}
    (hex : ∃ i, i < d.states.length ∧ Pval (finalPartition d) i = c) :
    repOf d c < d.states.length ∧ Pval (finalPartition d) (repOf d c) = c := by
  obtain ⟨i, hi, hc⟩ := hex
  have hsome : ((List.range d.states.length).find?
      (fun j => Pval (finalPartition d) j == c)).isSome := by
    rw [List.find?_isSome]
    exact ⟨i, List.mem_range.mpr hi, by simp [hc]⟩
  obtain ⟨r, hr⟩ := Option.isSome_iff_exists.mp hsome
  have hmem := List.mem_of_find?_eq_some hr
  have hp := List.find?_some hr
  unfold repOf
  rw [hr]
  simp only [Option.getD_some]
  refine ⟨List.mem_range.mp hmem, ?_⟩
  exact beq_iff_eq.mp hp

theorem length_minimize (d : DFA) :
    (minimize d).states.length = (finalPartition d).foldl max 0 + 1 := by
  simp only [minimize]
  rw [List.length_map, List.length_range]

theorem minimize_state {d : DFA} {c : Nat}
    (hc : c < (finalPartition d).foldl max 0 + 1) :
    (minimize d).states.getD c default =
      { accept := decide (∃ i, i < d.states.length ∧ Pval (finalPartition d) i = c ∧
          (d.states.getD i default).accept = true),
        t0 := some (Pval (finalPartition d)
          ((d.states.getD (repOf d c) default).t0.getD 0)),
        t1 := some (Pval (finalPartition d)
          ((d.states.getD (repOf d c) default).t1.getD 0)) } := by
  simp only [minimize]
  rw [getD_map_range _ hc]
  rfl

theorem minimize_start (d : DFA) :
    (minimize d).start = Pval (finalPartition d) d.start := rfl

theorem minimize_trap (d : DFA) :
    (minimize d).trap = some (Pval (finalPartition d) (d.trap.getD 0)) := rfl

theorem finalPartition_class_lt {d : DFA} (hv : dvalid d = true) {i : Nat}
    (hi : i < d.states.length) :
    Pval (finalPartition d) i < (finalPartition d).foldl max 0 + 1 := by
  rw [count_eq (dvalid_len hv)]
  exact finalPartition_lt hi

/-- `minimize` preserves each state's language: class `partition[i]` of the
minimized DFA accepts exactly the words state `i` accepts. -/
theorem minimize_acceptFrom {d : DFA} (hv : dvalid d = true) :
    ∀ (w : List Bool) {i : Nat}, i < d.states.length →
      dfaAcceptFrom (minimize d) (Pval (finalPartition d) i) w = dfaAcceptFrom d i w := by
  intro w
  induction w with
  | nil =>
    intro i hi
    unfold dfaAcceptFrom
    rw [minimize_state (finalPartition_class_lt hv hi)]
    simp only
    by_cases ha : (d.states.getD i default).accept = true
    · rw [ha]
      simp only [decide_eq_true_eq]
      exact ⟨i, hi, rfl, ha⟩
    · rw [Bool.not_eq_true] at ha
      rw [ha]
      simp only [decide_eq_false_iff_not]
      rintro ⟨j, hj, hcl, hacc⟩
      have := finalPartition_acc hj hi hcl
      rw [hacc, ha] at this
      cases this
  | cons b w ih =>
    intro i hi
    have hr := repOf_spec (d := d) (c := Pval (finalPartition d) i) ⟨i, hi, rfl⟩
    have hkey := finalPartition_forward hr.1 hi hr.2
    obtain ⟨⟨a0, ht0i, ha0⟩, ⟨a1, ht1i, ha1⟩⟩ := dvalid_trans hv hi
    obtain ⟨⟨r0, ht0r, hr0⟩, ⟨r1, ht1r, hr1⟩⟩ := dvalid_trans hv hr.1
    have hk0 : Pval (finalPartition d) r0 = Pval (finalPartition d) a0 := by
      have h2 := congrArg (fun k => k.2.1) hkey
      unfold keyOf at h2
      simp only at h2
      rwa [ht0r, ht0i] at h2
    have hk1 : Pval (finalPartition d) r1 = Pval (finalPartition d) a1 := by
      have h2 := congrArg (fun k => k.2.2) hkey
      unfold keyOf at h2
      simp only at h2
      rwa [ht1r, ht1i] at h2
    unfold dfaAcceptFrom
    rw [minimize_state (finalPartition_class_lt hv hi)]
    cases b
    · unfold dTrans
      simp only [if_neg, Bool.false_eq_true, not_false_iff]
      rw [ht0i, ht0r]
      simp only [Option.getD_some]
      rw [hk0]
      exact ih ha0
    · unfold dTrans
      simp only [if_pos]
      rw [ht1i, ht1r]
      simp only [Option.getD_some]
      rw [hk1]
      exact ih ha1

theorem dvalid_minimize {d : DFA} (hv : dvalid d = true) : dvalid (minimize d) = true := by
  have hn := dvalid_len hv
  have hcnt := count_eq hn
  unfold dvalid
  simp only [Bool.and_eq_true]
  refine ⟨⟨⟨?_, ?_⟩, ?_⟩, ?_⟩
  · simp only [decide_eq_true_eq, length_minimize]
    omega
  · simp only [decide_eq_true_eq, length_minimize, minimize_start]
    exact finalPartition_class_lt hv (dvalid_start hv)
  · rw [minimize_trap]
    obtain ⟨t, ht, htlt⟩ := dvalid_trap hv
    rw [ht]
    simp only [Option.getD_some, decide_eq_true_eq, length_minimize]
    exact finalPartition_class_lt hv htlt
  · rw [List.all_eq_true]
    intro st hst
    simp only [minimize] at hst
    obtain ⟨c, hc, hcst⟩ := List.mem_map.mp hst
    have hclt : c < (finalPartition d).foldl max 0 + 1 := by
      have := List.mem_range.mp hc
      omega
    have hex : ∃ i, i < d.states.length ∧ Pval (finalPartition d) i = c :=
      finalPartition_surj (by omega)
    have hrep := repOf_spec hex
    obtain ⟨⟨r0, ht0r, hr0⟩, ⟨r1, ht1r, hr1⟩⟩ := dvalid_trans hv hrep.1
    subst hcst
    simp only
    have hfold : (List.find? (fun i => Pval (finalPartition d) i == c)
        (List.range d.states.length)).getD 0 = repOf d c := rfl
    rw [hfold, ht0r, ht1r]
    simp only [Option.getD_some, Bool.and_eq_true, decide_eq_true_eq, length_minimize]
    exact ⟨finalPartition_class_lt hv hr0, finalPartition_class_lt hv hr1⟩

/-- Distinct states of the minimized DFA have distinct languages. -/
theorem minimize_distinct {d : DFA} (hv : dvalid d = true) {c1 c2 : Nat}
    (h1 : c1 < (minimize d).states.length) (h2 : c2 < (minimize d).states.length)
    (hne : c1 ≠ c2) :
    ∃ w, dfaAcceptFrom (minimize d) c1 w ≠ dfaAcceptFrom (minimize d) c2 w := by
  rw [length_minimize, count_eq (dvalid_len hv)] at h1 h2
  obtain ⟨i1, hi1, hP1⟩ := finalPartition_surj h1
  obtain ⟨i2, hi2, hP2⟩ := finalPartition_surj h2
  have hnecl : Pval (finalPartition d) i1 ≠ Pval (finalPartition d) i2 := by
    rw [hP1, hP2]; exact hne
  obtain ⟨w, hw⟩ := finalPartition_complete hv hi1 hi2 hnecl
  refine ⟨w, ?_⟩
  rw [← hP1, ← hP2, minimize_acceptFrom hv w hi1, minimize_acceptFrom hv w hi2]
  exact hw

/-- Converse of the fixpoint property: agreeing on acceptance and on both
successor classes forces equal classes. -/
theorem finalPartition_back {d : DFA} (hv : dvalid d = true) {i j : Nat}
    (hi : i < d.states.length) (hj : j < d.states.length)
    (hacc : (d.states.getD i default).accept = (d.states.getD j default).accept)
    (h0 : Pval (finalPartition d) ((d.states.getD i default).t0.getD 0) =
      Pval (finalPartition d) ((d.states.getD j default).t0.getD 0))
    (h1 : Pval (finalPartition d) ((d.states.getD i default).t1.getD 0) =
      Pval (finalPartition d) ((d.states.getD j default).t1.getD 0)) :
    Pval (finalPartition d) i = Pval (finalPartition d) j := by
  by_contra hne
  obtain ⟨w, hw⟩ := finalPartition_complete hv hi hj hne
  apply hw
  obtain ⟨⟨a0, ht0i, ha0⟩, ⟨a1, ht1i, ha1⟩⟩ := dvalid_trans hv hi
  obtain ⟨⟨b0, ht0j, hb0⟩, ⟨b1, ht1j, hb1⟩⟩ := dvalid_trans hv hj
  cases w with
  | nil =>
    unfold dfaAcceptFrom
    exact hacc
  | cons b w' =>
    unfold dfaAcceptFrom
    cases b
    · unfold dTrans
      simp only [if_neg, Bool.false_eq_true, not_false_iff]
      rw [ht0i, ht0j]
      apply finalPartition_sound hv w' ha0 hb0
      rw [ht0i, ht0j] at h0
      simpa using h0
    · unfold dTrans
      simp only [if_pos]
      rw [ht1i, ht1j]
      apply finalPartition_sound hv w' ha1 hb1
      rw [ht1i, ht1j] at h1
      simpa using h1

/-- The subset-construction trap rejects every word. -/
theorem convert_trap_rejects {n : NFA} {d : DFA} {sets : List (Finset Nat)}
    (hc : ConvertChar n d sets) :
    ∀ (w : List Bool) (k : Nat), d.trap = some k → dfaAcceptFrom d k w = false := by
  intro w
  induction w with
  | nil =>
    intro k htr
    obtain ⟨tp, htp, htplt, htpset⟩ := hc.trapSpec
    rw [htr] at htp
    have hk : k = tp := Option.some.inj htp
    subst hk
    obtain ⟨st, hst, hstacc, -⟩ := hc.stSpec k ∅ htpset
    unfold dfaAcceptFrom
    rw [List.getD_eq_getElem?_getD, hst]
    simp only [Option.getD_some]
    rw [hstacc]
    exact accOf_empty n
  | cons b w' ih =>
    intro k htr
    obtain ⟨tp, htp, htplt, htpset⟩ := hc.trapSpec
    rw [htr] at htp
    have hk : k = tp := Option.some.inj htp
    subst hk
    obtain ⟨st, hst, -, hsttr⟩ := hc.stSpec k ∅ htpset
    obtain ⟨j, hj, hjlt, hcase⟩ := hsttr b
    unfold dfaAcceptFrom
    rw [List.getD_eq_getElem?_getD, hst]
    simp only [Option.getD_some]
    simp only [hj]
    rcases hcase with ⟨-, htrj⟩ | hsetj
    · exact ih j htrj
    · rw [moveSet_empty] at hsetj
      have := (hc.emptyIff j ∅ hsetj).mp rfl
      exact ih j this

/-- Per-subset language correctness of the subset construction: state `k`
(representing subset `S`) accepts exactly the words accepted from some
member of `S`, for a silent-free valid NFA. -/
theorem convert_accept_aux {n : NFA} {d : DFA} {sets : List (Finset Nat)}
    (hc : ConvertChar n d sets)
    (hne : ∀ i q, ¬ edge n.states i .eps q) :
    ∀ (w : List Bool) (k : Nat) (S : Finset Nat), sets[k]? = some S →
      (dfaAcceptFrom d k w = true ↔ ∃ s ∈ S, AccFrom n.states s w) := by
  intro w
  induction w with
  | nil =>
    intro k S hk
    obtain ⟨st, hst, hstacc, -⟩ := hc.stSpec k S hk
    unfold dfaAcceptFrom
    rw [List.getD_eq_getElem?_getD, hst]
    simp only [Option.getD_some]
    rw [hstacc, accOf_iff]
    unfold AccFrom
    constructor
    · rintro ⟨s, hs, hacc⟩
      exact ⟨s, hs, s, path_refl _, hacc⟩
    · rintro ⟨s, hs, t, hpath, hacc⟩
      have hts := path_noEps_nil hne hpath
      rw [hts] at hacc
      exact ⟨s, hs, hacc⟩
  | cons b w' ih =>
    intro k S hk
    obtain ⟨st, hst, -, hsttr⟩ := hc.stSpec k S hk
    obtain ⟨j, hj, hjlt, hcase⟩ := hsttr b
    unfold dfaAcceptFrom
    rw [List.getD_eq_getElem?_getD, hst]
    simp only [Option.getD_some]
    simp only [hj]
    rcases hcase with ⟨hmv, htrj⟩ | hsetj
    · rw [convert_trap_rejects hc w' j htrj]
      unfold AccFrom
      simp only [Bool.false_eq_true, false_iff]
      rintro ⟨s, hs, t, hpath, -⟩
      obtain ⟨q, hed, -⟩ := (path_noEps_cons hne).mp hpath
      have : q ∈ moveSet n S b := mem_moveSet.mpr ⟨s, hs, hed⟩
      rw [hmv] at this
      cases this
    · rw [ih j (moveSet n S b) hsetj]
      unfold AccFrom
      constructor
      · rintro ⟨q, hq, t, hpath, hteq⟩
        obtain ⟨s, hs, hed⟩ := mem_moveSet.mp hq
        exact ⟨s, hs, t, path_sym_cons hed hpath, hteq⟩
      · rintro ⟨s, hs, t, hpath, hteq⟩
        obtain ⟨q, hed, hrest⟩ := (path_noEps_cons hne).mp hpath
        exact ⟨q, mem_moveSet.mpr ⟨s, hs, hed⟩, ⟨t, hrest, hteq⟩⟩

theorem length_setAccept (sts : List NSt) (i : Nat) :
    (setAccept sts i).length = sts.length := by
  unfold setAccept
  cases h : sts[i]? with
  | none => rfl
  | some st => exact List.length_set sts i _

theorem validN_of_edges {sts : List NSt}
    (h : ∀ p c q, edge sts p c q → q < sts.length) : ValidN sts = true := by
  unfold ValidN
  rw [List.all_eq_true]
  intro st hst
  rw [List.all_eq_true]
  intro e he
  obtain ⟨p, hp, hpe⟩ := List.mem_iff_getElem.mp hst
  have hedge : edge sts p e.1 e.2 := by
    unfold edge edgesAt
    rw [List.getElem?_eq_getElem hp, hpe]
    simpa using he
  simpa using h p e.1 e.2 hedge

theorem validN_thompson (r : Regex) : ValidN (thompson r).states = true := by
  rcases hb : buildFragment r [] with ⟨sts, f⟩
  have hok := buildFragment_ok r []
  rw [hb] at hok
  dsimp only at hok
  have hth : thompson r = ⟨setAccept sts f.accept, f.start⟩ := by
    unfold thompson
    rw [hb]
  rw [hth]
  apply validN_of_edges
  intro p c q he
  have he' : edge sts p c q := by
    unfold edge at he ⊢
    rwa [edgesAt_setAccept] at he
  have := hok.closed p c q (Nat.zero_le p) he'
  rw [length_setAccept]
  exact this.2

theorem thompson_start (r : Regex) :
    (thompson r).start < (thompson r).states.length := by
  rcases hb : buildFragment r [] with ⟨sts, f⟩
  have hok := buildFragment_ok r []
  rw [hb] at hok
  dsimp only at hok
  have hth : thompson r = ⟨setAccept sts f.accept, f.start⟩ := by
    unfold thompson
    rw [hb]
  rw [hth]
  dsimp only
  rw [length_setAccept]
  exact hok.sHi

theorem epsReach_bounded {sts : List NSt} (hv : ValidN sts = true)
    {p q : Nat} (hp : p < sts.length) (h : EpsReach sts p q) : q < sts.length := by
  induction h with
  | refl => exact hp
  | tail hmid hedge ih => exact validN_target hv hedge

theorem validN_removeEps (n : NFA) (hv : ValidN n.states = true) :
    ValidN (removeEps n).states = true := by
  apply validN_of_edges
  intro p c q he
  rw [length_removeEps]
  by_cases hp : p < n.states.length
  · cases c with
    | eps => exact absurd he (noEps_removeEps n p q)
    | sym b =>
      have hmem := (edge_removeEps_sym n hp b q).mp he
      obtain ⟨u, u', hpu, huu', hu'q⟩ := (mem_removeEpsTrans hv hp).mp hmem
      exact epsReach_bounded hv (validN_target hv huu') hu'q
  · unfold edge at he
    rw [edgesAt_oob] at he
    · cases he
    · rw [length_removeEps]
      omega

theorem removeEps_start (n : NFA) : (removeEps n).start = n.start := rfl

theorem dvalid_convert {n : NFA} {sets : List (Finset Nat)}
    (hc : ConvertChar n (convert n) sets) : dvalid (convert n) = true := by
  have hlen : 1 ≤ (convert n).states.length := by
    obtain ⟨tp, -, htplt, -⟩ := hc.trapSpec
    omega
  unfold dvalid
  simp only [Bool.and_eq_true]
  refine ⟨⟨⟨?_, ?_⟩, ?_⟩, ?_⟩
  · simpa using hlen
  · rw [hc.startIdx]
    simpa using hlen
  · obtain ⟨tp, htp, htplt, -⟩ := hc.trapSpec
    rw [htp]
    simpa using htplt
  · rw [List.all_eq_true]
    intro st hst
    obtain ⟨k, hk, hkeq⟩ := List.mem_iff_getElem.mp hst
    have hksets : k < sets.length := by rw [hc.len]; exact hk
    obtain ⟨S, hS⟩ : ∃ S, sets[k]? = some S :=
      ⟨sets[k], List.getElem?_eq_getElem hksets⟩
    obtain ⟨st', hst', -, htr⟩ := hc.stSpec k S hS
    rw [List.getElem?_eq_getElem hk, hkeq] at hst'
    have hstq : st = st' := Option.some.inj hst'
    subst hstq
    obtain ⟨j0, hj0, hj0lt, -⟩ := htr false
    obtain ⟨j1, hj1, hj1lt, -⟩ := htr true
    unfold dTrans at hj0 hj1
    simp only [if_neg, Bool.false_eq_true, not_false_iff, if_pos] at hj0 hj1
    rw [hj0, hj1]
    simp only [Bool.and_eq_true, decide_eq_true_eq]
    exact ⟨hj0lt, hj1lt⟩

/-- `TrapRemover::remove_trap`: rewrite transitions into the trap to the
`-1` sentinel, clear the trap state, clear the recorded trap index; no-op
when no trap is recorded. -/
def remove_trap (d : DFA) : DFA :=
  match d.trap with
  | none => d
  | some t =>
    let sts := d.states.map (fun st =>
      { accept := st.accept,
        t0 := if st.t0 = some t then none else st.t0,
        t1 := if st.t1 = some t then none else st.t1 })
    let sts2 := if t < sts.length then
        sts.set t { accept := false, t0 := none, t1 := none }
      else sts
    { states := sts2, start := d.start, trap := none }

/-- The trap eliminator as the specification words it, state by state: the
trap state is cleared entirely; every other state keeps its accept flag and
has exactly its trap-targeting transitions replaced by "no transition";
start is kept and the recorded trap index is cleared; no-op without a
recorded trap. -/
def removeTrapSpec (d : DFA) : DFA :=
  match d.trap with
  | none => d
  | some t =>
    { states := (List.range d.states.length).map (fun i =>
        if i = t then { accept := false, t0 := none, t1 := none }
        else
          { accept := (d.states.getD i default).accept,
            t0 := if (d.states.getD i default).t0 = some t then none
              else (d.states.getD i default).t0,
            t1 := if (d.states.getD i default).t1 = some t then none
              else (d.states.getD i default).t1 }),
      start := d.start,
      trap := none }

theorem remove_trap_eq_spec (d : DFA) : remove_trap d = removeTrapSpec d := by
  unfold remove_trap removeTrapSpec
  cases htr : d.trap with
  | none => rfl
  | some t =>
    simp only
    congr 1
    apply List.ext_getElem?
    intro i
    rw [List.getElem?_map]
    by_cases hi : i < d.states.length
    · rw [List.getElem?_range hi]
      simp only [Option.map_some']
      by_cases hit : i = t
      · subst hit
        rw [if_pos (by rw [List.length_map]; exact hi),
          List.getElem?_set_self (by rw [List.length_map]; exact hi)]
        simp
      · have hne : t ≠ i := fun h => hit h.symm
        by_cases htl : t < (d.states.map (fun st =>
            ({ accept := st.accept,
               t0 := if st.t0 = some t then none else st.t0,
               t1 := if st.t1 = some t then none else st.t1 } : DSt))).length
        · rw [if_pos htl, List.getElem?_set_ne hne, List.getElem?_map,
            List.getElem?_eq_getElem hi]
          simp only [Option.map_some', if_neg hit]
          rw [List.getD_eq_getElem?_getD, List.getElem?_eq_getElem hi]
          rfl
        · rw [if_neg htl, List.getElem?_map, List.getElem?_eq_getElem hi]
          simp only [Option.map_some', if_neg hit]
          rw [List.getD_eq_getElem?_getD, List.getElem?_eq_getElem hi]
          rfl
    · rw [List.getElem?_eq_none (l := List.range d.states.length)
        (by rw [List.length_range]; omega)]
      simp only [Option.map_none']
      by_cases htl : t < (d.states.map (fun st =>
          ({ accept := st.accept,
             t0 := if st.t0 = some t then none else st.t0,
             t1 := if st.t1 = some t then none else st.t1 } : DSt))).length
      · rw [if_pos htl]
        refine List.getElem?_eq_none ?_
        rw [List.length_set, List.length_map]
        omega
      · rw [if_neg htl]
        refine List.getElem?_eq_none ?_
        rw [List.length_map]
        omega

theorem remove_trap_none {d : DFA} (h : d.trap = none) : remove_trap d = d := by
  unfold remove_trap
  rw [h]

theorem length_remove_trap (d : DFA) :
    (remove_trap d).states.length = d.states.length := by
  unfold remove_trap
  cases htr : d.trap with
  | none => rfl
  | some t =>
    simp only
    by_cases htl : t < (d.states.map (fun st =>
        ({ accept := st.accept,
           t0 := if st.t0 = some t then none else st.t0,
           t1 := if st.t1 = some t then none else st.t1 } : DSt))).length
    · rw [if_pos htl, List.length_set, List.length_map]
    · rw [if_neg htl, List.length_map]

theorem start_remove_trap (d : DFA) : (remove_trap d).start = d.start := by
  unfold remove_trap
  cases htr : d.trap with
  | none => rfl
  | some t => rfl

theorem remove_trap_state {d : DFA} {t : Nat} (htr : d.trap = some t) {i : Nat}
    (hi : i < d.states.length) :
    (remove_trap d).states.getD i default =
      (if i = t then { accept := false, t0 := none, t1 := none }
       else
         { accept := (d.states.getD i default).accept,
           t0 := if (d.states.getD i default).t0 = some t then none
             else (d.states.getD i default).t0,
           t1 := if (d.states.getD i default).t1 = some t then none
             else (d.states.getD i default).t1 } : DSt) := by
  rw [remove_trap_eq_spec]
  unfold removeTrapSpec
  rw [htr]
  simp only
  rw [getD_map_range _ hi]

theorem remove_trap_state_oob {d : DFA} {i : Nat} (hi : ¬ i < d.states.length) :
    (remove_trap d).states.getD i default = default := by
  unfold Inhabited.default
  rw [List.getD_eq_getElem?_getD,
    List.getElem?_eq_none (by rw [length_remove_trap]; omega)]
  rfl

/-- When the recorded trap's language is empty, removing it preserves every
state's language. -/
theorem remove_trap_accept {d : DFA} {t : Nat} (htr : d.trap = some t)
    (hdead : ∀ w, dfaAcceptFrom d t w = false) :
    ∀ (w : List Bool) (i : Nat),
      dfaAcceptFrom (remove_trap d) i w = dfaAcceptFrom d i w := by
  intro w
  induction w with
  | nil =>
    intro i
    unfold dfaAcceptFrom
    by_cases hi : i < d.states.length
    · rw [remove_trap_state htr hi]
      by_cases hit : i = t
      · subst hit
        rw [if_pos rfl]
        have := hdead []
        unfold dfaAcceptFrom at this
        rw [this]
      · rw [if_neg hit]
    · rw [remove_trap_state_oob hi]
      rw [List.getD_eq_getElem?_getD (d.states),
        List.getElem?_eq_none (by omega)]
      rfl
  | cons b w' ih =>
    intro i
    unfold dfaAcceptFrom
    by_cases hi : i < d.states.length
    · rw [remove_trap_state htr hi]
      by_cases hit : i = t
      · subst hit
        rw [if_pos rfl]
        have hd := hdead (b :: w')
        unfold dfaAcceptFrom at hd
        rw [hd]
        unfold dTrans
        cases b <;> rfl
      · rw [if_neg hit]
        unfold dTrans
        cases b
        · simp only [if_neg, Bool.false_eq_true, not_false_iff]
          by_cases h0 : (d.states.getD i default).t0 = some t
          · rw [if_pos h0, h0]
            show false = dfaAcceptFrom d t w'
            exact (hdead w').symm
          · rw [if_neg h0]
            cases hcase : (d.states.getD i default).t0 with
            | none => rfl
            | some j => exact ih j
        · simp only [if_pos]
          by_cases h1 : (d.states.getD i default).t1 = some t
          · rw [if_pos h1, h1]
            show false = dfaAcceptFrom d t w'
            exact (hdead w').symm
          · rw [if_neg h1]
            cases hcase : (d.states.getD i default).t1 with
            | none => rfl
            | some j => exact ih j
    · rw [remove_trap_state_oob hi]
      rw [List.getD_eq_getElem?_getD (d.states),
        List.getElem?_eq_none (by omega)]
      unfold dTrans
      cases b <;> rfl

/-- The full `main` pipeline up to the DFA handed to the printer:
Thompson construction, silent-transition elimination, subset construction,
minimization, trap removal. -/
def pipeline (r : Regex) : DFA :=
  remove_trap (minimize (convert (removeEps (thompson r))))

/-- The minimized (pre-trap-removal) DFA of the pipeline. -/
def minPipeline (r : Regex) : DFA :=
  minimize (convert (removeEps (thompson r)))

theorem removeEps_start_lt (r : Regex) :
    (removeEps (thompson r)).start < (removeEps (thompson r)).states.length := by
  rw [removeEps_start, length_removeEps]
  exact thompson_start r

/-- Language of the subset-construction start state. -/
theorem convert_start_accept {n : NFA} {sets : List (Finset Nat)}
    (hc : ConvertChar n (convert n) sets)
    (hne : ∀ i q, ¬ edge n.states i .eps q) (w : List Bool) :
    (dfaAcceptFrom (convert n) 0 w = true ↔ AccFrom n.states n.start w) := by
  rw [convert_accept_aux hc hne w 0 {n.start} hc.startSet]
  constructor
  · rintro ⟨s, hs, hacc⟩
    rw [Finset.mem_singleton] at hs
    subst hs
    exact hacc
  · intro hacc
    exact ⟨n.start, Finset.mem_singleton_self _, hacc⟩

/-- The trap class of the minimized pipeline DFA accepts nothing. -/
theorem minPipeline_trap_dead (r : Regex) :
    ∃ tc, (minPipeline r).trap = some tc ∧
      ∀ w, dfaAcceptFrom (minPipeline r) tc w = false := by
  obtain ⟨sets, hc⟩ := convert_char (removeEps (thompson r))
    (validN_removeEps _ (validN_thompson r)) (removeEps_start_lt r)
  have hdv := dvalid_convert hc
  obtain ⟨tp, htp, htplt, -⟩ := hc.trapSpec
  refine ⟨Pval (finalPartition (convert (removeEps (thompson r)))) tp, ?_, ?_⟩
  · unfold minPipeline
    rw [minimize_trap, htp]
    rfl
  · intro w
    unfold minPipeline
    rw [minimize_acceptFrom hdv w htplt]
    exact convert_trap_rejects hc w tp htp

theorem dvalid_minPipeline (r : Regex) : dvalid (minPipeline r) = true := by
  obtain ⟨sets, hc⟩ := convert_char (removeEps (thompson r))
    (validN_removeEps _ (validN_thompson r)) (removeEps_start_lt r)
  exact dvalid_minimize (dvalid_convert hc)

/-- Language preservation of trap removal inside the pipeline. -/
theorem pipeline_eq_min (r : Regex) :
    ∀ (w : List Bool) (i : Nat),
      dfaAcceptFrom (pipeline r) i w = dfaAcceptFrom (minPipeline r) i w := by
  obtain ⟨tc, htc, hdead⟩ := minPipeline_trap_dead r
  intro w i
  exact remove_trap_accept htc hdead w i

/-- End-to-end language correctness of the pipeline DFA. -/
theorem pipeline_accept (r : Regex) (w : List Bool) :
    dfaAcceptFrom (pipeline r) (pipeline r).start w = true ↔ RMatch r w := by
  obtain ⟨sets, hc⟩ := convert_char (removeEps (thompson r))
    (validN_removeEps _ (validN_thompson r)) (removeEps_start_lt r)
  have hdv := dvalid_convert hc
  have hstart : (pipeline r).start =
      Pval (finalPartition (convert (removeEps (thompson r))))
        (convert (removeEps (thompson r))).start := by
    unfold pipeline
    rw [start_remove_trap, minimize_start]
  have hstep1 : dfaAcceptFrom (pipeline r) (pipeline r).start w =
      dfaAcceptFrom (minPipeline r) (pipeline r).start w := pipeline_eq_min r w _
  rw [hstep1, hstart]
  unfold minPipeline
  rw [minimize_acceptFrom hdv w (dvalid_start hdv)]
  rw [hc.startIdx]
  rw [convert_start_accept hc (noEps_removeEps _) w]
  rw [removeEps_start]
  rw [removeEps_correct (thompson r) (validN_thompson r) w _ (thompson_start r)]
  exact thompson_correct r w

/-- One neighbour inspection of the naming BFS (`if (v >= 0 && v < size &&
!visited[v])`): name the target with the next number and enqueue it when it
exists, is in range and is still unnamed. -/
def visit (d : DFA) (s : List (Option Nat) × Nat × List Nat) :
    Option Nat → List (Option Nat) × Nat × List Nat
  | none => s
  | some v =>
    if v < d.states.length ∧ s.1.getD v none = none then
      (s.1.set v (some s.2.1), s.2.1 + 1, s.2.2 ++ [v])
    else s

/-- `DFAPrinter::name_states`'s breadth-first naming loop, fuel-indexed.
`qname` holds `some k` for a state already named `"q" + k`, the queue is
FIFO, and `t0` is explored before `t1`. -/
def nameLoop (d : DFA) : Nat → List Nat → List (Option Nat) → Nat → List (Option Nat)
  | 0, _, qname, _ => qname
  | _ + 1, [], qname, _ => qname
  | fuel + 1, u :: rest, qname, cnt =>
    let s2 := visit d (visit d (qname, cnt, rest) (d.states.getD u default).t0)
      (d.states.getD u default).t1
    nameLoop d fuel s2.2.2 s2.1 s2.2.1

/-- `DFAPrinter::name_states`: breadth-first canonical naming of the
reachable states, `q0` being the start. -/
def name_states (d : DFA) : List (Option Nat) :=
  if d.start < d.states.length then
    nameLoop d d.states.length [d.start]
      ((List.replicate d.states.length none).set d.start (some 0)) 1
  else List.replicate d.states.length (none : Option Nat)

/-- One right-linear production `lhs -> sym rhs` (`rhs = none` is the
terminal-only production `lhs -> sym`); nonterminals are the `q`-numbers
assigned by `name_states`. -/
structure Production where
  lhs : Option Nat
  sym : Bool
  rhs : Option Nat
deriving DecidableEq

/-- One symbol's contribution in `DFAPrinter::process_symbol`: the main
production (suppressed for a pure accepting sink) and the buffered
`lhs -> sym` production for an accepting target. -/
def prodsOfSym (d : DFA) (qname : List (Option Nat)) (stid : Nat) (c : Bool) :
    List Production × List Production :=
  match dTrans (d.states.getD stid default) c with
  | none => ([], [])
  | some nxt =>
    match qname.getD nxt none with
    | none => ([], [])
    | some rk =>
      let lhs := qname.getD stid none
      let nstate := d.states.getD nxt default
      (if ¬ (nstate.accept = true ∧ nstate.t0 = none ∧ nstate.t1 = none)
         then [⟨lhs, c, some rk⟩] else [],
       if nstate.accept = true then [⟨lhs, c, none⟩] else [])

/-- `DFAPrinter::process_symbol`: symbol-0 before symbol-1, the buffered
terminal-only productions appended after both. -/
def prodsOf (d : DFA) (qname : List (Option Nat)) (stid : Nat) : List Production :=
  (prodsOfSym d qname stid false).1 ++ (prodsOfSym d qname stid true).1 ++
    ((prodsOfSym d qname stid false).2 ++ (prodsOfSym d qname stid true).2)

/-- `DFAPrinter::get_order`: the named states keyed and sorted by their
`q`-number. -/
def get_order (qname : List (Option Nat)) : List (Nat × Nat) :=
  ((List.range qname.length).filterMap (fun i =>
    (qname.getD i none).map (fun k => (k, i)))).mergeSort
    (fun a b => decide (a.1 < b.1 ∨ (a.1 = b.1 ∧ a.2 ≤ b.2)))

/-- The emitted right-linear grammar: productions per state in canonical
order. -/
def grammarOf (d : DFA) (qname : List (Option Nat)) : List Production :=
  (get_order qname).flatMap (fun pr => prodsOf d qname pr.2)

/-- The grammar `main` prints for the regex `r`. -/
def grammar (r : Regex) : List Production :=
  grammarOf (pipeline r) (name_states (pipeline r))

/-- One-step-per-terminal derivation in a right-linear grammar, from the
nonterminal named `q k`. -/
inductive Derives (g : List Production) : Nat → List Bool → Prop
  | term {k : Nat} {c : Bool} : (⟨some k, c, none⟩ : Production) ∈ g →
      Derives g k [c]
  | step {k : Nat} {c : Bool} {B : Nat} {w : List Bool} :
      (⟨some k, c, some B⟩ : Production) ∈ g → Derives g B w →
      Derives g k (c :: w)

/-- Every derivation of the emitted grammar produces a nonempty string. -/
theorem derives_ne_nil {g : List Production} {k : Nat} {w : List Bool}
    (h : Derives g k w) : w ≠ [] := by
  cases h with
  | term hmem => simp
  | step hmem hrest => simp

theorem getD_set_self {α : Type} {l : List α} {v : Nat} (h : v < l.length)
    (x : α) (da : α) : (l.set v x).getD v da = x := by
  rw [List.getD_eq_getElem?_getD, List.getElem?_set_self h]
  rfl

theorem getD_set_ne {α : Type} {l : List α} {v i : Nat} (h : v ≠ i)
    (x : α) (da : α) : (l.set v x).getD i da = l.getD i da := by
  rw [List.getD_eq_getElem?_getD, List.getElem?_set_ne h, ← List.getD_eq_getElem?_getD]

theorem getD_oob {α : Type} {l : List α} {i : Nat} (h : l.length ≤ i) (da : α) :
    l.getD i da = da := by
  rw [List.getD_eq_getElem?_getD, List.getElem?_eq_none h]
  rfl

theorem dfaAcceptFrom_oob {d : DFA} {i : Nat} (hi : ¬ i < d.states.length) :
    ∀ w, dfaAcceptFrom d i w = false := by
  intro w
  cases w with
  | nil =>
    unfold dfaAcceptFrom
    rw [getD_oob (by omega)]
    rfl
  | cons b w' =>
    unfold dfaAcceptFrom
    rw [getD_oob (by omega)]
    cases b <;> rfl

/-- The number of still-unnamed states: the BFS potential. -/
def unnamedCard (d : DFA) (qname : List (Option Nat)) : Nat :=
  ((Finset.range d.states.length).filter (fun i => qname.getD i none = none)).card

theorem unnamedCard_set {d : DFA} {qname : List (Option Nat)} {v : Nat}
    (hlen : qname.length = d.states.length) (hv : v < d.states.length)
    (hnone : qname.getD v none = none) (c : Nat) :
    unnamedCard d (qname.set v (some c)) + 1 = unnamedCard d qname := by
  unfold unnamedCard
  have hset : (Finset.range d.states.length).filter
      (fun i => (qname.set v (some c)).getD i none = none) =
      ((Finset.range d.states.length).filter
        (fun i => qname.getD i none = none)).erase v := by
    ext i
    simp only [Finset.mem_erase, Finset.mem_filter, Finset.mem_range]
    by_cases hiv : i = v
    · subst hiv
      rw [getD_set_self (by omega)]
      simp
    · rw [getD_set_ne (fun h => hiv h.symm)]
      constructor
      · rintro ⟨h1, h2⟩
        exact ⟨hiv, h1, h2⟩
      · rintro ⟨-, h1, h2⟩
        exact ⟨h1, h2⟩
  rw [hset]
  have hvmem : v ∈ (Finset.range d.states.length).filter
      (fun i => qname.getD i none = none) :=
    Finset.mem_filter.mpr ⟨Finset.mem_range.mpr hv, hnone⟩
  rw [Finset.card_erase_of_mem hvmem]
  have hpos : 0 < ((Finset.range d.states.length).filter
      (fun i => qname.getD i none = none)).card :=
    Finset.card_pos.mpr ⟨v, hvmem⟩
  omega

/-- Distinct states never share a `q`-number. -/
def NamedInj (qn : List (Option Nat)) : Prop :=
  ∀ i j ki kj, qn.getD i none = some ki → qn.getD j none = some kj → ki = kj → i = j

/-- All assigned `q`-numbers are below the running counter. -/
def NamedFresh (qn : List (Option Nat)) (c : Nat) : Prop :=
  ∀ i k, qn.getD i none = some k → k < c

theorem visit_len (d : DFA) (s : List (Option Nat) × Nat × List Nat) (o : Option Nat) :
    (visit d s o).1.length = s.1.length := by
  cases o with
  | none => rfl
  | some v =>
    simp only [visit]
    by_cases h : v < d.states.length ∧ s.1.getD v none = none
    · rw [if_pos h]
      exact List.length_set s.1 v _
    · rw [if_neg h]

theorem visit_cnt_le (d : DFA) (s : List (Option Nat) × Nat × List Nat) (o : Option Nat) :
    s.2.1 ≤ (visit d s o).2.1 := by
  cases o with
  | none => exact Nat.le_refl _
  | some v =>
    simp only [visit]
    by_cases h : v < d.states.length ∧ s.1.getD v none = none
    · rw [if_pos h]
      exact Nat.le_succ _
    · rw [if_neg h]

theorem visit_mono (d : DFA) (s : List (Option Nat) × Nat × List Nat) (o : Option Nat)
    {i k : Nat} (h : s.1.getD i none = some k) :
    (visit d s o).1.getD i none = some k := by
  cases o with
  | none => exact h
  | some v =>
    simp only [visit]
    by_cases hc : v < d.states.length ∧ s.1.getD v none = none
    · rw [if_pos hc]
      simp only
      by_cases hiv : v = i
      · subst hiv
        rw [hc.2] at h
        cases h
      · rw [getD_set_ne hiv]
        exact h
    · rw [if_neg hc]
      exact h

theorem visit_target (d : DFA) (s : List (Option Nat) × Nat × List Nat)
    {v : Nat} (hv : v < d.states.length) (hlen : s.1.length = d.states.length) :
    ((visit d s (some v)).1.getD v none).isSome := by
  simp only [visit]
  by_cases hc : v < d.states.length ∧ s.1.getD v none = none
  · rw [if_pos hc]
    simp only
    rw [getD_set_self (by omega)]
    rfl
  · rw [if_neg hc]
    cases hq : s.1.getD v none with
    | none => exact absurd ⟨hv, hq⟩ hc
    | some k => rfl

theorem visit_elim (d : DFA) (s : List (Option Nat) × Nat × List Nat) (o : Option Nat)
    {i k : Nat} (h : (visit d s o).1.getD i none = some k) :
    s.1.getD i none = some k ∨
      (o = some i ∧ s.1.getD i none = none ∧ k = s.2.1 ∧ i < d.states.length) := by
  cases o with
  | none => exact Or.inl h
  | some v =>
    simp only [visit] at h
    by_cases hc : v < d.states.length ∧ s.1.getD v none = none
    · rw [if_pos hc] at h
      simp only at h
      by_cases hiv : v = i
      · subst hiv
        by_cases hvl : v < s.1.length
        · rw [getD_set_self hvl] at h
          exact Or.inr ⟨rfl, hc.2, (Option.some.inj h).symm, hc.1⟩
        · rw [getD_oob (by rw [List.length_set]; omega)] at h
          cases h
      · rw [getD_set_ne hiv] at h
        exact Or.inl h
    · rw [if_neg hc] at h
      exact Or.inl h

theorem visit_new_in_queue (d : DFA) (s : List (Option Nat) × Nat × List Nat)
    (o : Option Nat) {i : Nat} (hold : s.1.getD i none = none)
    (hnew : ((visit d s o).1.getD i none).isSome) : i ∈ (visit d s o).2.2 := by
  obtain ⟨k, hk⟩ := Option.isSome_iff_exists.mp hnew
  rcases visit_elim d s o hk with h | ⟨ho, -, -, -⟩
  · rw [hold] at h
    cases h
  · subst ho
    simp only [visit]
    by_cases hc : i < d.states.length ∧ s.1.getD i none = none
    · rw [if_pos hc]
      simp
    · simp only [visit] at hk
      rw [if_neg hc] at hk
      rw [hold] at hk
      cases hk

theorem visit_queue_sub (d : DFA) (s : List (Option Nat) × Nat × List Nat)
    (o : Option Nat) {u : Nat} (h : u ∈ s.2.2) : u ∈ (visit d s o).2.2 := by
  cases o with
  | none => exact h
  | some v =>
    simp only [visit]
    by_cases hc : v < d.states.length ∧ s.1.getD v none = none
    · rw [if_pos hc]
      simp only
      exact List.mem_append_left _ h
    · rw [if_neg hc]
      exact h

theorem visit_queue_mem (d : DFA) (s : List (Option Nat) × Nat × List Nat)
    (o : Option Nat) (hlen : s.1.length = d.states.length) {u : Nat}
    (h : u ∈ (visit d s o).2.2) :
    u ∈ s.2.2 ∨ (u < d.states.length ∧ ((visit d s o).1.getD u none).isSome) := by
  cases o with
  | none => exact Or.inl h
  | some v =>
    simp only [visit] at h ⊢
    by_cases hc : v < d.states.length ∧ s.1.getD v none = none
    · rw [if_pos hc] at h ⊢
      simp only at h ⊢
      rcases List.mem_append.mp h with h | h
      · exact Or.inl h
      · simp at h
        subst h
        refine Or.inr ⟨hc.1, ?_⟩
        rw [getD_set_self (by omega)]
        rfl
    · rw [if_neg hc] at h
      exact Or.inl h

theorem visit_potential (d : DFA) (s : List (Option Nat) × Nat × List Nat)
    (o : Option Nat) (hlen : s.1.length = d.states.length) :
    (visit d s o).2.2.length + unnamedCard d (visit d s o).1 =
      s.2.2.length + unnamedCard d s.1 := by
  cases o with
  | none => rfl
  | some v =>
    simp only [visit]
    by_cases hc : v < d.states.length ∧ s.1.getD v none = none
    · rw [if_pos hc]
      simp only [List.length_append, List.length_singleton]
      have := unnamedCard_set hlen hc.1 hc.2 s.2.1
      omega
    · rw [if_neg hc]

theorem visit_fresh (d : DFA) (s : List (Option Nat) × Nat × List Nat) (o : Option Nat)
    (hf : NamedFresh s.1 s.2.1) : NamedFresh (visit d s o).1 (visit d s o).2.1 := by
  intro i k hk
  rcases visit_elim d s o hk with h | ⟨ho, -, hkc, -⟩
  · have := hf i k h
    have := visit_cnt_le d s o
    omega
  · subst hkc
    subst ho
    simp only [visit]
    by_cases hc : i < d.states.length ∧ s.1.getD i none = none
    · rw [if_pos hc]
      simp
    · simp only [visit] at hk
      rw [if_neg hc] at hk
      have := hf i s.2.1 hk
      omega

theorem visit_inj (d : DFA) (s : List (Option Nat) × Nat × List Nat) (o : Option Nat)
    (hinj : NamedInj s.1) (hf : NamedFresh s.1 s.2.1) : NamedInj (visit d s o).1 := by
  intro i j ki kj hi hj hk
  rcases visit_elim d s o hi with h1 | ⟨ho1, hn1, hc1, -⟩ <;>
    rcases visit_elim d s o hj with h2 | ⟨ho2, hn2, hc2, -⟩
  · exact hinj i j ki kj h1 h2 hk
  · subst hc2
    have := hf i ki h1
    omega
  · subst hc1
    have := hf j kj h2
    omega
  · rw [ho1] at ho2
    exact Option.some.inj ho2

/-- Invariant of the naming BFS: lengths agree, queued states are named and
in range, names are distinct and below the counter, and every named state
not still queued has all its in-range successors named. -/
structure NameInv (d : DFA) (q : List Nat) (qname : List (Option Nat)) (cnt : Nat) :
    Prop where
  len : qname.length = d.states.length
  qmem : ∀ u ∈ q, u < d.states.length ∧ (qname.getD u none).isSome
  inj : NamedInj qname
  fresh : NamedFresh qname cnt
  procd : ∀ i, i < d.states.length → (qname.getD i none).isSome → i ∉ q →
    ∀ v, ((d.states.getD i default).t0 = some v ∨
        (d.states.getD i default).t1 = some v) →
      v < d.states.length → (qname.getD v none).isSome

/-- What the finished naming BFS guarantees: monotone over the input
naming, injective, and closed under in-range successors. -/
structure NamePost (d : DFA) (qname qname' : List (Option Nat)) : Prop where
  len : qname'.length = d.states.length
  mono : ∀ i k, qname.getD i none = some k → qname'.getD i none = some k
  inj : NamedInj qname'
  closure : ∀ i, i < d.states.length → (qname'.getD i none).isSome →
    ∀ v, ((d.states.getD i default).t0 = some v ∨
        (d.states.getD i default).t1 = some v) →
      v < d.states.length → (qname'.getD v none).isSome

theorem nameLoop_ok (d : DFA) : ∀ (fuel : Nat) (q : List Nat)
    (qname : List (Option Nat)) (cnt : Nat), NameInv d q qname cnt →
    q.length + unnamedCard d qname ≤ fuel →
    NamePost d qname (nameLoop d fuel q qname cnt) := by
  intro fuel
  induction fuel with
  | zero =>
    intro q qname cnt hinv hfuel
    have hq : q = [] := List.length_eq_zero.mp (by omega)
    subst hq
    exact ⟨hinv.len, fun i k h => h, hinv.inj,
      fun i hi hn v hv hvl =>
        hinv.procd i hi hn (List.not_mem_nil i) v hv hvl⟩
  | succ fuel ih =>
    intro q qname cnt hinv hfuel
    cases q with
    | nil =>
      exact ⟨hinv.len, fun i k h => h, hinv.inj,
        fun i hi hn v hv hvl =>
          hinv.procd i hi hn (List.not_mem_nil i) v hv hvl⟩
    | cons u rest =>
      have hu := hinv.qmem u (List.mem_cons_self u rest)
      have hs0len : ((qname, cnt, rest) :
          List (Option Nat) × Nat × List Nat).1.length = d.states.length := hinv.len
      set t0u := (d.states.getD u default).t0 with ht0u
      set t1u := (d.states.getD u default).t1 with ht1u
      set s1 := visit d (qname, cnt, rest) t0u with hs1
      set s2 := visit d s1 t1u with hs2
      have hs1len : s1.1.length = d.states.length := by
        rw [hs1, visit_len]
        exact hinv.len
      have hs2len : s2.1.length = d.states.length := by
        rw [hs2, visit_len]
        exact hs1len
      have hmono1 : ∀ i k, qname.getD i none = some k → s1.1.getD i none = some k :=
        fun i k h => visit_mono d _ _ h
      have hmono2 : ∀ i k, s1.1.getD i none = some k → s2.1.getD i none = some k :=
        fun i k h => visit_mono d _ _ h
      have hmono12 : ∀ i k, qname.getD i none = some k → s2.1.getD i none = some k :=
        fun i k h => hmono2 i k (hmono1 i k h)
      have hmonoS1 : ∀ i, (qname.getD i none).isSome → (s1.1.getD i none).isSome := by
        intro i h
        obtain ⟨k, hk⟩ := Option.isSome_iff_exists.mp h
        rw [hmono1 i k hk]
        rfl
      have hmonoS2 : ∀ i, (s1.1.getD i none).isSome → (s2.1.getD i none).isSome := by
        intro i h
        obtain ⟨k, hk⟩ := Option.isSome_iff_exists.mp h
        rw [hmono2 i k hk]
        rfl
      have hfresh1 : NamedFresh s1.1 s1.2.1 := visit_fresh d _ _ hinv.fresh
      have hfresh2 : NamedFresh s2.1 s2.2.1 := visit_fresh d _ _ hfresh1
      have hinj1 : NamedInj s1.1 := visit_inj d _ _ hinv.inj hinv.fresh
      have hinj2 : NamedInj s2.1 := visit_inj d _ _ hinj1 hfresh1
      have hqmem2 : ∀ x ∈ s2.2.2, x < d.states.length ∧ (s2.1.getD x none).isSome := by
        intro x hx
        rcases visit_queue_mem d s1 t1u hs1len hx with hx1 | ⟨hxl, hxs⟩
        · rcases visit_queue_mem d (qname, cnt, rest) t0u hs0len hx1 with hx0 | ⟨hxl, hxs⟩
          · have := hinv.qmem x (List.mem_cons_of_mem u hx0)
            exact ⟨this.1, hmonoS2 x (hmonoS1 x this.2)⟩
          · exact ⟨hxl, hmonoS2 x hxs⟩
        · exact ⟨hxl, hxs⟩
      have htgt : ∀ v, (t0u = some v ∨ t1u = some v) → v < d.states.length →
          (s2.1.getD v none).isSome := by
        intro v hv hvl
        rcases hv with hv | hv
        · rw [hs2]
          apply hmonoS2
          rw [hs1, hv]
          exact visit_target d _ hvl hs0len
        · rw [hs2, hv]
          exact visit_target d _ hvl hs1len
      have hnew2 : ∀ i, qname.getD i none = none → (s2.1.getD i none).isSome →
          i ∈ s2.2.2 := by
        intro i hiold hinew
        cases hs1i : s1.1.getD i none with
        | none =>
          exact visit_new_in_queue d s1 t1u hs1i hinew
        | some k =>
          have : i ∈ s1.2.2 :=
            visit_new_in_queue d (qname, cnt, rest) t0u hiold (by rw [hs1i]; rfl)
          exact visit_queue_sub d s1 t1u this
      have hinv2 : NameInv d s2.2.2 s2.1 s2.2.1 := by
        refine ⟨hs2len, hqmem2, hinj2, hfresh2, ?_⟩
        intro i hi hn hnq v hv hvl
        by_cases hiu : i = u
        · subst hiu
          exact htgt v (by rw [ht0u, ht1u]; exact hv) hvl
        · cases hqi : qname.getD i none with
          | some k =>
            have hirest : i ∉ rest := by
              intro hmem
              exact hnq (visit_queue_sub d s1 t1u
                (visit_queue_sub d (qname, cnt, rest) t0u hmem))
            have hold := hinv.procd i hi (by rw [hqi]; rfl)
              (by
                intro hmem
                rcases List.mem_cons.mp hmem with h | h
                · exact hiu h
                · exact hirest h) v hv hvl
            obtain ⟨k', hk'⟩ := Option.isSome_iff_exists.mp hold
            rw [hmono12 v k' hk']
            rfl
          | none =>
            exact absurd (hnew2 i hqi hn) hnq
      have hpot : s2.2.2.length + unnamedCard d s2.1 ≤ fuel := by
        have h2 := visit_potential d s1 t1u hs1len
        have h1 := visit_potential d (qname, cnt, rest) t0u hs0len
        rw [← hs1] at h1
        rw [← hs2] at h2
        simp only [List.length_cons] at hfuel
        simp only at h1
        omega
      have hrec := ih s2.2.2 s2.1 s2.2.1 hinv2 hpot
      have hloop : nameLoop d (fuel + 1) (u :: rest) qname cnt =
          nameLoop d fuel s2.2.2 s2.1 s2.2.1 := by
        simp only [nameLoop]
      rw [hloop]
      exact ⟨hrec.len,
        fun i k h => hrec.mono i k (hmono12 i k h),
        hrec.inj, hrec.closure⟩

theorem getD_replicate_none {n i : Nat} :
    (List.replicate n (none : Option Nat)).getD i none = none := by
  rw [List.getD_eq_getElem?_getD]
  rcases h : (List.replicate n (none : Option Nat))[i]? with - | x
  · rfl
  · have hx : x = none := List.eq_of_mem_replicate (List.getElem?_mem h)
    rw [hx]
    rfl

theorem initName_cases {d : DFA} {i k : Nat}
    (h : ((List.replicate d.states.length none).set d.start (some 0)).getD i none =
      some k) : i = d.start ∧ k = 0 := by
  by_cases hi : i = d.start
  · subst hi
    by_cases hl : d.start < d.states.length
    · rw [getD_set_self (by rw [List.length_replicate]; omega)] at h
      exact ⟨rfl, (Option.some.inj h).symm⟩
    · rw [List.set_eq_of_length_le (by rw [List.length_replicate]; omega)] at h
      rw [getD_replicate_none] at h
      cases h
  · rw [getD_set_ne (fun hh => hi hh.symm)] at h
    rw [getD_replicate_none] at h
    cases h

theorem name_states_post {d : DFA} (hstart : d.start < d.states.length) :
    NamePost d ((List.replicate d.states.length none).set d.start (some 0))
      (name_states d) := by
  unfold name_states
  rw [if_pos hstart]
  apply nameLoop_ok
  · refine ⟨?_, ?_, ?_, ?_, ?_⟩
    · rw [List.length_set, List.length_replicate]
    · intro u hu
      have : u = d.start := by simpa using hu
      subst this
      refine ⟨hstart, ?_⟩
      rw [getD_set_self (by rw [List.length_replicate]; omega)]
      rfl
    · intro i j ki kj hi hj hk
      obtain ⟨hi', -⟩ := initName_cases hi
      obtain ⟨hj', -⟩ := initName_cases hj
      rw [hi', hj']
    · intro i k hk
      obtain ⟨-, hk'⟩ := initName_cases hk
      omega
    · intro i hi hn hnq v hv hvl
      obtain ⟨k, hk⟩ := Option.isSome_iff_exists.mp hn
      obtain ⟨hi', -⟩ := initName_cases hk
      exact absurd (by simp [hi']) hnq
  · have hcard : unnamedCard d ((List.replicate d.states.length none).set d.start
        (some 0)) = d.states.length - 1 := by
      unfold unnamedCard
      have hset : (Finset.range d.states.length).filter (fun i =>
          ((List.replicate d.states.length none).set d.start (some 0)).getD i none =
            none) = (Finset.range d.states.length).erase d.start := by
        ext i
        simp only [Finset.mem_erase, Finset.mem_filter, Finset.mem_range]
        by_cases hi : i = d.start
        · subst hi
          rw [getD_set_self (by rw [List.length_replicate]; omega)]
          simp
        · rw [getD_set_ne (fun hh => hi hh.symm), getD_replicate_none]
          constructor
          · rintro ⟨h1, -⟩
            exact ⟨hi, h1⟩
          · rintro ⟨-, h1⟩
            exact ⟨h1, rfl⟩
      rw [hset, Finset.card_erase_of_mem (Finset.mem_range.mpr hstart),
        Finset.card_range]
    rw [hcard]
    simp only [List.length_singleton]
    omega

theorem name_states_start {d : DFA} (hstart : d.start < d.states.length) :
    (name_states d).getD d.start none = some 0 := by
  apply (name_states_post hstart).mono
  rw [getD_set_self (by rw [List.length_replicate]; omega)]

theorem visit_avoid (d : DFA) (s : List (Option Nat) × Nat × List Nat)
    {o : Option Nat} {t : Nat} (ho : o ≠ some t) :
    (visit d s o).1.getD t none = s.1.getD t none := by
  cases o with
  | none => rfl
  | some v =>
    simp only [visit]
    by_cases hc : v < d.states.length ∧ s.1.getD v none = none
    · rw [if_pos hc]
      simp only
      exact getD_set_ne (fun hh => ho (by rw [hh])) _ _
    · rw [if_neg hc]

theorem nameLoop_avoid (d : DFA) (t : Nat)
    (hno : ∀ u, (d.states.getD u default).t0 ≠ some t ∧
      (d.states.getD u default).t1 ≠ some t) :
    ∀ (fuel : Nat) (q : List Nat) (qname : List (Option Nat)) (cnt : Nat),
      qname.getD t none = none →
      (nameLoop d fuel q qname cnt).getD t none = none := by
  intro fuel
  induction fuel with
  | zero => intro q qname cnt h; exact h
  | succ fuel ih =>
    intro q qname cnt h
    cases q with
    | nil => exact h
    | cons u rest =>
      simp only [nameLoop]
      apply ih
      rw [visit_avoid d _ (hno u).2, visit_avoid d _ (hno u).1]
      exact h

/-- A state no transition targets and that is not the start is never
named. -/
theorem name_states_avoid {d : DFA} {t : Nat} (hst : d.start ≠ t)
    (hno : ∀ u, (d.states.getD u default).t0 ≠ some t ∧
      (d.states.getD u default).t1 ≠ some t) :
    (name_states d).getD t none = none := by
  unfold name_states
  by_cases hstart : d.start < d.states.length
  · rw [if_pos hstart]
    apply nameLoop_avoid d t hno
    rw [getD_set_ne hst, getD_replicate_none]
  · rw [if_neg hstart]
    exact getD_replicate_none

theorem mem_get_order {qname : List (Option Nat)} {k i : Nat} :
    (k, i) ∈ get_order qname ↔
      i < qname.length ∧ qname.getD i none = some k := by
  unfold get_order
  rw [List.mem_mergeSort, List.mem_filterMap]
  constructor
  · rintro ⟨j, hj, heq⟩
    rcases hq : qname.getD j none with - | k'
    · rw [hq] at heq
      cases heq
    · rw [hq] at heq
      simp only [Option.map_some'] at heq
      have heq' : (k', j) = (k, i) := Option.some.inj heq
      have hk : k' = k := congrArg Prod.fst heq'
      have hj' : j = i := congrArg Prod.snd heq'
      subst hk
      subst hj'
      exact ⟨List.mem_range.mp hj, hq⟩
  · rintro ⟨hi, hk⟩
    refine ⟨i, List.mem_range.mpr hi, ?_⟩
    rw [hk]
    rfl

theorem mem_grammarOf {d : DFA} {qname : List (Option Nat)} {p : Production} :
    p ∈ grammarOf d qname ↔
      ∃ k i, (k, i) ∈ get_order qname ∧ p ∈ prodsOf d qname i := by
  unfold grammarOf
  rw [List.mem_flatMap]
  constructor
  · rintro ⟨⟨k, i⟩, hmem, hp⟩
    exact ⟨k, i, hmem, hp⟩
  · rintro ⟨k, i, hmem, hp⟩
    exact ⟨(k, i), hmem, hp⟩

theorem prodsOfSym_main_elim {d : DFA} {qname : List (Option Nat)} {stid : Nat}
    {c : Bool} {p : Production} (h : p ∈ (prodsOfSym d qname stid c).1) :
    ∃ nxt rk, dTrans (d.states.getD stid default) c = some nxt ∧
      qname.getD nxt none = some rk ∧
      p = ⟨qname.getD stid none, c, some rk⟩ ∧
      ¬ ((d.states.getD nxt default).accept = true ∧
        (d.states.getD nxt default).t0 = none ∧
        (d.states.getD nxt default).t1 = none) := by
  unfold prodsOfSym at h
  rcases hsc : dTrans (d.states.getD stid default) c with - | nxt <;>
    simp only [hsc] at h
  · cases h
  · rcases hq : qname.getD nxt none with - | rk <;> simp only [hq] at h
    · cases h
    · by_cases hns : ¬ ((d.states.getD nxt default).accept = true ∧
          (d.states.getD nxt default).t0 = none ∧
          (d.states.getD nxt default).t1 = none)
      · rw [if_pos hns] at h
        simp only [List.mem_singleton] at h
        exact ⟨nxt, rk, rfl, hq, h, hns⟩
      · rw [if_neg hns] at h
        cases h

theorem prodsOfSym_acc_elim {d : DFA} {qname : List (Option Nat)} {stid : Nat}
    {c : Bool} {p : Production} (h : p ∈ (prodsOfSym d qname stid c).2) :
    ∃ nxt rk, dTrans (d.states.getD stid default) c = some nxt ∧
      qname.getD nxt none = some rk ∧
      p = ⟨qname.getD stid none, c, none⟩ ∧
      (d.states.getD nxt default).accept = true := by
  unfold prodsOfSym at h
  rcases hsc : dTrans (d.states.getD stid default) c with - | nxt <;>
    simp only [hsc] at h
  · cases h
  · rcases hq : qname.getD nxt none with - | rk <;> simp only [hq] at h
    · cases h
    · by_cases hacc : (d.states.getD nxt default).accept = true
      · rw [if_pos hacc] at h
        simp only [List.mem_singleton] at h
        exact ⟨nxt, rk, rfl, hq, h, hacc⟩
      · rw [if_neg hacc] at h
        cases h

theorem prodsOfSym_main_mem {d : DFA} {qname : List (Option Nat)} {stid : Nat}
    {c : Bool} {nxt rk : Nat}
    (ht : dTrans (d.states.getD stid default) c = some nxt)
    (hn : qname.getD nxt none = some rk)
    (hns : ¬ ((d.states.getD nxt default).accept = true ∧
      (d.states.getD nxt default).t0 = none ∧
      (d.states.getD nxt default).t1 = none)) :
    (⟨qname.getD stid none, c, some rk⟩ : Production) ∈
      (prodsOfSym d qname stid c).1 := by
  unfold prodsOfSym
  simp only [ht, hn]
  rw [if_pos hns]
  exact List.mem_singleton_self _

theorem prodsOfSym_acc_mem {d : DFA} {qname : List (Option Nat)} {stid : Nat}
    {c : Bool} {nxt rk : Nat}
    (ht : dTrans (d.states.getD stid default) c = some nxt)
    (hn : qname.getD nxt none = some rk)
    (hacc : (d.states.getD nxt default).accept = true) :
    (⟨qname.getD stid none, c, none⟩ : Production) ∈
      (prodsOfSym d qname stid c).2 := by
  unfold prodsOfSym
  simp only [ht, hn]
  rw [if_pos hacc]
  exact List.mem_singleton_self _

theorem prodsOf_elim {d : DFA} {qname : List (Option Nat)} {stid : Nat}
    {p : Production} (h : p ∈ prodsOf d qname stid) :
    ∃ c nxt rk, dTrans (d.states.getD stid default) c = some nxt ∧
      qname.getD nxt none = some rk ∧ p.lhs = qname.getD stid none ∧ p.sym = c ∧
      ((p.rhs = some rk ∧ ¬ ((d.states.getD nxt default).accept = true ∧
          (d.states.getD nxt default).t0 = none ∧
          (d.states.getD nxt default).t1 = none)) ∨
        (p.rhs = none ∧ (d.states.getD nxt default).accept = true)) := by
  unfold prodsOf at h
  rcases List.mem_append.mp h with h1 | h1
  · rcases List.mem_append.mp h1 with h2 | h2
    · obtain ⟨nxt, rk, ht, hn, hp, hns⟩ := prodsOfSym_main_elim h2
      exact ⟨false, nxt, rk, ht, hn, by rw [hp], by rw [hp], Or.inl ⟨by rw [hp], hns⟩⟩
    · obtain ⟨nxt, rk, ht, hn, hp, hns⟩ := prodsOfSym_main_elim h2
      exact ⟨true, nxt, rk, ht, hn, by rw [hp], by rw [hp], Or.inl ⟨by rw [hp], hns⟩⟩
  · rcases List.mem_append.mp h1 with h2 | h2
    · obtain ⟨nxt, rk, ht, hn, hp, hacc⟩ := prodsOfSym_acc_elim h2
      exact ⟨false, nxt, rk, ht, hn, by rw [hp], by rw [hp], Or.inr ⟨by rw [hp], hacc⟩⟩
    · obtain ⟨nxt, rk, ht, hn, hp, hacc⟩ := prodsOfSym_acc_elim h2
      exact ⟨true, nxt, rk, ht, hn, by rw [hp], by rw [hp], Or.inr ⟨by rw [hp], hacc⟩⟩

theorem prodsOf_main_sub {d : DFA} {qname : List (Option Nat)} {stid : Nat}
    {c : Bool} {p : Production} (h : p ∈ (prodsOfSym d qname stid c).1) :
    p ∈ prodsOf d qname stid := by
  unfold prodsOf
  cases c
  · exact List.mem_append_left _ (List.mem_append_left _ h)
  · exact List.mem_append_left _ (List.mem_append_right _ h)

theorem prodsOf_acc_sub {d : DFA} {qname : List (Option Nat)} {stid : Nat}
    {c : Bool} {p : Production} (h : p ∈ (prodsOfSym d qname stid c).2) :
    p ∈ prodsOf d qname stid := by
  unfold prodsOf
  cases c
  · exact List.mem_append_right _ (List.mem_append_left _ h)
  · exact List.mem_append_right _ (List.mem_append_right _ h)

/-- Faithfulness of the emitted grammar over any injective, successor-closed
naming: from a state named `q k`, a nonempty word derives from `q k` exactly
when the DFA accepts it from that state. -/
theorem grammarOf_correct {d : DFA} {qname : List (Option Nat)}
    (hlen : qname.length = d.states.length)
    (hinj : NamedInj qname)
    (hclos : ∀ i, i < d.states.length → (qname.getD i none).isSome →
      ∀ v, ((d.states.getD i default).t0 = some v ∨
          (d.states.getD i default).t1 = some v) →
        v < d.states.length → (qname.getD v none).isSome) :
    ∀ (w : List Bool), w ≠ [] → ∀ (i k : Nat), qname.getD i none = some k →
      (Derives (grammarOf d qname) k w ↔ dfaAcceptFrom d i w = true) := by
  intro w
  induction w with
  | nil => intro hne; exact absurd rfl hne
  | cons c w' ih =>
    intro hne i k hk
    have hi : i < d.states.length := by
      by_contra hc
      rw [getD_oob (by omega)] at hk
      cases hk
    constructor
    · intro hder
      cases hder with
      | term hmem =>
        obtain ⟨k', i', horder, hp⟩ := mem_grammarOf.mp hmem
        obtain ⟨c0, nxt, rk, hT, hrk, hlhs, hsym, hcase⟩ := prodsOf_elim hp
        simp only at hlhs hsym
        rcases hcase with ⟨habs, -⟩ | ⟨-, haccn⟩
        · simp only at habs
          cases habs
        · have hii : i' = i := hinj i' i k k hlhs.symm hk rfl
          subst hii
          subst hsym
          unfold dfaAcceptFrom
          simp only [hT]
          unfold dfaAcceptFrom
          exact haccn
      | step hmem hder' =>
        obtain ⟨k', i', horder, hp⟩ := mem_grammarOf.mp hmem
        obtain ⟨c0, nxt, rk, hT, hrk, hlhs, hsym, hcase⟩ := prodsOf_elim hp
        simp only at hlhs hsym
        rcases hcase with ⟨hrhs, -⟩ | ⟨habs, -⟩
        · simp only at hrhs
          have hB := Option.some.inj hrhs
          have hii : i' = i := hinj i' i k k hlhs.symm hk rfl
          subst hii
          subst hsym
          rw [hB] at hder'
          have hacc := (ih (derives_ne_nil hder') nxt rk hrk).mp hder'
          unfold dfaAcceptFrom
          simp only [hT]
          exact hacc
        · simp only at habs
          cases habs
    · intro hacc
      unfold dfaAcceptFrom at hacc
      rcases hT : dTrans (d.states.getD i default) c with - | nxt <;>
        simp only [hT] at hacc
      · cases hacc
      · have hnxtlt : nxt < d.states.length := by
          by_contra hc
          rw [dfaAcceptFrom_oob hc w'] at hacc
          cases hacc
        have hnxtnamed : (qname.getD nxt none).isSome := by
          refine hclos i hi (by rw [hk]; rfl) nxt ?_ hnxtlt
          unfold dTrans at hT
          cases c
          · exact Or.inl (by simpa using hT)
          · exact Or.inr (by simpa using hT)
        obtain ⟨rk, hrk⟩ := Option.isSome_iff_exists.mp hnxtnamed
        have horder : (k, i) ∈ get_order qname := mem_get_order.mpr ⟨by omega, hk⟩
        cases w' with
        | nil =>
          have haccn : (d.states.getD nxt default).accept = true := by
            unfold dfaAcceptFrom at hacc
            exact hacc
          have hmem := prodsOf_acc_sub (prodsOfSym_acc_mem hT hrk haccn)
          rw [hk] at hmem
          exact Derives.term (mem_grammarOf.mpr ⟨k, i, horder, hmem⟩)
        | cons c' w'' =>
          have hstep : ∃ m, dTrans (d.states.getD nxt default) c' = some m := by
            unfold dfaAcceptFrom at hacc
            rcases hmm : dTrans (d.states.getD nxt default) c' with - | m <;>
              simp only [hmm] at hacc
            · cases hacc
            · exact ⟨m, rfl⟩
          have hns : ¬ ((d.states.getD nxt default).accept = true ∧
              (d.states.getD nxt default).t0 = none ∧
              (d.states.getD nxt default).t1 = none) := by
            rintro ⟨-, h0, h1⟩
            obtain ⟨m, hm⟩ := hstep
            unfold dTrans at hm
            cases c' <;> simp only [h0, h1] at hm <;> cases hm
          have hmem := prodsOf_main_sub (prodsOfSym_main_mem hT hrk hns)
          rw [hk] at hmem
          have hder := (ih (by simp) nxt rk hrk).mpr hacc
          exact Derives.step (mem_grammarOf.mpr ⟨k, i, horder, hmem⟩) hder

theorem pipeline_eq_rt (r : Regex) : pipeline r = remove_trap (minPipeline r) := rfl

theorem pipeline_start_lt (r : Regex) :
    (pipeline r).start < (pipeline r).states.length := by
  rw [pipeline_eq_rt, start_remove_trap, length_remove_trap]
  exact dvalid_start (dvalid_minPipeline r)

/-- The grammar printed for `r` derives (from `q0`) exactly the nonempty
words the trap-free pipeline DFA accepts. -/
theorem grammar_pipeline (r : Regex) (w : List Bool) (hne : w ≠ []) :
    Derives (grammar r) 0 w ↔
      dfaAcceptFrom (pipeline r) (pipeline r).start w = true := by
  have hstart := pipeline_start_lt r
  have hpost := name_states_post hstart
  exact grammarOf_correct hpost.len hpost.inj hpost.closure w hne
    (pipeline r).start 0 (name_states_start hstart)

/-- After trap removal no transition targets the former trap index. -/
theorem remove_trap_no_edge {d : DFA} {t : Nat} (htr : d.trap = some t) :
    ∀ u, ((remove_trap d).states.getD u default).t0 ≠ some t ∧
      ((remove_trap d).states.getD u default).t1 ≠ some t := by
  intro u
  by_cases hu : u < d.states.length
  · rw [remove_trap_state htr hu]
    by_cases hut : u = t
    · rw [if_pos hut]
      exact ⟨fun h => Option.noConfusion h, fun h => Option.noConfusion h⟩
    · rw [if_neg hut]
      constructor
      · by_cases h0 : (d.states.getD u default).t0 = some t
        · rw [if_pos h0]
          exact fun h => Option.noConfusion h
        · rw [if_neg h0]
          exact h0
      · by_cases h1 : (d.states.getD u default).t1 = some t
        · rw [if_pos h1]
          exact fun h => Option.noConfusion h
        · rw [if_neg h1]
          exact h1
  · rw [remove_trap_state_oob hu]
    exact ⟨fun h => Option.noConfusion h, fun h => Option.noConfusion h⟩

/-- One DFA transition step, as a relation. -/
def DStep (d : DFA) (i j : Nat) : Prop :=
  ∃ b, dTrans (d.states.getD i default) b = some j

/-- Reachability along DFA transitions. -/
def DReach (d : DFA) (i j : Nat) : Prop :=
  Relation.ReflTransGen (DStep d) i j

/-- A state nothing transitions into and different from the source is
unreachable. -/
theorem unreachable_of_no_edge {d : DFA} {t s : Nat} (hst : s ≠ t)
    (hno : ∀ u, (d.states.getD u default).t0 ≠ some t ∧
      (d.states.getD u default).t1 ≠ some t) : ¬ DReach d s t := by
  intro h
  induction h with
  | refl => exact hst rfl
  | tail hmid hstep ih =>
    obtain ⟨b, hb⟩ := hstep
    unfold dTrans at hb
    cases b
    · simp only [if_neg, Bool.false_eq_true, not_false_iff] at hb
      exact (hno _).1 hb
    · simp only [if_pos] at hb
      exact (hno _).2 hb

theorem finalPartition_inj_of_distinct {e : DFA} (hv : dvalid e = true)
    (hdist : ∀ i j, i < e.states.length → j < e.states.length → i ≠ j →
      ∃ w, dfaAcceptFrom e i w ≠ dfaAcceptFrom e j w)
    {i j : Nat} (hi : i < e.states.length) (hj : j < e.states.length)
    (heq : Pval (finalPartition e) i = Pval (finalPartition e) j) : i = j := by
  by_contra hne
  obtain ⟨w, hw⟩ := hdist i j hi hj hne
  exact hw (finalPartition_sound hv w hi hj heq)

/-- Minimizing a DFA whose states are pairwise inequivalent keeps the state
count. -/
theorem minimize_length_of_distinct {e : DFA} (hv : dvalid e = true)
    (hdist : ∀ i j, i < e.states.length → j < e.states.length → i ≠ j →
      ∃ w, dfaAcceptFrom e i w ≠ dfaAcceptFrom e j w) :
    (minimize e).states.length = e.states.length := by
  rw [length_minimize, count_eq (dvalid_len hv)]
  have hcard : (Finset.range e.states.length).card =
      (Finset.range (sortedKeys e (finalPartition e)).length).card := by
    apply Finset.card_bij (fun i _ => Pval (finalPartition e) i)
    · intro a ha
      rw [Finset.mem_range] at ha ⊢
      exact finalPartition_lt ha
    · intro a ha b hb hab
      rw [Finset.mem_range] at ha hb
      exact finalPartition_inj_of_distinct hv hdist ha hb hab
    · intro c hc
      rw [Finset.mem_range] at hc
      obtain ⟨i, hi, hPi⟩ := finalPartition_surj hc
      exact ⟨i, Finset.mem_range.mpr hi, hPi⟩
  simpa using hcard.symm

/-- Minimization is idempotent up to isomorphism: re-minimizing `minimize d`
yields the same state count, and the class map is a bijection preserving the
start state, the trap, the accept flags and both transition functions. -/
theorem minimize_minimize_iso {d : DFA} (hv : dvalid d = true) :
    ∃ φ : Nat → Nat,
      (minimize (minimize d)).states.length = (minimize d).states.length ∧
      (∀ i j, i < (minimize d).states.length → j < (minimize d).states.length →
        φ i = φ j → i = j) ∧
      (∀ c, c < (minimize d).states.length →
        ∃ i, i < (minimize d).states.length ∧ φ i = c) ∧
      (∀ i, i < (minimize d).states.length → φ i < (minimize d).states.length) ∧
      (minimize (minimize d)).start = φ ((minimize d).start) ∧
      (minimize (minimize d)).trap = ((minimize d).trap).map φ ∧
      (∀ i, i < (minimize d).states.length →
        ((minimize (minimize d)).states.getD (φ i) default).accept =
          ((minimize d).states.getD i default).accept ∧
        ((minimize (minimize d)).states.getD (φ i) default).t0 =
          (((minimize d).states.getD i default).t0).map φ ∧
        ((minimize (minimize d)).states.getD (φ i) default).t1 =
          (((minimize d).states.getD i default).t1).map φ) := by
  have hve : dvalid (minimize d) = true := dvalid_minimize hv
  have hdist : ∀ i j, i < (minimize d).states.length →
      j < (minimize d).states.length → i ≠ j →
      ∃ w, dfaAcceptFrom (minimize d) i w ≠ dfaAcceptFrom (minimize d) j w :=
    fun i j hi hj hne => minimize_distinct hv hi hj hne
  have hlen2 : (minimize (minimize d)).states.length =
      (minimize d).states.length := minimize_length_of_distinct hve hdist
  refine ⟨fun i => Pval (finalPartition (minimize d)) i, hlen2, ?_, ?_, ?_, ?_, ?_, ?_⟩
  · intro i j hi hj hij
    exact finalPartition_inj_of_distinct hve hdist hi hj hij
  · intro c hc
    rw [length_minimize] at hlen2
    have hc' : c < (sortedKeys (minimize d) (finalPartition (minimize d))).length := by
      rw [← count_eq (dvalid_len hve), hlen2]
      exact hc
    exact finalPartition_surj hc'
  · intro i hi
    rw [← hlen2, length_minimize]
    exact finalPartition_class_lt hve hi
  · exact minimize_start (minimize d)
  · rw [minimize_trap]
    obtain ⟨t, ht, htl⟩ := dvalid_trap hve
    rw [ht]
    rfl
  · intro i hi
    have hcl : Pval (finalPartition (minimize d)) i <
        (finalPartition (minimize d)).foldl max 0 + 1 := finalPartition_class_lt hve hi
    rw [minimize_state hcl]
    have hrep := repOf_spec (d := minimize d)
      (c := Pval (finalPartition (minimize d)) i) ⟨i, hi, rfl⟩
    have hri : repOf (minimize d) (Pval (finalPartition (minimize d)) i) = i :=
      finalPartition_inj_of_distinct hve hdist hrep.1 hi hrep.2
    obtain ⟨⟨a0, h0, ha0⟩, ⟨a1, h1, ha1⟩⟩ := dvalid_trans hve hi
    refine ⟨?_, ?_, ?_⟩
    · simp only
      by_cases hacc : ((minimize d).states.getD i default).accept = true
      · rw [hacc]
        simp only [decide_eq_true_eq]
        exact ⟨i, hi, rfl, hacc⟩
      · rw [Bool.not_eq_true] at hacc
        rw [hacc]
        simp only [decide_eq_false_iff_not]
        rintro ⟨j, hj, hcl', haccj⟩
        have := finalPartition_inj_of_distinct hve hdist hj hi hcl'
        subst this
        rw [haccj] at hacc
        cases hacc
    · simp only
      rw [hri, h0]
      rfl
    · simp only
      rw [hri, h1]
      rfl

/-- Distinct states of the trap-free pipeline DFA have distinct languages. -/
theorem pipeline_distinct (r : Regex) {c1 c2 : Nat}
    (h1 : c1 < (pipeline r).states.length) (h2 : c2 < (pipeline r).states.length)
    (hne : c1 ≠ c2) :
    ∃ w, dfaAcceptFrom (pipeline r) c1 w ≠ dfaAcceptFrom (pipeline r) c2 w := by
  obtain ⟨sets, hc⟩ := convert_char (removeEps (thompson r))
    (validN_removeEps _ (validN_thompson r)) (removeEps_start_lt r)
  have hdv := dvalid_convert hc
  rw [pipeline_eq_rt, length_remove_trap] at h1 h2
  obtain ⟨w, hw⟩ := minimize_distinct hdv h1 h2 hne
  refine ⟨w, ?_⟩
  rw [pipeline_eq_min r w c1, pipeline_eq_min r w c2]
  exact hw

/-- The minimizer's fixpoint characterization, both directions. -/
theorem finalPartition_iff {d : DFA} (hv : dvalid d = true) {i j : Nat}
    (hi : i < d.states.length) (hj : j < d.states.length) :
    Pval (finalPartition d) i = Pval (finalPartition d) j ↔
      ((d.states.getD i default).accept = (d.states.getD j default).accept ∧
       Pval (finalPartition d) ((d.states.getD i default).t0.getD 0) =
         Pval (finalPartition d) ((d.states.getD j default).t0.getD 0) ∧
       Pval (finalPartition d) ((d.states.getD i default).t1.getD 0) =
         Pval (finalPartition d) ((d.states.getD j default).t1.getD 0)) := by
  constructor
  · intro h
    have hkey := finalPartition_forward hi hj h
    refine ⟨finalPartition_acc hi hj h, ?_, ?_⟩
    · exact congrArg (fun k => k.2.1) hkey
    · exact congrArg (fun k => k.2.2) hkey
  · rintro ⟨hacc, h0, h1⟩
    exact finalPartition_back hv hi hj hacc h0 h1

/-- Totality, trap shape and empty-subset redirection of the subset
construction. -/
theorem convert_wellformed (n : NFA) (hv : ValidN n.states = true)
    (hstart : n.start < n.states.length) :
    dvalid (convert n) = true ∧
    ∃ tp, (convert n).trap = some tp ∧ tp < (convert n).states.length ∧
      ((convert n).states.getD tp default).accept = false ∧
      ((convert n).states.getD tp default).t0 = some tp ∧
      ((convert n).states.getD tp default).t1 = some tp ∧
      ∃ sets : List (Finset Nat), sets.length = (convert n).states.length ∧
        sets.Nodup ∧ sets[0]? = some {n.start} ∧ (convert n).start = 0 ∧
        (∀ (k : Nat) (S : Finset Nat), sets[k]? = some S → (S = ∅ ↔ k = tp)) ∧
        (∀ (k : Nat) (S : Finset Nat) (b : Bool), sets[k]? = some S →
          moveSet n S b = ∅ →
          dTrans ((convert n).states.getD k default) b = some tp) := by
  obtain ⟨sets, hc⟩ := convert_char n hv hstart
  refine ⟨dvalid_convert hc, ?_⟩
  obtain ⟨tp, htp, htplt, htpset⟩ := hc.trapSpec
  have htrans_to_tp : ∀ (k : Nat) (S : Finset Nat) (b : Bool), sets[k]? = some S →
      moveSet n S b = ∅ →
      dTrans ((convert n).states.getD k default) b = some tp := by
    intro k S b hk hmv
    obtain ⟨st, hst, -, htr⟩ := hc.stSpec k S hk
    obtain ⟨j, hj, hjlt, hcase⟩ := htr b
    have hjtp : j = tp := by
      rcases hcase with ⟨-, htrj⟩ | hsetj
      · rw [htp] at htrj
        exact (Option.some.inj htrj).symm
      · rw [hmv] at hsetj
        have := (hc.emptyIff j ∅ hsetj).mp rfl
        rw [htp] at this
        exact (Option.some.inj this).symm
    rw [List.getD_eq_getElem?_getD, hst]
    simp only [Option.getD_some]
    rw [hj, hjtp]
  obtain ⟨st, hst, hstacc, htr⟩ := hc.stSpec tp ∅ htpset
  have hgetD : (convert n).states.getD tp default = st := by
    rw [List.getD_eq_getElem?_getD, hst]
    rfl
  have htp0 : dTrans st false = some tp := by
    have := htrans_to_tp tp ∅ false htpset (moveSet_empty n false)
    rwa [hgetD] at this
  have htp1 : dTrans st true = some tp := by
    have := htrans_to_tp tp ∅ true htpset (moveSet_empty n true)
    rwa [hgetD] at this
  refine ⟨tp, htp, htplt, ?_, ?_, ?_, sets, hc.len, hc.nodupSets, hc.startSet,
    hc.startIdx, ?_, htrans_to_tp⟩
  · rw [hgetD, hstacc]
    exact accOf_empty n
  · rw [hgetD]
    unfold dTrans at htp0
    simpa using htp0
  · rw [hgetD]
    unfold dTrans at htp1
    simpa using htp1
  · intro k S hk
    rw [hc.emptyIff k S hk, htp]
    constructor
    · intro h
      exact Option.some.inj h.symm
    · intro h
      rw [h]

/-- Acceptance, successor sets and silence-freeness of the silent-transition
eliminator. -/
theorem removeEps_characterization (n : NFA) (hv : ValidN n.states = true) :
    (∀ i, i < n.states.length →
      (acceptAt (removeEps n).states i = true ↔
        ∃ q, EpsReach n.states i q ∧ acceptAt n.states q = true)) ∧
    (∀ i, i < n.states.length → ∀ (b : Bool) (q : Nat),
      (edge (removeEps n).states i (.sym b) q ↔
        ∃ p p', EpsReach n.states i p ∧ edge n.states p (.sym b) p' ∧
          EpsReach n.states p' q)) ∧
    (∀ i q, ¬ edge (removeEps n).states i .eps q) := by
  refine ⟨?_, ?_, noEps_removeEps n⟩
  · intro i hi
    rw [acceptAt_removeEps n hi, List.any_eq_true]
    constructor
    · rintro ⟨q, hq, hacc⟩
      exact ⟨q, (mem_epsClosure hv hi).mp hq, hacc⟩
    · rintro ⟨q, hq, hacc⟩
      exact ⟨q, (mem_epsClosure hv hi).mpr hq, hacc⟩
  · intro i hi b q
    rw [edge_removeEps_sym n hi b q]
    exact mem_removeEpsTrans hv hi

/-- Trap elimination keeps the trap state in the vector; it is cleared,
unreachable (when distinct from the start), never named by the BFS, absent
from the table order and referenced by no grammar production. -/
theorem pipeline_trap_kept (r : Regex) :
    ∃ tc, (minPipeline r).trap = some tc ∧
      tc < (minPipeline r).states.length ∧
      (pipeline r).states.length = (minPipeline r).states.length ∧
      (pipeline r).states.getD tc default =
        ({ accept := false, t0 := none, t1 := none } : DSt) ∧
      ((pipeline r).start ≠ tc →
        ¬ DReach (pipeline r) (pipeline r).start tc ∧
        (name_states (pipeline r)).getD tc none = none ∧
        (∀ k, (k, tc) ∉ get_order (name_states (pipeline r))) ∧
        (∀ p ∈ grammar r,
          (∃ k i, i ≠ tc ∧ p.lhs = some k ∧
            (name_states (pipeline r)).getD i none = some k) ∧
          (∀ B, p.rhs = some B → ∃ j, j ≠ tc ∧
            (name_states (pipeline r)).getD j none = some B))) := by
  have hve := dvalid_minPipeline r
  obtain ⟨tc, htc, htcl⟩ := dvalid_trap hve
  have hno : ∀ u, ((pipeline r).states.getD u default).t0 ≠ some tc ∧
      ((pipeline r).states.getD u default).t1 ≠ some tc :=
    remove_trap_no_edge htc
  refine ⟨tc, htc, htcl, ?_, ?_, ?_⟩
  · rw [pipeline_eq_rt, length_remove_trap]
  · rw [pipeline_eq_rt, remove_trap_state htc htcl, if_pos rfl]
  · intro hst
    have hunnamed : (name_states (pipeline r)).getD tc none = none :=
      name_states_avoid hst hno
    refine ⟨unreachable_of_no_edge hst hno, hunnamed, ?_, ?_⟩
    · intro k hmem
      obtain ⟨-, hk⟩ := mem_get_order.mp hmem
      rw [hunnamed] at hk
      cases hk
    · intro p hp
      obtain ⟨k', i', horder, hprod⟩ := mem_grammarOf.mp hp
      have hi' := mem_get_order.mp horder
      obtain ⟨c0, nxt, rk, hT, hrk, hlhs, hsym, hcase⟩ := prodsOf_elim hprod
      constructor
      · refine ⟨k', i', ?_, ?_, hi'.2⟩
        · intro heq
          rw [heq, hunnamed] at hi'
          cases hi'.2
        · rw [hlhs, hi'.2]
      · intro B hB
        have hBrk : B = rk := by
          rcases hcase with ⟨hrhs, -⟩ | ⟨hrhs, -⟩
          · rw [hB] at hrhs
            exact Option.some.inj hrhs
          · rw [hrhs] at hB
            cases hB
        refine ⟨nxt, ?_, ?_⟩
        · intro heq
          rw [heq, hunnamed] at hrk
          cases hrk
        · rw [hBrk]
          exact hrk

/-- A concrete valid DFA used to instantiate the minimizer theorems. -/
def dfaEx : DFA :=
  { states := [{ accept := false, t0 := some 0, t1 := some 0 },
               { accept := true, t0 := some 1, t1 := some 1 }],
    start := 1, trap := some 0 }

/-- A concrete valid silent-free NFA used to instantiate the automaton
theorems. -/
def nfaEx : NFA :=
  { states := [{ accept := false, edges := [(Sym.sym false, 1)] },
               { accept := true, edges := [] }],
    start := 0 }

/-- C1: for every regular expression and every word over `{0,1}`, the DFA
produced by the full pipeline (Thompson construction, silent-transition
elimination, subset construction, minimization, trap removal) accepts the
word — running it from the start state along `t0`/`t1`, a missing
transition rejecting — exactly when the word matches the expression under
the standard language semantics. -/
theorem C1_pipeline_language_correct (r : Regex) (w : List Bool) :
    dfaAcceptFrom (pipeline r) (pipeline r).start w = true ↔ RMatch r w :=
  pipeline_accept r w

/-- C2 (amended to nonempty words): a nonempty string is derivable from the
emitted right-linear grammar, from the start nonterminal `q0`, exactly when
the final trap-free DFA accepts it.  The claim as stated fails for the
empty string: the grammar has no epsilon production, while the DFA may
accept the empty word (see the counterexample at `0*`). -/
theorem C2_grammar_derives_iff_accepts (r : Regex) (w : List Bool) (hne : w ≠ []) :
    Derives (grammar r) 0 w ↔
      dfaAcceptFrom (pipeline r) (pipeline r).start w = true :=
  grammar_pipeline r w hne

/-- Witness for C2 at the expression `0` and the word `0`. -/
theorem C2_grammar_witness :
    ([false] : List Bool) ≠ [] ∧
    (Derives (grammar (Regex.chr false)) 0 [false] ↔
      dfaAcceptFrom (pipeline (Regex.chr false))
        (pipeline (Regex.chr false)).start [false] = true) :=
  ⟨by decide, C2_grammar_derives_iff_accepts (Regex.chr false) [false] (by decide)⟩

/-- Counterexample for C2 as stated: for `0*` the final DFA accepts the
empty word, but no string derives from `q0` in zero steps — every
production of a right-linear grammar emits a terminal, so the empty word is
never derivable. -/
theorem C2_eps_counterexample :
    dfaAcceptFrom (pipeline (Regex.star (Regex.chr false)))
      (pipeline (Regex.star (Regex.chr false))).start [] = true ∧
    ¬ Derives (grammar (Regex.star (Regex.chr false))) 0 [] :=
  ⟨by decide, fun h => derives_ne_nil h rfl⟩

/-- C3: no two distinct states of the final automaton (after minimization
and trap removal) are behaviorally equivalent — in particular no two
reachable ones — so the reachable-state count is the Myhill–Nerode minimal
count for the language. -/
theorem C3_no_two_states_equivalent (r : Regex) (c1 c2 : Nat)
    (h1 : c1 < (pipeline r).states.length) (h2 : c2 < (pipeline r).states.length)
    (hne : c1 ≠ c2) :
    ∃ w, dfaAcceptFrom (pipeline r) c1 w ≠ dfaAcceptFrom (pipeline r) c2 w :=
  pipeline_distinct r h1 h2 hne

/-- Witness for C3 at the expression `0` and states 0 and 1. -/
theorem C3_states_witness :
    0 < (pipeline (Regex.chr false)).states.length ∧
    1 < (pipeline (Regex.chr false)).states.length ∧
    (0 : Nat) ≠ 1 ∧
    ∃ w, dfaAcceptFrom (pipeline (Regex.chr false)) 0 w ≠
      dfaAcceptFrom (pipeline (Regex.chr false)) 1 w :=
  ⟨by decide, by decide, by decide,
    C3_no_two_states_equivalent (Regex.chr false) 0 1 (by decide) (by decide)
      (by decide)⟩

/-- C4: at the refinement fixpoint, two DFA states share a class exactly
when they agree on acceptance and the classes of their 0- and 1-successors
match. -/
theorem C4_fixpoint_classes_iff {d : DFA} (hv : dvalid d = true) {i j : Nat}
    (hi : i < d.states.length) (hj : j < d.states.length) :
    Pval (finalPartition d) i = Pval (finalPartition d) j ↔
      ((d.states.getD i default).accept = (d.states.getD j default).accept ∧
       Pval (finalPartition d) ((d.states.getD i default).t0.getD 0) =
         Pval (finalPartition d) ((d.states.getD j default).t0.getD 0) ∧
       Pval (finalPartition d) ((d.states.getD i default).t1.getD 0) =
         Pval (finalPartition d) ((d.states.getD j default).t1.getD 0)) :=
  finalPartition_iff hv hi hj

/-- Witness for C4 at a concrete two-state DFA and states 0 and 1. -/
theorem C4_fixpoint_witness :
    dvalid dfaEx = true ∧ 0 < dfaEx.states.length ∧ 1 < dfaEx.states.length ∧
    (Pval (finalPartition dfaEx) 0 = Pval (finalPartition dfaEx) 1 ↔
      ((dfaEx.states.getD 0 default).accept = (dfaEx.states.getD 1 default).accept ∧
       Pval (finalPartition dfaEx) ((dfaEx.states.getD 0 default).t0.getD 0) =
         Pval (finalPartition dfaEx) ((dfaEx.states.getD 1 default).t0.getD 0) ∧
       Pval (finalPartition dfaEx) ((dfaEx.states.getD 0 default).t1.getD 0) =
         Pval (finalPartition dfaEx) ((dfaEx.states.getD 1 default).t1.getD 0))) :=
  ⟨by decide, by decide, by decide,
    C4_fixpoint_classes_iff (by decide) (by decide) (by decide)⟩

/-- C5: the subset-construction DFA is total and well-formed — every
transition target, the start and the trap exist; the trap is the one
canonical index of the empty subset, non-accepting, looping to itself on
both symbols; and every empty subset move is redirected to it. -/
theorem C5_subset_construction_wellformed (n : NFA) (hv : ValidN n.states = true)
    (hstart : n.start < n.states.length) :
    dvalid (convert n) = true ∧
    ∃ tp, (convert n).trap = some tp ∧ tp < (convert n).states.length ∧
      ((convert n).states.getD tp default).accept = false ∧
      ((convert n).states.getD tp default).t0 = some tp ∧
      ((convert n).states.getD tp default).t1 = some tp ∧
      ∃ sets : List (Finset Nat), sets.length = (convert n).states.length ∧
        sets.Nodup ∧ sets[0]? = some {n.start} ∧ (convert n).start = 0 ∧
        (∀ (k : Nat) (S : Finset Nat), sets[k]? = some S → (S = ∅ ↔ k = tp)) ∧
        (∀ (k : Nat) (S : Finset Nat) (b : Bool), sets[k]? = some S →
          moveSet n S b = ∅ →
          dTrans ((convert n).states.getD k default) b = some tp) :=
  convert_wellformed n hv hstart

/-- Witness for C5 at a concrete two-state NFA. -/
theorem C5_subset_witness :
    ValidN nfaEx.states = true ∧ nfaEx.start < nfaEx.states.length ∧
    (dvalid (convert nfaEx) = true ∧
    ∃ tp, (convert nfaEx).trap = some tp ∧ tp < (convert nfaEx).states.length ∧
      ((convert nfaEx).states.getD tp default).accept = false ∧
      ((convert nfaEx).states.getD tp default).t0 = some tp ∧
      ((convert nfaEx).states.getD tp default).t1 = some tp ∧
      ∃ sets : List (Finset Nat), sets.length = (convert nfaEx).states.length ∧
        sets.Nodup ∧ sets[0]? = some {nfaEx.start} ∧ (convert nfaEx).start = 0 ∧
        (∀ (k : Nat) (S : Finset Nat), sets[k]? = some S → (S = ∅ ↔ k = tp)) ∧
        (∀ (k : Nat) (S : Finset Nat) (b : Bool), sets[k]? = some S →
          moveSet nfaEx S b = ∅ →
          dTrans ((convert nfaEx).states.getD k default) b = some tp)) :=
  ⟨by decide, by decide, C5_subset_construction_wellformed nfaEx (by decide) (by decide)⟩

/-- C6: in the silent-transition eliminator's output a state accepts iff
some state of its silent-closure accepts; its successors for a real symbol
are the silent-closures of the closure members' direct successors; and no
silent transition remains. -/
theorem C6_removeEps_characterization (n : NFA) (hv : ValidN n.states = true) :
    (∀ i, i < n.states.length →
      (acceptAt (removeEps n).states i = true ↔
        ∃ q, EpsReach n.states i q ∧ acceptAt n.states q = true)) ∧
    (∀ i, i < n.states.length → ∀ (b : Bool) (q : Nat),
      (edge (removeEps n).states i (.sym b) q ↔
        ∃ p p', EpsReach n.states i p ∧ edge n.states p (.sym b) p' ∧
          EpsReach n.states p' q)) ∧
    (∀ i q, ¬ edge (removeEps n).states i .eps q) :=
  removeEps_characterization n hv

/-- Witness for C6 at a concrete two-state NFA. -/
theorem C6_removeEps_witness :
    ValidN nfaEx.states = true ∧
    ((∀ i, i < nfaEx.states.length →
      (acceptAt (removeEps nfaEx).states i = true ↔
        ∃ q, EpsReach nfaEx.states i q ∧ acceptAt nfaEx.states q = true)) ∧
    (∀ i, i < nfaEx.states.length → ∀ (b : Bool) (q : Nat),
      (edge (removeEps nfaEx).states i (.sym b) q ↔
        ∃ p p', EpsReach nfaEx.states i p ∧ edge nfaEx.states p (.sym b) p' ∧
          EpsReach nfaEx.states p' q)) ∧
    (∀ i q, ¬ edge (removeEps nfaEx).states i .eps q)) :=
  ⟨by decide, C6_removeEps_characterization nfaEx (by decide)⟩

/-- C7: each refinement pass only splits classes (states in one new class
were in one old class), so the class count never decreases and is bounded
by the state count, and the iteration is at a fixpoint after `|states|`
passes; the loop's result is that fixpoint. -/
theorem C7_refinement_terminates (d : DFA) :
    (∀ (P : List Nat) (i j : Nat), i < d.states.length → j < d.states.length →
      Pval (refineStep d P) i = Pval (refineStep d P) j → Pval P i = Pval P j) ∧
    (∀ P : List Nat, (classImage d P).card ≤ (classImage d (refineStep d P)).card) ∧
    (∀ P : List Nat, (classImage d P).card ≤ d.states.length) ∧
    refineStep d ((refineStep d)^[d.states.length] (initPartition d)) =
      (refineStep d)^[d.states.length] (initPartition d) ∧
    refineStep d (finalPartition d) = finalPartition d :=
  ⟨fun _ _ _ hi hj h => refineStep_refines hi hj h,
    fun P => card_classImage_mono d P, fun P => card_classImage_le d P,
    refineStep_iterate_fix d, (finalPartition_spec d).2⟩

/-- C8: minimization is idempotent up to isomorphism — re-minimizing
`minimize d` keeps the state count, and mapping each state to its final
class is a bijection preserving start, trap, accept flags and both
transition functions. -/
theorem C8_minimize_idempotent {d : DFA} (hv : dvalid d = true) :
    ∃ φ : Nat → Nat,
      (minimize (minimize d)).states.length = (minimize d).states.length ∧
      (∀ i j, i < (minimize d).states.length → j < (minimize d).states.length →
        φ i = φ j → i = j) ∧
      (∀ c, c < (minimize d).states.length →
        ∃ i, i < (minimize d).states.length ∧ φ i = c) ∧
      (∀ i, i < (minimize d).states.length → φ i < (minimize d).states.length) ∧
      (minimize (minimize d)).start = φ ((minimize d).start) ∧
      (minimize (minimize d)).trap = ((minimize d).trap).map φ ∧
      (∀ i, i < (minimize d).states.length →
        ((minimize (minimize d)).states.getD (φ i) default).accept =
          ((minimize d).states.getD i default).accept ∧
        ((minimize (minimize d)).states.getD (φ i) default).t0 =
          (((minimize d).states.getD i default).t0).map φ ∧
        ((minimize (minimize d)).states.getD (φ i) default).t1 =
          (((minimize d).states.getD i default).t1).map φ) :=
  minimize_minimize_iso hv

/-- Witness for C8 at a concrete two-state DFA. -/
theorem C8_minimize_witness :
    dvalid dfaEx = true ∧
    ∃ φ : Nat → Nat,
      (minimize (minimize dfaEx)).states.length = (minimize dfaEx).states.length ∧
      (∀ i j, i < (minimize dfaEx).states.length →
        j < (minimize dfaEx).states.length → φ i = φ j → i = j) ∧
      (∀ c, c < (minimize dfaEx).states.length →
        ∃ i, i < (minimize dfaEx).states.length ∧ φ i = c) ∧
      (∀ i, i < (minimize dfaEx).states.length →
        φ i < (minimize dfaEx).states.length) ∧
      (minimize (minimize dfaEx)).start = φ ((minimize dfaEx).start) ∧
      (minimize (minimize dfaEx)).trap = ((minimize dfaEx).trap).map φ ∧
      (∀ i, i < (minimize dfaEx).states.length →
        ((minimize (minimize dfaEx)).states.getD (φ i) default).accept =
          ((minimize dfaEx).states.getD i default).accept ∧
        ((minimize (minimize dfaEx)).states.getD (φ i) default).t0 =
          (((minimize dfaEx).states.getD i default).t0).map φ ∧
        ((minimize (minimize dfaEx)).states.getD (φ i) default).t1 =
          (((minimize dfaEx).states.getD i default).t1).map φ) :=
  ⟨by decide, C8_minimize_idempotent (by decide)⟩

/-- C9: `TrapRemover::remove_trap` equals, state by state, the
specification's description — trap-targeting transitions become "no
transition", the trap state itself is cleared, the recorded trap index is
cleared, everything else (other transitions, accept flags, start, state
count) is unchanged — and it is a no-op when no trap is recorded. -/
theorem C9_remove_trap_frame (d : DFA) :
    remove_trap d = removeTrapSpec d ∧ (d.trap = none → remove_trap d = d) :=
  ⟨remove_trap_eq_spec d, fun h => remove_trap_none h⟩

/-- C10: trap elimination keeps the trap state in the vector at its index
as a cleared, non-accepting state; when the start is not the former trap,
that state is unreachable, the breadth-first renderer never names it, it is
absent from the printed table order, and no grammar production references
it. -/
theorem C10_trap_kept_invisible (r : Regex) :
    ∃ tc, (minPipeline r).trap = some tc ∧
      tc < (minPipeline r).states.length ∧
      (pipeline r).states.length = (minPipeline r).states.length ∧
      (pipeline r).states.getD tc default =
        ({ accept := false, t0 := none, t1 := none } : DSt) ∧
      ((pipeline r).start ≠ tc →
        ¬ DReach (pipeline r) (pipeline r).start tc ∧
        (name_states (pipeline r)).getD tc none = none ∧
        (∀ k, (k, tc) ∉ get_order (name_states (pipeline r))) ∧
        (∀ p ∈ grammar r,
          (∃ k i, i ≠ tc ∧ p.lhs = some k ∧
            (name_states (pipeline r)).getD i none = some k) ∧
          (∀ B, p.rhs = some B → ∃ j, j ≠ tc ∧
            (name_states (pipeline r)).getD j none = some B))) :=
  pipeline_trap_kept r

end RG
